import Mathlib

/-!
# B+-tree set `ADS_set<Key, N>` (src/ADS_set.h): shallow embedding

Pointers are modelled by natural-number addresses. A node owns its children
(the ownership graph of the source is a tree), so an owned child is stored by
value inside its parent; the non-owning links (`next`, `head`, the leaf of an
iterator) are addresses that are resolved by searching the tree. `new Node`
takes the next unused address from a counter that is threaded through the
operations. The arrays `data` and `children` are modelled by the lists of
their live slots: `node_size` is the length of `data`.
-/

namespace ADS

variable {K : Type}

/-- The constant `order = 2 * N`. -/
def order (N : Nat) : Nat := 2 * N

/-- A `struct Node`: its own address, the `leaf` flag, the live part of `data`
(slots `0 .. node_size - 1`), the live part of `children` and `next`. -/
inductive Node (K : Type) where
  | mk (addr : Nat) (leaf : Bool) (data : List K) (children : List (Node K))
      (next : Option Nat) : Node K

namespace Node

/-- The address of the node (the value of `this`). -/
def addr : Node K → Nat
  | .mk a _ _ _ _ => a

/-- The field `leaf`. -/
def leaf : Node K → Bool
  | .mk _ lf _ _ _ => lf

/-- The live part of the field `data`. -/
def data : Node K → List K
  | .mk _ _ d _ _ => d

/-- The live part of the field `children`. -/
def children : Node K → List (Node K)
  | .mk _ _ _ ch _ => ch

/-- The field `next`. -/
def next : Node K → Option Nat
  | .mk _ _ _ _ nx => nx

/-- The field `node_size`. -/
def node_size (t : Node K) : Nat := t.data.length

/-- Shifting the slots from `i` on one up and storing `x` in slot `i`. -/
def insertAt {α : Type} (l : List α) (i : Nat) (x : α) : List α :=
  l.take i ++ x :: l.drop i

/-- `Node::minimum`: `data[0]` of the leftmost leaf; `none` where the source
reads a slot that is not live. -/
def minimum : Node K → Option K
  | .mk _ true d _ _ => d.head?
  | .mk _ false _ (c :: _) _ => minimum c
  | .mk _ false _ [] _ => none

/-- `Node::split` on a node holding more than `order` keys; `fresh` is the
address of the node made by `new Node(leaf, next)`. Returns the shrunk node
and the new right node. -/
def split (N : Nat) (fresh : Nat) : Node K → Node K × Node K
  | .mk a lf d ch nx =>
    let half := order N / 2
    if lf then
      (.mk a lf (d.take (half + 1)) ch (some fresh),
       .mk fresh lf ((d.drop (half + 1)).take half) [] nx)
    else
      (.mk a lf (d.take half) (ch.take (half + 1)) (some fresh),
       .mk fresh lf ((d.drop (half + 1)).take half)
         ((ch.drop (half + 1)).take (half + 1)) nx)

/-- `Node::insert_leaf`. Returns the node, the new right node if it was split,
and the allocation counter. -/
def insert_leaf (N : Nat) (key : K) (position : Nat) (fresh : Nat) :
    Node K → Node K × Option (Node K) × Nat
  | .mk a lf d ch nx =>
    let t1 : Node K := .mk a lf (insertAt d position key) ch nx
    if t1.node_size > order N then
      ((split N fresh t1).1, some (split N fresh t1).2, fresh + 1)
    else (t1, none, fresh)

/-- The part of `Node::insert_node` after the recursive call: `c` is the child
`children[position]` as the call left it and `ret` the call's result. -/
def insert_node (N : Nat) (position : Nat) (c : Node K) (ret : Option (Node K))
    (fresh : Nat) : Node K → Option (Node K × Option (Node K) × Nat)
  | .mk a lf d ch nx =>
    match ret with
    | none => some (.mk a lf d (ch.set position c) nx, none, fresh)
    | some r =>
      match r.minimum with
      | none => none
      | some m =>
        let t1 : Node K :=
          .mk a lf (insertAt d position m) (insertAt (ch.set position c) (position + 1) r) nx
        if t1.node_size > order N then
          some ((split N fresh t1).1, some (split N fresh t1).2, fresh + 1)
        else some (t1, none, fresh)

/-- The scanning loop of `Node::insert`: `none` when an equal key is met (the
source returns `nullptr`), else the index at which the loop stops. -/
def insert_loop [LinearOrder K] (key : K) : List K → Nat → Option Nat
  | [], i => some i
  | x :: xs, i =>
    if key = x then none
    else if key < x then some i
    else insert_loop key xs (i + 1)

mutual
/-- `Node::insert`. The result is the node after the call, the returned new
right node (`none` for `nullptr`) and the allocation counter; the outer `none`
stands for a read of a slot that is not live. -/
def insert [LinearOrder K] (N : Nat) (key : K) : Node K → Nat → Option (Node K × Option (Node K) × Nat)
  | .mk a lf d ch nx, fresh =>
    match insert_loop key d 0 with
    | none => some (.mk a lf d ch nx, none, fresh)
    | some i =>
      if lf then some (insert_leaf N key i fresh (.mk a lf d ch nx))
      else
        match insert_child N key ch i fresh with
        | none => none
        | some (c, ret, fresh1) => insert_node N i c ret fresh1 (.mk a lf d ch nx)
/-- The call `children[position]->insert(key)`. -/
def insert_child [LinearOrder K] (N : Nat) (key : K) :
    List (Node K) → Nat → Nat → Option (Node K × Option (Node K) × Nat)
  | [], _, _ => none
  | c :: _, 0, fresh => insert N key c fresh
  | _ :: cs, i + 1, fresh => insert_child N key cs i fresh
end

/-- An `Iterator`: the address of a leaf (`none` for `nullptr`) and a position. -/
structure Iterator where
  leaf : Option Nat
  position : Nat
  deriving DecidableEq, Repr

/-- The scanning loop of `Node::find`: `Sum.inl i` when the key is met in a
leaf at index `i`, else `Sum.inr i` with the index at which the loop stops. -/
def find_loop [LinearOrder K] (key : K) (lf : Bool) : List K → Nat → Sum Nat Nat
  | [], i => .inr i
  | x :: xs, i =>
    if key = x ∧ lf = true then .inl i
    else if key < x then .inr i
    else find_loop key lf xs (i + 1)

mutual
/-- `Node::find`. -/
def find [LinearOrder K] (key : K) : Node K → Option Iterator
  | .mk a lf d ch _ =>
    match find_loop key lf d 0 with
    | .inl i => some ⟨some a, i⟩
    | .inr i => if lf then some ⟨none, 0⟩ else find_child key ch i
/-- The call `children[i]->find(key)`. -/
def find_child [LinearOrder K] (key : K) : List (Node K) → Nat → Option Iterator
  | [], _ => none
  | c :: _, 0 => find key c
  | _ :: cs, i + 1 => find_child key cs i
end

/-- `Node::move_into_left`: returns the two nodes after the call. -/
def move_into_left (left right : Node K) : Option (Node K × Node K) :=
  match left, right with
  | .mk la llf ld lch lnx, .mk ra rlf rd rch rnx =>
    if llf then
      match rd with
      | [] => none
      | x :: xs => some (.mk la llf (ld ++ [x]) lch lnx, .mk ra rlf xs rch rnx)
    else
      match rd with
      | [] => none
      | _ :: xs =>
        match rch with
        | [] => none
        | c :: cs =>
          match c.minimum with
          | none => none
          | some m => some (.mk la llf (ld ++ [m]) (lch ++ [c]) lnx, .mk ra rlf xs cs rnx)

/-- `Node::move_into_right`: returns the two nodes after the call. -/
def move_into_right (left right : Node K) : Option (Node K × Node K) :=
  match left, right with
  | .mk la llf ld lch lnx, .mk ra rlf rd rch rnx =>
    if llf then
      match ld.getLast? with
      | none => none
      | some x => some (.mk la llf ld.dropLast lch lnx, .mk ra rlf (x :: rd) rch rnx)
    else
      match ld with
      | [] => none
      | _ :: _ =>
        match rch with
        | [] => none
        | c :: cs =>
          match lch.getLast? with
          | none => none
          | some l =>
            match c.minimum with
            | none => none
            | some m =>
              some (.mk la llf ld.dropLast lch.dropLast lnx,
                .mk ra rlf (m :: rd) (l :: c :: cs) rnx)

/-- `Node::merge_and_split`: returns the two nodes after the call. -/
def merge_and_split (N : Nat) (left right : Node K) : Option (Node K × Node K) :=
  if left.node_size < order N / 2 then move_into_left left right
  else move_into_right left right

/-- `Node::merge`: returns the left node after the call (the right one is
deleted). In a leaf the store `left->data[left->node_size] = right->minimum()`
is overwritten by the first round of the loop, or lies beyond `node_size`
when `right` is empty. -/
def merge (left right : Node K) : Option (Node K) :=
  match left, right with
  | .mk la llf ld lch _, .mk ra rlf rd rch rnx =>
    if llf then some (.mk la llf (ld ++ rd) lch rnx)
    else
      match (Node.mk ra rlf rd rch rnx).minimum with
      | none => none
      | some m => some (.mk la llf (ld ++ m :: rd) (lch ++ rch) rnx)

/-- `Node::erase_leaf`; `none` where `node_size - 1` wraps around. -/
def erase_leaf (position : Nat) : Node K → Option (Node K)
  | .mk a lf d ch nx =>
    if d.length = 0 then none
    else if position < d.length then some (.mk a lf (d.eraseIdx position) ch nx)
    else some (.mk a lf d.dropLast ch nx)

/-- The scanning loop of `Node::erase`. -/
def erase_loop [LinearOrder K] (key : K) (lf : Bool) : List K → Nat → Nat
  | [], i => i
  | x :: xs, i =>
    if (key = x ∧ lf = true) ∨ key < x then i
    else erase_loop key lf xs (i + 1)

/-- The part of `Node::erase_node` after the recursive call: `c` is the child
`children[position]` as the call left it, `sig` tells whether the call
returned that child (`true`) or `nullptr` (`false`). The result is the node
after the call and whether `this` (`true`) or `nullptr` is returned.
`key_number` is found as in the source, by comparing the returned pointer
with the children from the left. The outer `none` stands for the cases in
which the source leaves the live slots: the pointer is met in no slot, or
`node_size - 1` wraps around. -/
def erase_node (N : Nat) (position : Nat) (c : Node K) (sig : Bool) :
    Node K → Option (Node K × Bool)
  | .mk a lf d ch0 nx =>
    let ch := ch0.set position c
    if sig = false then some (.mk a lf d ch nx, false)
    else
      let node_size := d.length
      let key_number := ch.findIdx (fun x => x.addr == c.addr)
      if key_number > node_size then none
      else if c.node_size ≥ order N / 2 then
        if key_number = 0 then some (.mk a lf d ch nx, true)
        else
          match c.minimum with
          | none => none
          | some m => some (.mk a lf (d.set (key_number - 1) m) ch nx, false)
      else if node_size = 0 then none
      else
        match (if key_number = node_size then ch[node_size - 1]? else ch[key_number + 1]?) with
        | none => none
        | some mergee =>
          if mergee.node_size + c.node_size < order N then
            if key_number = node_size then
              match merge mergee c with
              | none => none
              | some l =>
                some (.mk a lf d.dropLast ((ch.set (node_size - 1) l).dropLast) nx,
                  decide (¬ (node_size - 1 ≥ order N / 2)))
            else
              match merge c mergee with
              | none => none
              | some l =>
                let d1 := d.eraseIdx key_number
                let ch1 := (ch.set key_number l).eraseIdx (key_number + 1)
                if key_number > 0 then
                  match l.minimum with
                  | none => none
                  | some m =>
                    some (.mk a lf (d1.set (key_number - 1) m) ch1 nx,
                      decide (node_size - 1 < order N / 2))
                else some (.mk a lf d1 ch1 nx, true)
          else
            if key_number = node_size then
              match merge_and_split N mergee c with
              | none => none
              | some (l, r) =>
                match r.minimum with
                | none => none
                | some m =>
                  some (.mk a lf (d.set (node_size - 1) m)
                    ((ch.set (node_size - 1) l).set node_size r) nx, false)
            else
              match merge_and_split N c mergee with
              | none => none
              | some (l, r) =>
                let ch1 := (ch.set key_number l).set (key_number + 1) r
                if key_number = 0 then
                  match r.minimum with
                  | none => none
                  | some m => some (.mk a lf (d.set 0 m) ch1 nx, true)
                else
                  match l.minimum with
                  | none => none
                  | some m1 =>
                    match r.minimum with
                    | none => none
                    | some m2 =>
                      some (.mk a lf ((d.set (key_number - 1) m1).set key_number m2) ch1 nx,
                        false)

mutual
/-- `Node::erase`. The result is the node after the call and whether the call
returned `this` (`true`) or `nullptr` (`false`). -/
def erase [LinearOrder K] (N : Nat) (key : K) : Node K → Option (Node K × Bool)
  | .mk a lf d ch nx =>
    let i := erase_loop key lf d 0
    if lf then
      match erase_leaf i (.mk a lf d ch nx) with
      | none => none
      | some t => some (t, true)
    else
      match erase_child N key ch i with
      | none => none
      | some (c, sig) => erase_node N i c sig (.mk a lf d ch nx)
/-- The call `children[position]->erase(key)`. -/
def erase_child [LinearOrder K] (N : Nat) (key : K) : List (Node K) → Nat → Option (Node K × Bool)
  | [], _ => none
  | c :: _, 0 => erase N key c
  | _ :: cs, i + 1 => erase_child N key cs i
end

mutual
/-- All nodes of the subtree of a node, the node itself first, then the
subtrees of its children from left to right. -/
def nodes : Node K → List (Node K)
  | .mk a lf d ch nx => .mk a lf d ch nx :: nodes_list ch
/-- All nodes of the subtrees of a list of nodes. -/
def nodes_list : List (Node K) → List (Node K)
  | [] => []
  | c :: cs => nodes c ++ nodes_list cs
end

/-- Reading through the pointer `p`: the node of the tree at address `p`. -/
def lookup (p : Nat) (t : Node K) : Option (Node K) :=
  (nodes t).find? (fun u => u.addr = p)

end Node

open Node

/-- The class `ADS_set`: the fields `leaves`, `root` and `head`, and the
allocation counter. -/
structure ADS_set (K : Type) where
  leaves : Nat
  root : Node K
  head : Nat
  fresh : Nat

namespace ADS_set

/-- The default constructor `ADS_set()`. -/
def new : ADS_set K := ⟨0, .mk 0 true [] [] none, 0, 1⟩

/-- `ADS_set::size`. -/
def size (s : ADS_set K) : Nat := s.leaves

/-- `ADS_set::empty`. -/
def empty (s : ADS_set K) : Bool := s.leaves = 0

/-- `ADS_set::end`. -/
def end_ : Iterator := ⟨none, 0⟩

/-- `ADS_set::begin`. -/
def begin_ (s : ADS_set K) : Iterator :=
  if s.empty then end_ else ⟨some s.head, 0⟩

/-- `ADS_set::find`. -/
def find [LinearOrder K] (s : ADS_set K) (key : K) : Option Iterator :=
  if s.empty then some end_ else s.root.find key

/-- `ADS_set::count`. -/
def count [LinearOrder K] (s : ADS_set K) (key : K) : Option Nat :=
  match s.find key with
  | none => none
  | some it => some (if it = end_ then 0 else 1)

/-- `ADS_set::insert(const key_type&)`. -/
def insert [LinearOrder K] (N : Nat) (s : ADS_set K) (key : K) : Option (ADS_set K × Iterator × Bool) :=
  match s.find key with
  | none => none
  | some i =>
    if i ≠ end_ then some (s, i, false)
    else
      match s.root.insert N key s.fresh with
      | none => none
      | some (root1, ret, fresh1) =>
        let s1 : Option (ADS_set K) :=
          match ret with
          | none => some ⟨s.leaves + 1, root1, s.head, fresh1⟩
          | some r =>
            match r.minimum with
            | none => none
            | some m => some ⟨s.leaves + 1, .mk fresh1 false [m] [root1, r] none, s.head, fresh1 + 1⟩
        match s1 with
        | none => none
        | some s2 =>
          match s2.find key with
          | none => none
          | some i2 => some (s2, i2, true)

/-- `ADS_set::erase`. -/
def erase [LinearOrder K] (N : Nat) (s : ADS_set K) (key : K) : Option (ADS_set K × Nat) :=
  match s.find key with
  | none => none
  | some i =>
    if i = end_ then some (s, 0)
    else
      match s.root.erase N key with
      | none => none
      | some (root1, _) =>
        if root1.node_size = 0 ∧ root1.leaf = false then
          match root1.children with
          | [] => none
          | c :: _ => some (⟨s.leaves - 1, c, s.head, s.fresh⟩, 1)
        else some (⟨s.leaves - 1, root1, s.head, s.fresh⟩, 1)

/-- `Iterator::operator*`. -/
def deref (s : ADS_set K) (it : Iterator) : Option K :=
  match it.leaf with
  | none => none
  | some p =>
    match s.root.lookup p with
    | none => none
    | some l => l.data[it.position]?

/-- `Iterator::operator++`. -/
def advance (s : ADS_set K) (it : Iterator) : Option Iterator :=
  match it.leaf with
  | none => none
  | some p =>
    match s.root.lookup p with
    | none => none
    | some l =>
      if it.position + 1 ≥ l.node_size then some ⟨l.next, 0⟩
      else some ⟨some p, it.position + 1⟩

/-- The loop `for (it = first; it != end(); ++it)` collecting `*it`, run for
at most `fuel` rounds; `none` when a read fails or the rounds do not suffice. -/
def iterate (s : ADS_set K) : Nat → Iterator → Option (List K)
  | 0, it => if it = end_ then some [] else none
  | fuel + 1, it =>
    if it = end_ then some []
    else
      match s.deref it, s.advance it with
      | some k, some it1 =>
        match iterate s fuel it1 with
        | none => none
        | some ks => some (k :: ks)
      | _, _ => none

/-- The keys met from `begin()` to `end()`. -/
def toList (s : ADS_set K) (fuel : Nat) : Option (List K) := iterate s fuel s.begin_

/-- The constructor from a sequence of keys: `insert` on each key in turn. -/
def insertAll [LinearOrder K] (N : Nat) : List K → ADS_set K → Option (ADS_set K)
  | [], s => some s
  | k :: ks, s =>
    match s.insert N k with
    | none => none
    | some (s1, _) => insertAll N ks s1

/-- The constructor `ADS_set(InputIt first, InputIt last)`. -/
def ofList [LinearOrder K] (N : Nat) (l : List K) : Option (ADS_set K) :=
  insertAll N l new

end ADS_set

/-! ## Notions used to state the properties -/

namespace Node

/-- The leaves of a subtree, from left to right. -/
def leafList (t : Node K) : List (Node K) := (nodes t).filter (fun u => u.leaf)

/-- The keys stored in the leaves of a subtree, from left to right. -/
def keys (t : Node K) : List K := (leafList t).flatMap data

/-- The addresses of all nodes of a subtree. -/
def addrs (t : Node K) : List Nat := (nodes t).map addr

/-- The first key stored in the leaves of a subtree. -/
def headKey (t : Node K) : Option K := (keys t).head?

/-- The shape of a subtree of height `h` for the parameter `N`: leaves are at
depth `h`, every node below the top holds at least `N` and at most `2 * N`
keys, an internal node has one child more than keys and each key is the
first key stored under the child to its right. -/
def WF (N : Nat) : Nat → Node K → Prop
  | 0, t => t.leaf = true ∧ t.children = []
  | h + 1, t =>
    t.leaf = false ∧ t.children.length = t.node_size + 1 ∧
    (∀ c ∈ t.children, WF N h c ∧ N ≤ c.node_size ∧ c.node_size ≤ 2 * N) ∧
    t.children.tail.map headKey = t.data.map some

/-- The leaves of a list are linked by `next` in the order of the list, the
last one having `next = e`. -/
def Linked : List (Node K) → Option Nat → Prop
  | [], _ => True
  | [l], e => l.next = e
  | l :: l2 :: r, e => l.next = some l2.addr ∧ Linked (l2 :: r) e

/-- A stretch `A` of the leaf chain may be replaced by `B`: `B` starts at the
same address and is linked to whatever `A` was linked to. -/
def Relink (A B : List (Node K)) : Prop :=
  B ≠ [] ∧ B.head?.map addr = A.head?.map addr ∧ ∀ e, Linked A e → Linked B e

/-- The keys of a strictly ascending list with `key` put at its place. -/
def insKey [LinearOrder K] (key : K) (l : List K) : List K :=
  l.filter (fun x => x < key) ++ key :: l.filter (fun x => key < x)

/-- The number of leading entries of `d` that are at most `key`. -/
def rankLe [LinearOrder K] (key : K) (d : List K) : Nat :=
  (d.takeWhile (fun x => decide (x ≤ key))).length

/-- The number of leading entries of `d` that are less than `key`. -/
def rankLt [LinearOrder K] (key : K) (d : List K) : Nat :=
  (d.takeWhile (fun x => decide (x < key))).length

/-- The leaves of an optional node. -/
def leafListOpt : Option (Node K) → List (Node K)
  | none => []
  | some r => leafList r

/-- The addresses of an optional node. -/
def addrsOpt : Option (Node K) → List Nat
  | none => []
  | some r => addrs r

/-- The keys of an optional node. -/
def keysOpt : Option (Node K) → List K
  | none => []
  | some r => keys r

/-- What `Node::insert` of an absent key does to a subtree `t` of height `h`:
`t1` is the node after the call, `ret` the returned right node. -/
def InsertPost [LinearOrder K] (N h : Nat) (key : K) (t : Node K) (fresh : Nat)
    (t1 : Node K) (ret : Option (Node K)) (fresh1 : Nat) : Prop :=
  t1.addr = t.addr ∧ WF N h t1 ∧ t1.node_size ≤ 2 * N ∧
  (match ret with
   | none => t.node_size ≤ t1.node_size
   | some r => WF N h r ∧ N ≤ r.node_size ∧ r.node_size ≤ 2 * N ∧ N ≤ t1.node_size) ∧
  keys t1 ++ keysOpt ret = insKey key (keys t) ∧
  Relink (leafList t) (leafList t1 ++ leafListOpt ret) ∧
  (addrs t1 ++ addrsOpt ret).Perm (addrs t ++ List.range' fresh (fresh1 - fresh)) ∧
  fresh ≤ fresh1

/-- What `Node::erase` of a stored key does to a subtree `t` of height `h`:
`t1` is the node after the call, `sig` tells whether `this` was returned. -/
def ErasePost [LinearOrder K] (N h : Nat) (key : K) (t t1 : Node K) (sig : Bool) : Prop :=
  t1.addr = t.addr ∧ WF N h t1 ∧ t1.node_size ≤ t.node_size ∧
  t.node_size ≤ t1.node_size + 1 ∧
  keys t1 = (keys t).filter (fun x => decide (x ≠ key)) ∧
  Relink (leafList t) (leafList t1) ∧
  (∀ x, (addrs t1).count x ≤ (addrs t).count x) ∧
  (sig = false → headKey t ≠ some key ∧ (N ≤ t.node_size → N ≤ t1.node_size))

end Node

namespace ADS_set

/-- Following `next` from the leaf at address `p` for at most `fuel` leaves:
the leaves met, `none` when a read fails or the rounds do not suffice. -/
def walk (s : ADS_set K) : Nat → Option Nat → Option (List (Node K))
  | _, none => some []
  | 0, some _ => none
  | fuel + 1, some p =>
    match s.root.lookup p with
    | none => none
    | some l =>
      match walk s fuel l.next with
      | none => none
      | some ls => some (l :: ls)

/-- The representation invariant of the container. -/
def Inv [LinearOrder K] (N : Nat) (s : ADS_set K) : Prop :=
  ∃ h, WF N h s.root ∧ s.root.node_size ≤ 2 * N ∧ (1 ≤ h → 1 ≤ s.root.node_size) ∧
    (keys s.root).Sorted (· < ·) ∧
    Linked (leafList s.root) none ∧
    (leafList s.root).head?.map addr = some s.head ∧
    (addrs s.root).Nodup ∧ (∀ a ∈ addrs s.root, a < s.fresh) ∧
    s.leaves = (keys s.root).length

/-- A public modifying call. -/
inductive Op (K : Type) where
  | insert (k : K) : Op K
  | erase (k : K) : Op K

/-- The containers reachable from the empty one by `insert` and `erase`. -/
inductive Reachable [LinearOrder K] (N : Nat) : ADS_set K → Prop where
  | new : Reachable N ADS_set.new
  | insert (s s1 : ADS_set K) (k : K) (r : Iterator × Bool) :
      Reachable N s → s.insert N k = some (s1, r) → Reachable N s1
  | erase (s s1 : ADS_set K) (k : K) (r : Nat) :
      Reachable N s → s.erase N k = some (s1, r) → Reachable N s1

/-- Running public calls in turn from a container: the container reached,
the number of `insert` calls that returned `true` and the number of `erase`
calls that returned 1. -/
def runOps [LinearOrder K] (N : Nat) : List (Op K) → ADS_set K → Option (ADS_set K × Nat × Nat)
  | [], s => some (s, 0, 0)
  | Op.insert k :: ops, s =>
    match s.insert N k with
    | none => none
    | some (s1, _, b) =>
      match runOps N ops s1 with
      | none => none
      | some (s2, i, e) => some (s2, (if b then i + 1 else i), e)
  | Op.erase k :: ops, s =>
    match s.erase N k with
    | none => none
    | some (s1, r) =>
      match runOps N ops s1 with
      | none => none
      | some (s2, i, e) => some (s2, i, e + r)

/-- The keys passed to `insert` in a sequence of public calls. -/
def insertKeys : List (Op K) → List K
  | [] => []
  | Op.insert k :: ops => k :: insertKeys ops
  | Op.erase _ :: ops => insertKeys ops

/-- The container built for `N = 1` by inserting 5, 3 and 8 into the empty
container: the root is an internal node over two leaves. -/
def sample : ADS_set Nat :=
  ⟨3, .mk 2 false [8] [.mk 0 true [3, 5] [] (some 1), .mk 1 true [8] [] none] none, 0, 3⟩

/-- The loop of `operator==`: `while (lhs_iterator != lhs.end())`, comparing
`*lhs_iterator` with `*rhs_iterator` and advancing both, run for at most
`fuel` rounds; `none` when a read fails or the rounds do not suffice. -/
def eq_loop [LinearOrder K] (lhs rhs : ADS_set K) : Nat → Iterator → Iterator → Option Bool
  | 0, li, _ => if li = end_ then some true else none
  | fuel + 1, li, ri =>
    if li = end_ then some true
    else
      match lhs.deref li with
      | none => none
      | some x =>
        match rhs.deref ri with
        | none => none
        | some y =>
          if x = y then
            match lhs.advance li with
            | none => none
            | some li1 =>
              match rhs.advance ri with
              | none => none
              | some ri1 => eq_loop lhs rhs fuel li1 ri1
          else some false

/-- The friend `operator==(lhs, rhs)`. -/
def equal [LinearOrder K] (lhs rhs : ADS_set K) (fuel : Nat) : Option Bool :=
  if rhs.leaves ≠ lhs.leaves then some false
  else if rhs.leaves = 0 then some true
  else eq_loop lhs rhs fuel lhs.begin_ rhs.begin_

/-- The friend `operator!=(lhs, rhs)`. -/
def notEqual [LinearOrder K] (lhs rhs : ADS_set K) (fuel : Nat) : Option Bool :=
  (equal lhs rhs fuel).map (fun b => !b)

/-- The iterator `it` of the container `s` stands in front of the keys `ks`:
it is `end()` and `ks` is empty, or it points into a leaf of the tree and `ks`
are the keys from that slot on, through the rest of the leaves. -/
def IterAt (s : ADS_set K) (it : Iterator) (ks : List K) : Prop :=
  (it = end_ ∧ ks = []) ∨
  ∃ P l S i, leafList s.root = P ++ l :: S ∧ i < l.data.length ∧
    it = ⟨some l.addr, i⟩ ∧ ks = l.data.drop i ++ S.flatMap data

/-- The container reached from `sample` by `erase(3)` for `N = 1`: two leaves
with one key each. -/
def sample2 : ADS_set Nat :=
  ⟨2, .mk 2 false [8] [.mk 0 true [5] [] (some 1), .mk 1 true [8] [] none] none, 0, 3⟩

end ADS_set

namespace Node

mutual
/-- All nodes of the subtree of a node, each with its depth, the node itself
at depth `d`; the order is that of `nodes`. -/
def depths (d : Nat) : Node K → List (Nat × Node K)
  | .mk a lf dt ch nx => (d, .mk a lf dt ch nx) :: depths_list (d + 1) ch
/-- All nodes of the subtrees of a list of nodes, each with its depth. -/
def depths_list (d : Nat) : List (Node K) → List (Nat × Node K)
  | [] => []
  | c :: cs => depths d c ++ depths_list d cs
end

/-- The depths of the leaves of a tree, from left to right. -/
def leafDepths (t : Node K) : List Nat :=
  ((depths 0 t).filter (fun p => p.2.leaf)).map (fun p => p.1)

/-- The height of a tree: the largest depth of a leaf. -/
def height (t : Node K) : Nat :=
  (leafDepths t).foldr max 0

end Node

namespace ADS_set

/-- The keys stored after a sequence of public calls, when the keys `acc` are
stored before it: `insert k` adds `k` unless it is stored, `erase k` removes
it. -/
def liveFrom [LinearOrder K] : List (Op K) → List K → List K
  | [], acc => acc
  | Op.insert k :: ops, acc => liveFrom ops (if k ∈ acc then acc else k :: acc)
  | Op.erase k :: ops, acc => liveFrom ops (acc.filter (fun x => decide (x ≠ k)))

/-- The keys stored after a sequence of public calls on the empty container. -/
def liveKeys [LinearOrder K] (ops : List (Op K)) : List K :=
  liveFrom ops []

/-- The number of `insert` calls in a sequence whose key is not stored at the
time of the call: every distinct key counts once, and once more for each
insert after it has been erased. -/
def freshInserts [LinearOrder K] : List (Op K) → List K → Nat
  | [], _ => 0
  | Op.insert k :: ops, acc =>
    (if k ∈ acc then 0 else 1) + freshInserts ops (if k ∈ acc then acc else k :: acc)
  | Op.erase k :: ops, acc => freshInserts ops (acc.filter (fun x => decide (x ≠ k)))

/-- The number of `erase` calls in a sequence whose key is stored at the time
of the call. -/
def hitErases [LinearOrder K] : List (Op K) → List K → Nat
  | [], _ => 0
  | Op.insert k :: ops, acc => hitErases ops (if k ∈ acc then acc else k :: acc)
  | Op.erase k :: ops, acc =>
    (if k ∈ acc then 1 else 0) + hitErases ops (acc.filter (fun x => decide (x ≠ k)))

end ADS_set

end ADS

namespace ADS
namespace Node

variable {K : Type}

/-! ## Unfolding the recursive definitions -/

theorem nodes_list_eq (ch : List (Node K)) : nodes_list ch = ch.flatMap nodes := by
  induction ch with
  | nil => simp [nodes_list]
  | cons c cs ih => simp [nodes_list, ih]

theorem nodes_mk (a : Nat) (lf : Bool) (d : List K) (ch : List (Node K)) (nx : Option Nat) :
    nodes (.mk a lf d ch nx) = .mk a lf d ch nx :: ch.flatMap nodes := by
  rw [nodes, nodes_list_eq]

theorem leafList_leaf (a : Nat) (d : List K) (nx : Option Nat) :
    leafList (.mk a true d [] nx) = [.mk a true d [] nx] := by
  simp [leafList, nodes_mk, leaf]

theorem leafList_node (a : Nat) (d : List K) (ch : List (Node K)) (nx : Option Nat) :
    leafList (.mk a false d ch nx) = ch.flatMap leafList := by
  simp only [leafList, nodes_mk]
  rw [List.filter_cons_of_neg (by simp [leaf])]
  induction ch with
  | nil => simp
  | cons c cs ih => simp [List.flatMap_cons, List.filter_append, ih, leafList]

theorem keys_leaf (a : Nat) (d : List K) (nx : Option Nat) :
    keys (.mk a true d [] nx) = d := by
  simp [keys, leafList_leaf, data]

theorem keys_node (a : Nat) (d : List K) (ch : List (Node K)) (nx : Option Nat) :
    keys (.mk a false d ch nx) = ch.flatMap keys := by
  simp only [keys, leafList_node]
  induction ch with
  | nil => simp
  | cons c cs ih => simp [List.flatMap_cons, ih, keys]

theorem addrs_mk (a : Nat) (lf : Bool) (d : List K) (ch : List (Node K)) (nx : Option Nat) :
    addrs (.mk a lf d ch nx) = a :: ch.flatMap addrs := by
  simp only [addrs, nodes_mk, List.map_cons, addr]
  congr 1
  induction ch with
  | nil => simp
  | cons c cs ih => simp [List.flatMap_cons, ih, addrs]

theorem insert_child_eq [LinearOrder K] (N : Nat) (key : K) (ch : List (Node K)) (i fresh : Nat) :
    insert_child N key ch i fresh =
      match ch[i]? with
      | none => none
      | some c => insert N key c fresh := by
  induction ch generalizing i with
  | nil => simp [insert_child]
  | cons c cs ih =>
    cases i with
    | zero => simp [insert_child]
    | succ j => simp [insert_child, ih]

theorem find_child_eq [LinearOrder K] (key : K) (ch : List (Node K)) (i : Nat) :
    find_child key ch i =
      match ch[i]? with
      | none => none
      | some c => find key c := by
  induction ch generalizing i with
  | nil => simp [find_child]
  | cons c cs ih =>
    cases i with
    | zero => simp [find_child]
    | succ j => simp [find_child, ih]

theorem erase_child_eq [LinearOrder K] (N : Nat) (key : K) (ch : List (Node K)) (i : Nat) :
    erase_child N key ch i =
      match ch[i]? with
      | none => none
      | some c => erase N key c := by
  induction ch generalizing i with
  | nil => simp [erase_child]
  | cons c cs ih =>
    cases i with
    | zero => simp [erase_child]
    | succ j => simp [erase_child, ih]


/-! ## Lists -/

theorem split_at {α : Type} (l : List α) (i : Nat) (c : α) (h : l[i]? = some c) :
    l = l.take i ++ c :: l.drop (i + 1) := by
  have hi : i < l.length := by
    by_contra hcon
    rw [List.getElem?_eq_none (by omega)] at h
    cases h
  have hc : l[i] = c := by
    rw [List.getElem?_eq_getElem hi] at h
    exact Option.some.inj h
  rw [← hc, List.getElem_cons_drop, List.take_append_drop]

theorem lt_of_getElem?_some {α : Type} {l : List α} {i : Nat} {c : α} (h : l[i]? = some c) :
    i < l.length := by
  by_contra hcon
  rw [List.getElem?_eq_none (by omega)] at h
  cases h

theorem set_eq_of_getElem? {α : Type} (l : List α) (i : Nat) (c x : α) (h : l[i]? = some c) :
    l.set i x = l.take i ++ x :: l.drop (i + 1) := by
  have hi := lt_of_getElem?_some h
  rw [List.set_eq_take_append_cons_drop, if_pos hi]

/-! ## Shape -/

theorem WF_succ (N h : Nat) (t : Node K) :
    WF N (h + 1) t ↔ t.leaf = false ∧ t.children.length = t.node_size + 1 ∧
      (∀ c ∈ t.children, WF N h c ∧ N ≤ c.node_size ∧ c.node_size ≤ 2 * N) ∧
      t.children.tail.map headKey = t.data.map some := Iff.rfl

theorem WF_zero (N : Nat) (t : Node K) :
    WF N 0 t ↔ t.leaf = true ∧ t.children = [] := Iff.rfl

theorem WF_leaf_mk (N a : Nat) (lf : Bool) (d : List K) (ch : List (Node K)) (nx : Option Nat) :
    WF N 0 (.mk a lf d ch nx) ↔ lf = true ∧ ch = [] := Iff.rfl

theorem WF_node_mk (N h a : Nat) (lf : Bool) (d : List K) (ch : List (Node K))
    (nx : Option Nat) :
    WF N (h + 1) (.mk a lf d ch nx) ↔ lf = false ∧
      ch.length = d.length + 1 ∧
      (∀ c ∈ ch, WF N h c ∧ N ≤ c.node_size ∧ c.node_size ≤ 2 * N) ∧
      ch.tail.map headKey = d.map some := Iff.rfl

theorem keys_split (a : Nat) (d : List K) (ch : List (Node K)) (nx : Option Nat)
    (i : Nat) (c : Node K) (h : ch[i]? = some c) :
    keys (.mk a false d ch nx) =
      (ch.take i).flatMap keys ++ (keys c ++ (ch.drop (i + 1)).flatMap keys) := by
  rw [keys_node]
  conv_lhs => rw [split_at ch i c h]
  simp [List.flatMap_append]

theorem leafList_split (a : Nat) (d : List K) (ch : List (Node K)) (nx : Option Nat)
    (i : Nat) (c : Node K) (h : ch[i]? = some c) :
    leafList (.mk a false d ch nx) =
      (ch.take i).flatMap leafList ++ (leafList c ++ (ch.drop (i + 1)).flatMap leafList) := by
  rw [leafList_node]
  conv_lhs => rw [split_at ch i c h]
  simp [List.flatMap_append]

theorem WF.keys_ne_nil {N : Nat} (hN : 1 ≤ N) :
    ∀ (h : Nat) (t : Node K), WF N h t → N ≤ t.node_size → keys t ≠ [] := by
  intro h
  induction h with
  | zero =>
    intro t hwf hsz
    obtain ⟨a, lf, d, ch, nx⟩ := t
    obtain ⟨h1, h2⟩ := (WF_leaf_mk ..).1 hwf
    subst h1; subst h2
    rw [keys_leaf]
    have : 1 ≤ d.length := le_trans hN hsz
    intro hd
    rw [hd] at this
    simp at this
  | succ h ih =>
    intro t hwf _
    obtain ⟨a, lf, d, ch, nx⟩ := t
    obtain ⟨h1, h3, h4, _⟩ := (WF_node_mk ..).1 hwf
    subst h1
    rw [keys_node]
    cases ch with
    | nil => simp at h3
    | cons c cs =>
      have := h4 c (by simp)
      have hc := ih c this.1 this.2.1
      simp [List.flatMap_cons, hc]

theorem WF.minimum_eq {N : Nat} (hN : 1 ≤ N) :
    ∀ (h : Nat) (t : Node K), WF N h t → minimum t = headKey t := by
  intro h
  induction h with
  | zero =>
    intro t hwf
    obtain ⟨a, lf, d, ch, nx⟩ := t
    obtain ⟨h1, h2⟩ := (WF_leaf_mk ..).1 hwf
    subst h1; subst h2
    simp [minimum, headKey, keys_leaf]
  | succ h ih =>
    intro t hwf
    obtain ⟨a, lf, d, ch, nx⟩ := t
    obtain ⟨h1, h3, h4, _⟩ := (WF_node_mk ..).1 hwf
    subst h1
    cases ch with
    | nil => simp at h3
    | cons c cs =>
      have hc := h4 c (by simp)
      have hne := WF.keys_ne_nil hN h c hc.1 hc.2.1
      rw [minimum, ih c hc.1, headKey, headKey, keys_node, List.flatMap_cons,
        List.head?_append_of_ne_nil _ hne]

theorem WF.headKey_child {N h a : Nat} {d : List K} {ch : List (Node K)} {nx : Option Nat}
    (hwf : WF N (h + 1) (.mk a false d ch nx)) (j : Nat) (x : K) (hx : d[j]? = some x) :
    ∃ c, ch[j + 1]? = some c ∧ headKey c = some x := by
  obtain ⟨_, _, _, h5⟩ := (WF_node_mk ..).1 hwf
  have h6 : (ch.tail.map headKey)[j]? = (d.map some)[j]? := by rw [h5]
  rw [List.getElem?_map, List.getElem?_map, List.getElem?_tail, hx] at h6
  cases hc : ch[j + 1]? with
  | none => rw [hc] at h6; simp at h6
  | some c =>
    rw [hc] at h6
    exact ⟨c, rfl, by simpa using h6⟩

theorem WF.child {N h a : Nat} {d : List K} {ch : List (Node K)} {nx : Option Nat}
    (hwf : WF N (h + 1) (.mk a false d ch nx)) (i : Nat) (hi : i ≤ d.length) :
    ∃ c, ch[i]? = some c ∧ WF N h c ∧ N ≤ c.node_size ∧ c.node_size ≤ 2 * N := by
  obtain ⟨_, h3, h4, _⟩ := (WF_node_mk ..).1 hwf
  have hlt : i < ch.length := by omega
  exact ⟨ch[i], List.getElem?_eq_getElem hlt, h4 _ (List.getElem_mem hlt)⟩

end Node
end ADS

namespace ADS
namespace Node

variable {K : Type} [LinearOrder K]

/-! ## The scanning loops -/

theorem rankLe_le (key : K) (d : List K) : rankLe key d ≤ d.length := by
  unfold rankLe
  exact (List.takeWhile_sublist _).length_le

theorem rankLt_le (key : K) (d : List K) : rankLt key d ≤ d.length := by
  unfold rankLt
  exact (List.takeWhile_sublist _).length_le

theorem rankLe_cons (key x : K) (xs : List K) :
    rankLe key (x :: xs) = if x ≤ key then rankLe key xs + 1 else 0 := by
  unfold rankLe
  by_cases h : x ≤ key <;> simp [List.takeWhile_cons, h]

theorem rankLt_cons (key x : K) (xs : List K) :
    rankLt key (x :: xs) = if x < key then rankLt key xs + 1 else 0 := by
  unfold rankLt
  by_cases h : x < key <;> simp [List.takeWhile_cons, h]

theorem rankLe_before (key : K) (d : List K) :
    ∀ x ∈ d.take (rankLe key d), x ≤ key := by
  induction d with
  | nil => simp
  | cons y ys ih =>
    rw [rankLe_cons]
    by_cases h : y ≤ key
    · rw [if_pos h]
      intro x hx
      rw [List.take_succ_cons, List.mem_cons] at hx
      rcases hx with rfl | hx
      · exact h
      · exact ih x hx
    · rw [if_neg h]; simp

theorem rankLe_at (key : K) (d : List K) (x : K) (hx : d[rankLe key d]? = some x) :
    key < x := by
  induction d with
  | nil => simp at hx
  | cons y ys ih =>
    rw [rankLe_cons] at hx
    by_cases h : y ≤ key
    · rw [if_pos h] at hx
      exact ih (by simpa using hx)
    · rw [if_neg h] at hx
      simp at hx
      subst hx
      exact not_le.1 h

theorem rankLt_before (key : K) (d : List K) :
    ∀ x ∈ d.take (rankLt key d), x < key := by
  induction d with
  | nil => simp
  | cons y ys ih =>
    rw [rankLt_cons]
    by_cases h : y < key
    · rw [if_pos h]
      intro x hx
      rw [List.take_succ_cons, List.mem_cons] at hx
      rcases hx with rfl | hx
      · exact h
      · exact ih x hx
    · rw [if_neg h]; simp

theorem rankLt_at (key : K) (d : List K) (x : K) (hx : d[rankLt key d]? = some x) :
    key ≤ x := by
  induction d with
  | nil => simp at hx
  | cons y ys ih =>
    rw [rankLt_cons] at hx
    by_cases h : y < key
    · rw [if_pos h] at hx
      exact ih (by simpa using hx)
    · rw [if_neg h] at hx
      simp at hx
      subst hx
      exact not_lt.1 h

theorem rankLe_eq_rankLt (key : K) (d : List K) (hk : key ∉ d) :
    rankLe key d = rankLt key d := by
  induction d with
  | nil => rfl
  | cons y ys ih =>
    rw [rankLe_cons, rankLt_cons]
    have hne : y ≠ key := fun h => hk (by simp [h])
    have hk2 : key ∉ ys := fun h => hk (by simp [h])
    by_cases h : y < key
    · rw [if_pos h, if_pos (le_of_lt h), ih hk2]
    · rw [if_neg h, if_neg (fun hle => h (lt_of_le_of_ne hle hne))]

theorem insert_loop_eq (key : K) (d : List K) (i0 : Nat) (hk : key ∉ d) :
    insert_loop key d i0 = some (i0 + rankLe key d) := by
  induction d generalizing i0 with
  | nil => simp [insert_loop, rankLe]
  | cons y ys ih =>
    have hne : key ≠ y := fun h => hk (by simp [h])
    have hk2 : key ∉ ys := fun h => hk (by simp [h])
    rw [insert_loop, if_neg hne, rankLe_cons]
    by_cases h : key < y
    · rw [if_pos h, if_neg (not_le.2 h)]; rfl
    · rw [if_neg h, if_pos (not_lt.1 h), ih _ hk2]
      congr 1; omega

theorem insert_loop_mem (key : K) (d : List K) (i0 : Nat) (hk : key ∈ d)
    (hs : d.Sorted (· < ·)) : insert_loop key d i0 = none := by
  induction d generalizing i0 with
  | nil => simp at hk
  | cons y ys ih =>
    rw [insert_loop]
    by_cases h : key = y
    · rw [if_pos h]
    · rw [if_neg h]
      have hk2 : key ∈ ys := by
        rcases List.mem_cons.1 hk with h1 | h1
        · exact absurd h1 h
        · exact h1
      have hlt : y < key := List.rel_of_sorted_cons hs key hk2
      rw [if_neg (not_lt.2 (le_of_lt hlt))]
      exact ih _ hk2 hs.of_cons

theorem find_loop_node (key : K) (d : List K) (i0 : Nat) :
    find_loop key false d i0 = .inr (i0 + rankLe key d) := by
  induction d generalizing i0 with
  | nil => simp [find_loop, rankLe]
  | cons y ys ih =>
    rw [find_loop, if_neg (by simp), rankLe_cons]
    by_cases h : key < y
    · rw [if_pos h, if_neg (not_le.2 h)]; rfl
    · rw [if_neg h, if_pos (not_lt.1 h), ih]
      congr 1; omega

theorem find_loop_leaf (key : K) (d : List K) (i0 : Nat) :
    find_loop key true d i0 =
      if d[rankLt key d]? = some key then .inl (i0 + rankLt key d)
      else .inr (i0 + rankLt key d) := by
  induction d generalizing i0 with
  | nil => simp [find_loop, rankLt]
  | cons y ys ih =>
    rw [find_loop, rankLt_cons]
    by_cases h : key = y
    · subst h
      simp
    · rw [if_neg (by simp [h])]
      by_cases h2 : key < y
      · rw [if_pos h2, if_neg (not_lt.2 (le_of_lt h2))]
        simp [Ne.symm h]
      · have h3 : y < key := lt_of_le_of_ne (not_lt.1 h2) (Ne.symm h)
        rw [if_neg h2, if_pos h3, ih]
        simp [Nat.add_assoc, Nat.add_comm 1]

theorem erase_loop_node (key : K) (d : List K) (i0 : Nat) :
    erase_loop key false d i0 = i0 + rankLe key d := by
  induction d generalizing i0 with
  | nil => simp [erase_loop, rankLe]
  | cons y ys ih =>
    rw [erase_loop, rankLe_cons]
    by_cases h : key < y
    · rw [if_pos (Or.inr h), if_neg (not_le.2 h)]; rfl
    · rw [if_neg (by simp [h]), if_pos (not_lt.1 h), ih]
      omega

theorem erase_loop_leaf (key : K) (d : List K) (i0 : Nat) :
    erase_loop key true d i0 = i0 + rankLt key d := by
  induction d generalizing i0 with
  | nil => simp [erase_loop, rankLt]
  | cons y ys ih =>
    rw [erase_loop, rankLt_cons]
    by_cases h : y < key
    · rw [if_neg (by
        intro hcon
        rcases hcon with ⟨h1, _⟩ | h1
        · exact absurd h1 (ne_of_gt h)
        · exact absurd h1 (not_lt.2 (le_of_lt h))), if_pos h, ih]
      omega
    · rw [if_pos (by
        rcases lt_or_eq_of_le (not_lt.1 h) with h1 | h1
        · exact Or.inr h1
        · exact Or.inl ⟨h1, rfl⟩), if_neg h]
      rfl

end Node
end ADS

namespace ADS
namespace Node

variable {K : Type} [LinearOrder K]

/-! ## Descending into a child -/

theorem sorted_head_le {l : List K} (hs : l.Sorted (· < ·)) {x : K} (hx : l.head? = some x) :
    ∀ y ∈ l, x ≤ y := by
  cases l with
  | nil => simp at hx
  | cons z zs =>
    simp at hx
    subst hx
    intro y hy
    rcases List.mem_cons.1 hy with h | h
    · exact le_of_eq h.symm
    · exact le_of_lt (List.rel_of_sorted_cons hs y h)

omit [LinearOrder K] in
theorem mem_of_head? {l : List K} {x : K} (hx : l.head? = some x) : x ∈ l := by
  cases l with
  | nil => simp at hx
  | cons z zs =>
    simp at hx
    subst hx
    simp

theorem descend {N h a : Nat} {d : List K} {ch : List (Node K)} {nx : Option Nat}
    (hwf : WF N (h + 1) (.mk a false d ch nx))
    (hs : (keys (.mk a false d ch nx)).Sorted (· < ·)) (key : K) :
    ∃ c, ch[rankLe key d]? = some c ∧ WF N h c ∧
      (N ≤ c.node_size ∧ c.node_size ≤ 2 * N) ∧
      (keys c).Sorted (· < ·) ∧
      (∀ x ∈ (ch.take (rankLe key d)).flatMap keys, x < key) ∧
      (∀ x ∈ (ch.drop (rankLe key d + 1)).flatMap keys, key < x) ∧
      (0 < rankLe key d → ∃ m, headKey c = some m ∧ m ≤ key ∧
        d[rankLe key d - 1]? = some m) := by
  obtain ⟨c, hc, hcwf, hcsz⟩ := WF.child hwf (rankLe key d) (rankLe_le key d)
  obtain ⟨_, hlen, _, _⟩ := (WF_node_mk ..).1 hwf
  rw [keys_split a d ch nx _ c hc] at hs
  have hs2 := List.pairwise_append.1 hs
  have hs3 := List.pairwise_append.1 hs2.2.1
  have hlow : 0 < rankLe key d → ∃ m, headKey c = some m ∧ m ≤ key ∧
      d[rankLe key d - 1]? = some m := by
    intro hpos
    have hlt : rankLe key d - 1 < d.length := by
      have := rankLe_le key d
      omega
    obtain ⟨c2, hc2, hk2⟩ := WF.headKey_child hwf (rankLe key d - 1) _
      (List.getElem?_eq_getElem hlt)
    have heq : rankLe key d - 1 + 1 = rankLe key d := by omega
    rw [heq, hc] at hc2
    cases hc2
    refine ⟨_, hk2, ?_, List.getElem?_eq_getElem hlt⟩
    apply rankLe_before key d
    rw [List.mem_iff_getElem?]
    refine ⟨rankLe key d - 1, ?_⟩
    rw [List.getElem?_take, if_pos (by omega), List.getElem?_eq_getElem hlt]
  refine ⟨c, hc, hcwf, hcsz, hs3.1, ?_, ?_, hlow⟩
  · intro x hx
    by_cases hpos : 0 < rankLe key d
    · obtain ⟨m, hm, hmk, _⟩ := hlow hpos
      have := hs2.2.2 x hx m (List.mem_append_left _ (mem_of_head? hm))
      exact lt_of_lt_of_le this hmk
    · have h0 : rankLe key d = 0 := by omega
      rw [h0] at hx
      simp at hx
  · intro x hx
    by_cases hlt : rankLe key d < d.length
    · obtain ⟨c2, hc2, hk2⟩ := WF.headKey_child hwf (rankLe key d) _
        (List.getElem?_eq_getElem hlt)
      have hkey := rankLe_at key d _ (List.getElem?_eq_getElem hlt)
      have hdrop : ch.drop (rankLe key d + 1) = c2 :: ch.drop (rankLe key d + 1 + 1) := by
        have hl2 := lt_of_getElem?_some hc2
        rw [List.drop_eq_getElem_cons hl2]
        congr 1
        rw [List.getElem?_eq_getElem hl2] at hc2
        exact Option.some.inj hc2
      have hhead : ((ch.drop (rankLe key d + 1)).flatMap keys).head? = some d[rankLe key d] := by
        rw [hdrop, List.flatMap_cons]
        have hne : keys c2 ≠ [] := by
          intro hnil
          rw [headKey, hnil] at hk2
          simp at hk2
        rw [List.head?_append_of_ne_nil _ hne]
        exact hk2
      exact lt_of_lt_of_le hkey (sorted_head_le hs3.2.1 hhead x hx)
    · have hnil : ch.drop (rankLe key d + 1) = [] := by
        apply List.drop_eq_nil_of_le
        omega
      rw [hnil] at hx
      simp at hx


theorem rankLt_mem (key : K) (d : List K) (hs : d.Sorted (· < ·)) (hk : key ∈ d) :
    d[rankLt key d]? = some key := by
  induction d with
  | nil => simp at hk
  | cons y ys ih =>
    rw [rankLt_cons]
    by_cases h : y < key
    · rw [if_pos h]
      have hk2 : key ∈ ys := by
        rcases List.mem_cons.1 hk with h1 | h1
        · exact absurd h1 (ne_of_gt h)
        · exact h1
      simpa using ih hs.of_cons hk2
    · rw [if_neg h]
      rcases List.mem_cons.1 hk with h1 | h1
      · simp [h1]
      · exact absurd (List.rel_of_sorted_cons hs key h1) h

theorem mem_keys_child {N h a : Nat} {d : List K} {ch : List (Node K)} {nx : Option Nat}
    (hwf : WF N (h + 1) (.mk a false d ch nx))
    (hs : (keys (.mk a false d ch nx)).Sorted (· < ·)) (key : K) (c : Node K)
    (hc : ch[rankLe key d]? = some c) :
    key ∈ keys (.mk a false d ch nx) ↔ key ∈ keys c := by
  obtain ⟨c2, hc2, _, _, _, hlo, hhi, _⟩ := descend hwf hs key
  rw [hc] at hc2
  cases hc2
  rw [keys_split a d ch nx _ c hc]
  constructor
  · intro hk
    rcases List.mem_append.1 hk with h1 | h1
    · exact absurd (hlo key h1) (lt_irrefl key)
    · rcases List.mem_append.1 h1 with h2 | h2
      · exact h2
      · exact absurd (hhi key h2) (lt_irrefl key)
  · intro hk
    exact List.mem_append_right _ (List.mem_append_left _ hk)

theorem find_spec {N : Nat} (key : K) :
    ∀ (h : Nat) (t : Node K), WF N h t → (keys t).Sorted (· < ·) →
      ∃ it, find key t = some it ∧ (key ∉ keys t → it = ⟨none, 0⟩) ∧
        (key ∈ keys t → ∃ l ∈ leafList t, ∃ i, it = ⟨some l.addr, i⟩ ∧
          l.data[i]? = some key) := by
  intro h
  induction h with
  | zero =>
    intro t hwf hs
    obtain ⟨a, lf, d, ch, nx⟩ := t
    obtain ⟨h1, h2⟩ := (WF_leaf_mk ..).1 hwf
    subst h1; subst h2
    rw [keys_leaf] at hs ⊢
    rw [find, find_loop_leaf]
    by_cases hd : d[rankLt key d]? = some key
    · rw [if_pos hd]
      refine ⟨_, rfl, ?_, ?_⟩
      · intro hk
        exact absurd (List.mem_iff_getElem?.2 ⟨_, hd⟩) hk
      · intro _
        refine ⟨.mk a true d [] nx, by simp [leafList_leaf], rankLt key d, by simp [addr], ?_⟩
        simpa [data] using hd
    · rw [if_neg hd]
      refine ⟨_, rfl, fun _ => rfl, ?_⟩
      intro hk
      exact absurd (rankLt_mem key d hs hk) hd
  | succ h ih =>
    intro t hwf hs
    obtain ⟨a, lf, d, ch, nx⟩ := t
    obtain ⟨h1, _⟩ := (WF_node_mk ..).1 hwf
    subst h1
    obtain ⟨c, hc, hcwf, _, hcs, _⟩ := descend hwf hs key
    have hmem := mem_keys_child hwf hs key c hc
    obtain ⟨it, hit, hno, hyes⟩ := ih c hcwf hcs
    refine ⟨it, ?_, ?_, ?_⟩
    · rw [find, find_loop_node]
      simp only [Nat.zero_add, Bool.false_eq_true, if_false]
      rw [find_child_eq, hc]
      exact hit
    · intro hk
      exact hno (fun h2 => hk (hmem.2 h2))
    · intro hk
      obtain ⟨l, hl, i, hi⟩ := hyes (hmem.1 hk)
      refine ⟨l, ?_, i, hi⟩
      rw [leafList_split a d ch nx _ c hc]
      exact List.mem_append_right _ (List.mem_append_left _ hl)

end Node
end ADS

namespace ADS
namespace Node

variable {K : Type}

/-! ## The leaf chain -/

theorem linked_append (A B : List (Node K)) (e : Option Nat) (hB : B ≠ []) :
    Linked (A ++ B) e ↔ Linked A (B.head?.map addr) ∧ Linked B e := by
  induction A with
  | nil => simp [Linked]
  | cons x xs ih =>
    cases xs with
    | nil =>
      cases B with
      | nil => exact absurd rfl hB
      | cons b bs => simp [Linked]
    | cons y ys =>
      have h1 : Linked (x :: y :: ys ++ B) e ↔
          x.next = some y.addr ∧ Linked (y :: ys ++ B) e := Iff.rfl
      have h2 : Linked (x :: y :: ys) (B.head?.map addr) ↔
          x.next = some y.addr ∧ Linked (y :: ys) (B.head?.map addr) := Iff.rfl
      rw [h1, h2, ih, and_assoc]

theorem relink_refl (A : List (Node K)) (hA : A ≠ []) : Relink A A :=
  ⟨hA, rfl, fun _ h => h⟩

theorem Relink.ne_nil {A B : List (Node K)} (h : Relink A B) : A ≠ [] := by
  intro hA
  obtain ⟨h1, h2, _⟩ := h
  subst hA
  cases B with
  | nil => exact h1 rfl
  | cons b bs => simp at h2

theorem Relink.append_right {A B : List (Node K)} (h : Relink A B) (S : List (Node K)) :
    Relink (A ++ S) (B ++ S) := by
  have hA := h.ne_nil
  obtain ⟨h1, h2, h3⟩ := h
  refine ⟨by simp [h1], ?_, ?_⟩
  · rw [List.head?_append_of_ne_nil _ h1, List.head?_append_of_ne_nil _ hA, h2]
  · intro e he
    by_cases hS : S = []
    · subst hS
      simp only [List.append_nil] at he ⊢
      exact h3 e he
    · rw [linked_append _ _ _ hS] at he ⊢
      exact ⟨h3 _ he.1, he.2⟩

theorem Relink.append_left {A B : List (Node K)} (h : Relink A B) (P : List (Node K)) :
    Relink (P ++ A) (P ++ B) := by
  have hA := h.ne_nil
  obtain ⟨h1, h2, h3⟩ := h
  refine ⟨by simp [h1], ?_, ?_⟩
  · by_cases hP : P = []
    · subst hP
      simpa using h2
    · rw [List.head?_append_of_ne_nil _ hP, List.head?_append_of_ne_nil _ hP]
  · intro e he
    rw [linked_append _ _ _ hA] at he
    rw [linked_append _ _ _ h1, h2]
    exact ⟨he.1, h3 _ he.2⟩

theorem Relink.context {A B : List (Node K)} (h : Relink A B) (P S : List (Node K)) :
    Relink (P ++ (A ++ S)) (P ++ (B ++ S)) :=
  (h.append_right S).append_left P

theorem Relink.trans {A B C : List (Node K)} (h1 : Relink A B) (h2 : Relink B C) :
    Relink A C :=
  ⟨h2.1, by rw [h2.2.1, h1.2.1], fun e he => h2.2.2 e (h1.2.2 e he)⟩

theorem WF.leafList_ne_nil {N : Nat} :
    ∀ (h : Nat) (t : Node K), WF N h t → leafList t ≠ [] := by
  intro h
  induction h with
  | zero =>
    intro t hwf
    obtain ⟨a, lf, d, ch, nx⟩ := t
    obtain ⟨h1, h2⟩ := (WF_leaf_mk ..).1 hwf
    subst h1; subst h2
    simp [leafList_leaf]
  | succ h ih =>
    intro t hwf
    obtain ⟨a, lf, d, ch, nx⟩ := t
    obtain ⟨h1, h3, h4, _⟩ := (WF_node_mk ..).1 hwf
    subst h1
    cases ch with
    | nil => simp at h3
    | cons c cs =>
      have hc := ih c (h4 c (by simp)).1
      simp [leafList_node, List.flatMap_cons, hc]

/-! ## Keys -/

section
variable [LinearOrder K]

theorem insKey_context (key : K) (P M S : List K) (hP : ∀ x ∈ P, x < key)
    (hS : ∀ x ∈ S, key < x) :
    insKey key (P ++ (M ++ S)) = P ++ (insKey key M ++ S) := by
  have h1 : P.filter (fun x => decide (x < key)) = P :=
    List.filter_eq_self.2 (fun x hx => by simpa using hP x hx)
  have h2 : S.filter (fun x => decide (x < key)) = [] :=
    List.filter_eq_nil_iff.2 (fun x hx => by simpa using le_of_lt (hS x hx))
  have h3 : P.filter (fun x => decide (key < x)) = [] :=
    List.filter_eq_nil_iff.2 (fun x hx => by simpa using le_of_lt (hP x hx))
  have h4 : S.filter (fun x => decide (key < x)) = S :=
    List.filter_eq_self.2 (fun x hx => by simpa using hS x hx)
  simp only [insKey, List.filter_append, h1, h2, h3, h4, List.append_nil, List.nil_append,
    List.append_assoc, List.cons_append]

theorem insKey_eq_insertAt (key : K) (d : List K) (i : Nat)
    (hP : ∀ x ∈ d.take i, x < key) (hS : ∀ x ∈ d.drop i, key < x) :
    insKey key d = insertAt d i key := by
  have := insKey_context key (d.take i) [] (d.drop i) hP hS
  simp only [List.nil_append, List.take_append_drop] at this
  rw [this]
  simp [insKey, insertAt]

theorem insKey_sorted (key : K) (l : List K) (hs : l.Sorted (· < ·)) :
    (insKey key l).Sorted (· < ·) := by
  unfold insKey
  apply List.pairwise_append.2
  refine ⟨hs.sublist (List.filter_sublist _), ?_, ?_⟩
  · apply List.pairwise_cons.2
    refine ⟨?_, hs.sublist (List.filter_sublist _)⟩
    intro x hx
    simpa using (List.mem_filter.1 hx).2
  · intro x hx y hy
    have hxk : x < key := by simpa using (List.mem_filter.1 hx).2
    rcases List.mem_cons.1 hy with h | h
    · rw [h]; exact hxk
    · have : key < y := by simpa using (List.mem_filter.1 h).2
      exact lt_trans hxk this

theorem mem_insKey (key : K) (l : List K) (x : K) :
    x ∈ insKey key l ↔ x = key ∨ (x ∈ l ∧ x ≠ key) := by
  simp only [insKey, List.mem_append, List.mem_cons, List.mem_filter, decide_eq_true_eq]
  constructor
  · rintro (⟨h1, h2⟩ | h | ⟨h1, h2⟩)
    · exact Or.inr ⟨h1, ne_of_lt h2⟩
    · exact Or.inl h
    · exact Or.inr ⟨h1, ne_of_gt h2⟩
  · rintro (h | ⟨h1, h2⟩)
    · exact Or.inr (Or.inl h)
    · rcases lt_or_gt_of_ne h2 with h3 | h3
      · exact Or.inl ⟨h1, h3⟩
      · exact Or.inr (Or.inr ⟨h1, h3⟩)

theorem head?_insKey_of_lt (key m : K) (l : List K) (hm : l.head? = some m) (hlt : m < key) :
    (insKey key l).head? = some m := by
  cases l with
  | nil => simp at hm
  | cons z zs =>
    simp at hm
    subst hm
    simp [insKey, List.filter_cons, hlt]

theorem length_insKey (key : K) (l : List K) (hk : key ∉ l) :
    (insKey key l).length = l.length + 1 := by
  induction l with
  | nil => simp [insKey]
  | cons z zs ih =>
    have hne : z ≠ key := fun h => hk (by simp [h])
    have hk2 : key ∉ zs := fun h => hk (by simp [h])
    have := ih hk2
    simp only [insKey, List.length_append, List.length_cons, List.filter_cons] at this ⊢
    rcases lt_or_gt_of_ne hne with h | h
    · rw [if_pos (by simpa using h), if_neg (by simpa using le_of_lt h)]
      simp only [List.length_cons]
      omega
    · rw [if_neg (by simpa using le_of_lt h), if_pos (by simpa using h)]
      simp only [List.length_cons]
      omega

end

end Node
end ADS

namespace ADS
namespace Node

variable {K : Type}

/-! ## Replacing and adding children -/

theorem order_half (N : Nat) : order N / 2 = N := by
  unfold order
  omega

theorem flatMap_set {α β : Type} (f : α → List β) (l : List α) (i : Nat) (c x : α)
    (h : l[i]? = some c) :
    (l.set i x).flatMap f = (l.take i).flatMap f ++ (f x ++ (l.drop (i + 1)).flatMap f) := by
  rw [set_eq_of_getElem? l i c x h]
  simp [List.flatMap_append]

theorem flatMap_split {α β : Type} (f : α → List β) (l : List α) (i : Nat) (c : α)
    (h : l[i]? = some c) :
    l.flatMap f = (l.take i).flatMap f ++ (f c ++ (l.drop (i + 1)).flatMap f) := by
  conv_lhs => rw [split_at l i c h]
  simp [List.flatMap_append]

theorem insertAt_set {α : Type} (l : List α) (i : Nat) (c x y : α) (h : l[i]? = some c) :
    insertAt (l.set i x) (i + 1) y = l.take i ++ x :: y :: l.drop (i + 1) := by
  have hi := lt_of_getElem?_some h
  rw [set_eq_of_getElem? l i c x h]
  unfold insertAt
  have hlen : (l.take i).length = i := by
    rw [List.length_take]; omega
  have e1 : List.take (i + 1) (List.take i l ++ x :: List.drop (i + 1) l) = l.take i ++ [x] := by
    rw [List.take_append_eq_append_take, hlen]
    have : i + 1 - i = 1 := by omega
    rw [this, List.take_of_length_le (by rw [hlen]; omega)]
    simp
  have e2 : List.drop (i + 1) (List.take i l ++ x :: List.drop (i + 1) l) = l.drop (i + 1) := by
    rw [List.drop_append_eq_append_drop, hlen]
    have : i + 1 - i = 1 := by omega
    rw [this, List.drop_of_length_le (by rw [hlen]; omega)]
    simp
  rw [e1, e2]
  simp

theorem flatMap_insertAt_set {α β : Type} (f : α → List β) (l : List α) (i : Nat) (c x y : α)
    (h : l[i]? = some c) :
    (insertAt (l.set i x) (i + 1) y).flatMap f =
      (l.take i).flatMap f ++ ((f x ++ f y) ++ (l.drop (i + 1)).flatMap f) := by
  rw [insertAt_set l i c x y h]
  simp [List.flatMap_append]

theorem length_insertAt {α : Type} (l : List α) (i : Nat) (x : α) :
    (insertAt l i x).length = l.length + 1 := by
  unfold insertAt
  simp only [List.length_append, List.length_cons, List.length_take, List.length_drop]
  omega

theorem mem_set_of {α : Type} (l : List α) (i : Nat) (x y : α) (h : y ∈ l.set i x) :
    y = x ∨ y ∈ l := by
  rcases List.mem_or_eq_of_mem_set h with h1 | h1
  · exact Or.inr h1
  · exact Or.inl h1

theorem mem_insertAt_of {α : Type} (l : List α) (i : Nat) (x y : α) (h : y ∈ insertAt l i x) :
    y = x ∨ y ∈ l := by
  unfold insertAt at h
  rcases List.mem_append.1 h with h1 | h1
  · exact Or.inr (List.mem_of_mem_take h1)
  · rcases List.mem_cons.1 h1 with h2 | h2
    · exact Or.inl h2
    · exact Or.inr (List.mem_of_mem_drop h2)

theorem seps_set {α β : Type} (f : α → β) (l : List α) (i : Nat) (c x : α)
    (h : l[i]? = some c) (hf : 0 < i → f x = f c) :
    (l.set i x).tail.map f = l.tail.map f := by
  cases l with
  | nil => simp
  | cons z zs =>
    cases i with
    | zero => simp
    | succ j =>
      simp only [List.set_cons_succ, List.tail_cons]
      have hj : zs[j]? = some c := by simpa using h
      rw [set_eq_of_getElem? zs j c x hj, List.map_append, List.map_cons, hf (by omega)]
      conv_rhs => rw [split_at zs j c hj]
      simp

theorem seps_insert {α β : Type} (f : α → β) (l : List α) (d : List β) (i : Nat) (c x y : α)
    (h : l[i]? = some c) (hf : 0 < i → f x = f c) (hd : l.tail.map f = d) :
    (insertAt (l.set i x) (i + 1) y).tail.map f = insertAt d i (f y) := by
  rw [insertAt_set l i c x y h]
  subst hd
  cases l with
  | nil => simp at h
  | cons z zs =>
    cases i with
    | zero => simp [insertAt]
    | succ j =>
      have hj : zs[j]? = some c := by simpa using h
      have hlt := lt_of_getElem?_some hj
      simp only [List.take_succ_cons, List.cons_append, List.tail_cons, List.drop_succ_cons,
        List.map_append, List.map_cons, insertAt, List.map_take, List.map_drop]
      rw [hf (by omega)]
      have e : List.take (j + 1) (List.map f zs) = List.take j (List.map f zs) ++ [f c] := by
        rw [List.take_succ, List.getElem?_map, hj]
        rfl
      rw [e]
      simp

theorem insertAt_map {α β : Type} (f : α → β) (l : List α) (i : Nat) (x : α) :
    (insertAt l i x).map f = insertAt (l.map f) i (f x) := by
  simp [insertAt, List.map_take, List.map_drop]

end Node
end ADS

namespace ADS
namespace Node

variable {K : Type}

/-! ## Split -/

theorem split_leaf_eq (N fresh a : Nat) (d : List K) (ch : List (Node K)) (nx : Option Nat) :
    split N fresh (.mk a true d ch nx) =
      (.mk a true (d.take (N + 1)) ch (some fresh),
       .mk fresh true ((d.drop (N + 1)).take N) [] nx) := by
  simp [split, order_half]

theorem split_node_eq (N fresh a : Nat) (d : List K) (ch : List (Node K)) (nx : Option Nat) :
    split N fresh (.mk a false d ch nx) =
      (.mk a false (d.take N) (ch.take (N + 1)) (some fresh),
       .mk fresh false ((d.drop (N + 1)).take N) ((ch.drop (N + 1)).take (N + 1)) nx) := by
  simp [split, order_half]

theorem tail_take_succ {α : Type} (l : List α) (n : Nat) :
    (l.take (n + 1)).tail = l.tail.take n := by
  cases l <;> simp

theorem tail_drop_eq {α : Type} (l : List α) (n : Nat) :
    (l.drop n).tail = l.tail.drop n := by
  rw [List.tail_drop, ← List.drop_one, List.drop_drop, Nat.add_comm]

theorem perm_count_iff {l1 l2 : List Nat} :
    l1.Perm l2 ↔ ∀ x, l1.count x = l2.count x := List.perm_iff_count

theorem split_node_spec {N h a : Nat} {D : List K} {CH : List (Node K)} {nx : Option Nat}
    (fresh : Nat) (hwf : WF N (h + 1) (.mk a false D CH nx)) (hlen : D.length = 2 * N + 1) :
    ∃ L R, split N fresh (.mk a false D CH nx) = (L, R) ∧
      L.addr = a ∧ WF N (h + 1) L ∧ WF N (h + 1) R ∧ L.node_size = N ∧ R.node_size = N ∧
      keys L ++ keys R = keys (.mk a false D CH nx) ∧
      leafList L ++ leafList R = leafList (.mk a false D CH nx) ∧
      (addrs L ++ addrs R).Perm (addrs (.mk a false D CH nx) ++ [fresh]) := by
  obtain ⟨_, h2, h3, h4⟩ := (WF_node_mk ..).1 hwf
  have e1 : (D.drop (N + 1)).take N = D.drop (N + 1) :=
    List.take_of_length_le (by rw [List.length_drop]; omega)
  have e2 : (CH.drop (N + 1)).take (N + 1) = CH.drop (N + 1) :=
    List.take_of_length_le (by rw [List.length_drop]; omega)
  refine ⟨_, _, split_node_eq .., rfl, ?_, ?_, ?_, ?_, ?_, ?_, ?_⟩
  · rw [WF_node_mk]
    refine ⟨rfl, ?_, ?_, ?_⟩
    · rw [List.length_take, List.length_take]; omega
    · intro c hc
      exact h3 c (List.mem_of_mem_take hc)
    · rw [tail_take_succ, List.map_take, h4, List.map_take]
  · rw [e1, e2, WF_node_mk]
    refine ⟨rfl, ?_, ?_, ?_⟩
    · rw [List.length_drop, List.length_drop]; omega
    · intro c hc
      exact h3 c (List.mem_of_mem_drop hc)
    · rw [tail_drop_eq, List.map_drop, h4, List.map_drop]
  · simp only [node_size, data, List.length_take]; omega
  · simp only [node_size, data, List.length_take, List.length_drop]; omega
  · rw [e2, keys_node, keys_node, keys_node, ← List.flatMap_append, List.take_append_drop]
  · rw [e2, leafList_node, leafList_node, leafList_node, ← List.flatMap_append,
      List.take_append_drop]
  · rw [e2, addrs_mk, addrs_mk, addrs_mk, perm_count_iff]
    intro x
    have e3 : (CH.flatMap addrs).count x =
        ((CH.take (N + 1)).flatMap addrs).count x + ((CH.drop (N + 1)).flatMap addrs).count x := by
      rw [← List.count_append, ← List.flatMap_append, List.take_append_drop]
    simp only [List.count_append, List.count_cons, List.count_nil, e3]
    omega

end Node
end ADS

namespace ADS
namespace Node

variable {K : Type} [LinearOrder K]

/-! ## Insertion -/

theorem lt_drop_of_sorted (key : K) (d : List K) (i : Nat) (hs : d.Sorted (· < ·))
    (h : ∀ x, d[i]? = some x → key < x) : ∀ x ∈ d.drop i, key < x := by
  intro x hx
  have hs2 : (d.drop i).Sorted (· < ·) := hs.sublist (List.drop_sublist _ _)
  cases hdr : d.drop i with
  | nil => rw [hdr] at hx; simp at hx
  | cons y ys =>
    have hy : d[i]? = some y := by
      have : (d.drop i)[0]? = some y := by rw [hdr]; simp
      rw [List.getElem?_drop] at this
      simpa using this
    have := sorted_head_le hs2 (x := y) (by rw [hdr]; rfl) x hx
    exact lt_of_lt_of_le (h y hy) this

theorem insKey_rank (key : K) (d : List K) (hs : d.Sorted (· < ·)) (hk : key ∉ d) :
    insertAt d (rankLe key d) key = insKey key d := by
  symm
  apply insKey_eq_insertAt
  · rw [rankLe_eq_rankLt key d hk]
    exact rankLt_before key d
  · exact lt_drop_of_sorted key d _ hs (rankLe_at key d)

theorem insert_leaf_case {N : Nat} (hN : 1 ≤ N) (key : K) (a : Nat) (d : List K)
    (nx : Option Nat) (fresh : Nat) (hsz : d.length ≤ 2 * N) (hs : d.Sorted (· < ·))
    (hk : key ∉ d) :
    ∃ t1 ret fresh1, insert N key (.mk a true d [] nx) fresh = some (t1, ret, fresh1) ∧
      InsertPost N 0 key (.mk a true d [] nx) fresh t1 ret fresh1 := by
  have hD := insKey_rank key d hs hk
  have hlen : (insKey key d).length = d.length + 1 := length_insKey key d hk
  rw [insert, insert_loop_eq _ _ _ hk]
  simp only [Nat.zero_add, if_true, insert_leaf, hD, node_size, data]
  by_cases hov : (insKey key d).length > order N
  · rw [if_pos hov, split_leaf_eq]
    have hl2 : (insKey key d).length = 2 * N + 1 := by
      unfold order at hov; omega
    have e1 : ((insKey key d).drop (N + 1)).take N = (insKey key d).drop (N + 1) :=
      List.take_of_length_le (by rw [List.length_drop]; omega)
    rw [e1]
    refine ⟨_, _, _, rfl, rfl, ?_, ?_, ?_, ?_, ?_, ?_, ?_⟩
    · exact (WF_leaf_mk ..).2 ⟨rfl, rfl⟩
    · simp only [node_size, data, List.length_take]; omega
    · refine ⟨(WF_leaf_mk ..).2 ⟨rfl, rfl⟩, ?_, ?_, ?_⟩
      · simp only [node_size, data, List.length_drop]; omega
      · simp only [node_size, data, List.length_drop]; omega
      · simp only [node_size, data, List.length_take]; omega
    · simp only [keysOpt, keys_leaf, List.take_append_drop]
    · simp only [leafListOpt, leafList_leaf]
      refine ⟨by simp, by simp [addr], ?_⟩
      intro e he
      simp only [List.singleton_append, Linked, next, addr] at he ⊢
      exact ⟨trivial, he⟩
    · simp only [addrsOpt, addrs_mk, List.flatMap_nil, Nat.add_sub_cancel_left]
      simp [List.range']
    · omega
  · rw [if_neg hov]
    refine ⟨_, _, _, rfl, rfl, ?_, ?_, ?_, ?_, ?_, ?_, ?_⟩
    · exact (WF_leaf_mk ..).2 ⟨rfl, rfl⟩
    · simp only [node_size, data]
      unfold order at hov; omega
    · simp only [node_size, data]; omega
    · simp only [keysOpt, keys_leaf, List.append_nil]
    · simp only [leafListOpt, leafList_leaf, List.append_nil]
      refine ⟨by simp, by simp [addr], ?_⟩
      intro e he
      simpa only [Linked, next] using he
    · simp [addrsOpt, addrs_mk]
    · exact le_refl _


omit [LinearOrder K] in
theorem data_subset_keys {N h a : Nat} {d : List K} {ch : List (Node K)} {nx : Option Nat}
    (hwf : WF N (h + 1) (.mk a false d ch nx)) :
    ∀ x ∈ d, x ∈ keys (.mk a false d ch nx) := by
  intro x hx
  obtain ⟨j, hj⟩ := List.mem_iff_getElem?.1 hx
  obtain ⟨c, hc, hk⟩ := WF.headKey_child hwf j x hj
  rw [keys_split a d ch nx _ c hc]
  exact List.mem_append_right _ (List.mem_append_left _ (mem_of_head? hk))

theorem insert_spec {N : Nat} (hN : 1 ≤ N) (key : K) :
    ∀ (h : Nat) (t : Node K) (fresh : Nat), WF N h t → t.node_size ≤ 2 * N →
      (keys t).Sorted (· < ·) → key ∉ keys t →
      ∃ t1 ret fresh1, insert N key t fresh = some (t1, ret, fresh1) ∧
        InsertPost N h key t fresh t1 ret fresh1 := by
  intro h
  induction h with
  | zero =>
    intro t fresh hwf hsz hs hk
    obtain ⟨a, lf, d, ch, nx⟩ := t
    obtain ⟨h1, h2⟩ := (WF_leaf_mk ..).1 hwf
    subst h1; subst h2
    rw [keys_leaf] at hs hk
    exact insert_leaf_case hN key a d nx fresh hsz hs hk
  | succ h ih =>
    intro t fresh hwf hsz hs hk
    obtain ⟨a, lf, d, ch, nx⟩ := t
    obtain ⟨h1, h2, h3, h4⟩ := (WF_node_mk ..).1 hwf
    subst h1
    have hsz2 : d.length ≤ 2 * N := hsz
    have hkd : key ∉ d := fun hmem => hk (data_subset_keys hwf key hmem)
    obtain ⟨c, hc, hcwf, hcsz, hcs, hlo, hhi, hhd⟩ := descend hwf hs key
    have hkc : key ∉ keys c := fun hmem => hk ((mem_keys_child hwf hs key c hc).2 hmem)
    obtain ⟨c1, ret, fresh1, hins, hp1, hp2, hp3, hp4, hp5, hp6, hp7, hp8⟩ :=
      ih c fresh hcwf hcsz.2 hcs hkc
    have hc1sz : N ≤ c1.node_size := by
      cases ret with
      | none => exact le_trans hcsz.1 hp4
      | some r => exact hp4.2.2.2
    have hc1ne : keys c1 ≠ [] := WF.keys_ne_nil hN h c1 hp2 hc1sz
    have hhead : 0 < rankLe key d → headKey c1 = headKey c := by
      intro hpos
      obtain ⟨m, hm, hmk, _⟩ := hhd hpos
      have hmlt : m < key := lt_of_le_of_ne hmk (fun he => hkc (he ▸ mem_of_head? hm))
      have := head?_insKey_of_lt key m (keys c) hm hmlt
      rw [← hp5, List.head?_append_of_ne_nil _ hc1ne] at this
      rw [hm]
      exact this
    have hkeysT : (ch.take (rankLe key d)).flatMap keys ++
        ((keys c1 ++ keysOpt ret) ++ (ch.drop (rankLe key d + 1)).flatMap keys) =
        insKey key (keys (.mk a false d ch nx)) := by
      rw [keys_split a d ch nx _ c hc, insKey_context key _ _ _ hlo hhi, hp5]
    have hrelT : Relink (leafList (.mk a false d ch nx))
        ((ch.take (rankLe key d)).flatMap leafList ++
          ((leafList c1 ++ leafListOpt ret) ++ (ch.drop (rankLe key d + 1)).flatMap leafList)) := by
      rw [leafList_split a d ch nx _ c hc]
      exact hp6.context _ _
    have hcntT : ∀ x, (a :: ((ch.take (rankLe key d)).flatMap addrs ++
        ((addrs c1 ++ addrsOpt ret) ++ (ch.drop (rankLe key d + 1)).flatMap addrs))).count x =
        (addrs (.mk a false d ch nx) ++ List.range' fresh (fresh1 - fresh)).count x := by
      intro x
      have := perm_count_iff.1 hp7 x
      rw [addrs_mk, flatMap_split addrs ch _ c hc]
      simp only [List.count_append, List.count_cons] at this ⊢
      omega
    rw [insert, insert_loop_eq _ _ _ hkd]
    simp only [Nat.zero_add, Bool.false_eq_true, if_false]
    rw [insert_child_eq, hc]
    simp only [hins]
    cases ret with
    | none =>
      simp only [insert_node]
      refine ⟨_, _, _, rfl, rfl, ?_, hsz2, ?_, ?_, ?_, ?_, hp8⟩
      · rw [WF_node_mk]
        refine ⟨rfl, by rw [List.length_set]; exact h2, ?_, ?_⟩
        · intro x hx
          rcases mem_set_of _ _ _ _ hx with hx1 | hx1
          · subst hx1
            exact ⟨hp2, hc1sz, hp3⟩
          · exact h3 x hx1
        · rw [seps_set headKey ch _ c c1 hc hhead, h4]
      · exact le_refl _
      · rw [← hkeysT, keys_node, flatMap_set keys ch _ c c1 hc]
        simp [keysOpt]
      · rw [leafList_node a d (ch.set (rankLe key d) c1), flatMap_set leafList ch _ c c1 hc]
        simpa [leafListOpt] using hrelT
      · rw [perm_count_iff]
        intro x
        rw [← hcntT x, addrs_mk, flatMap_set addrs ch _ c c1 hc]
        simp [addrsOpt]
    | some r =>
      obtain ⟨hr1, hr2, hr3, hr4⟩ := hp4
      have hrne : keys r ≠ [] := WF.keys_ne_nil hN h r hr1 hr2
      obtain ⟨m, hm⟩ : ∃ m, headKey r = some m := by
        unfold headKey
        cases hkr : keys r with
        | nil => exact absurd hkr hrne
        | cons z zs => exact ⟨z, rfl⟩
      have hmin : r.minimum = some m := by rw [WF.minimum_eq hN h r hr1, hm]
      simp only [insert_node, hmin]
      have hwfT : WF N (h + 1) (.mk a false (insertAt d (rankLe key d) m)
          (insertAt (ch.set (rankLe key d) c1) (rankLe key d + 1) r) nx) := by
        rw [WF_node_mk]
        refine ⟨rfl, ?_, ?_, ?_⟩
        · rw [length_insertAt, length_insertAt, List.length_set, h2]
        · intro x hx
          rcases mem_insertAt_of _ _ _ _ hx with hx1 | hx1
          · subst hx1
            exact ⟨hr1, hr2, hr3⟩
          · rcases mem_set_of _ _ _ _ hx1 with hx2 | hx2
            · subst hx2
              exact ⟨hp2, hc1sz, hp3⟩
            · exact h3 x hx2
        · rw [seps_insert headKey ch (d.map some) _ c c1 r hc hhead h4, insertAt_map, hm]
      have hkeys1 : keys (.mk a false (insertAt d (rankLe key d) m)
          (insertAt (ch.set (rankLe key d) c1) (rankLe key d + 1) r) nx) =
          insKey key (keys (.mk a false d ch nx)) := by
        rw [← hkeysT, keys_node, flatMap_insertAt_set keys ch _ c c1 r hc]
        rfl
      have hrel1 : Relink (leafList (.mk a false d ch nx))
          (leafList (.mk a false (insertAt d (rankLe key d) m)
            (insertAt (ch.set (rankLe key d) c1) (rankLe key d + 1) r) nx)) := by
        rw [leafList_node a (insertAt d (rankLe key d) m),
          flatMap_insertAt_set leafList ch _ c c1 r hc]
        exact hrelT
      have hcnt1 : ∀ x, (addrs (.mk a false (insertAt d (rankLe key d) m)
          (insertAt (ch.set (rankLe key d) c1) (rankLe key d + 1) r) nx)).count x =
          (addrs (.mk a false d ch nx) ++ List.range' fresh (fresh1 - fresh)).count x := by
        intro x
        rw [← hcntT x, addrs_mk, flatMap_insertAt_set addrs ch _ c c1 r hc]
        rfl
      by_cases hov : (Node.mk a false (insertAt d (rankLe key d) m)
          (insertAt (ch.set (rankLe key d) c1) (rankLe key d + 1) r) nx).node_size > order N
      · rw [if_pos hov]
        have hlen : (insertAt d (rankLe key d) m).length = 2 * N + 1 := by
          have : (insertAt d (rankLe key d) m).length > order N := hov
          rw [length_insertAt] at this ⊢
          unfold order at this
          omega
        obtain ⟨L, R, hsp, hL1, hL2, hR2, hL3, hR3, hk, hl, hadd⟩ :=
          split_node_spec fresh1 hwfT hlen
        simp only [hsp]
        refine ⟨_, _, _, rfl, hL1, hL2, by omega, ⟨hR2, by omega, by omega, by omega⟩, ?_, ?_,
          ?_, by omega⟩
        · simp only [keysOpt]
          rw [hk, hkeys1]
        · simp only [leafListOpt]
          rw [hl]
          exact hrel1
        · rw [perm_count_iff]
          intro x
          have e1 := perm_count_iff.1 hadd x
          have e2 := hcnt1 x
          have e3 : fresh1 + 1 - fresh = (fresh1 - fresh) + 1 := by omega
          simp only [addrsOpt]
          rw [e1, e3, List.range'_concat]
          simp only [List.count_append] at e2 ⊢
          have e4 : fresh + 1 * (fresh1 - fresh) = fresh1 := by omega
          rw [e4]
          omega
      · rw [if_neg hov]
        have hlen : (insertAt d (rankLe key d) m).length ≤ 2 * N := by
          have : ¬ (insertAt d (rankLe key d) m).length > order N := hov
          unfold order at this
          omega
        refine ⟨_, _, _, rfl, rfl, hwfT, hlen, ?_, ?_, ?_, ?_, hp8⟩
        · show d.length ≤ (insertAt d (rankLe key d) m).length
          rw [length_insertAt]; omega
        · simp only [keysOpt, List.append_nil]
          exact hkeys1
        · simp only [leafListOpt, List.append_nil]
          exact hrel1
        · rw [perm_count_iff]
          intro x
          simp only [addrsOpt, List.append_nil]
          exact hcnt1 x

end Node
end ADS

namespace ADS
namespace Node

variable {K : Type}

/-! ## Merging and moving between siblings -/

theorem WF.keys_ne_nil_succ {N : Nat} (hN : 1 ≤ N) (h : Nat) (t : Node K)
    (hwf : WF N (h + 1) t) : keys t ≠ [] := by
  obtain ⟨a, lf, d, ch, nx⟩ := t
  obtain ⟨h1, h3, h4, _⟩ := (WF_node_mk ..).1 hwf
  subst h1
  rw [keys_node]
  cases ch with
  | nil => simp at h3
  | cons c cs =>
    have := h4 c (by simp)
    have hc := WF.keys_ne_nil hN h c this.1 this.2.1
    simp [List.flatMap_cons, hc]

theorem headKey_some_of_ne_nil (t : Node K) (h : keys t ≠ []) : ∃ m, headKey t = some m := by
  unfold headKey
  cases hk : keys t with
  | nil => exact absurd hk h
  | cons z zs => exact ⟨z, rfl⟩

theorem headKey_cons_child {N h : Nat} (hN : 1 ≤ N) (a : Nat) (d : List K) (c : Node K)
    (cs : List (Node K)) (nx : Option Nat) (hc : WF N h c) (hsz : N ≤ c.node_size) :
    headKey (.mk a false d (c :: cs) nx) = headKey c := by
  have hne := WF.keys_ne_nil hN h c hc hsz
  rw [headKey, headKey, keys_node, List.flatMap_cons, List.head?_append_of_ne_nil _ hne]

theorem merge_spec {N : Nat} (hN : 1 ≤ N) (h : Nat) (A B : Node K)
    (hA : WF N h A) (hB : WF N h B) :
    ∃ M, merge A B = some M ∧ M.addr = A.addr ∧ WF N h M ∧
      M.node_size = A.node_size + B.node_size + (if h = 0 then 0 else 1) ∧
      keys M = keys A ++ keys B ∧
      Relink (leafList A ++ leafList B) (leafList M) ∧
      (∀ x, (addrs M).count x ≤ (addrs A ++ addrs B).count x) := by
  obtain ⟨la, llf, ld, lch, lnx⟩ := A
  obtain ⟨ra, rlf, rd, rch, rnx⟩ := B
  cases h with
  | zero =>
    obtain ⟨h1, h2⟩ := (WF_leaf_mk ..).1 hA
    obtain ⟨h3, h4⟩ := (WF_leaf_mk ..).1 hB
    subst h1; subst h2; subst h3; subst h4
    refine ⟨.mk la true (ld ++ rd) [] rnx, by simp [merge], rfl,
      (WF_leaf_mk ..).2 ⟨rfl, rfl⟩, by simp [node_size, data],
      by simp [keys_leaf], ?_, ?_⟩
    · simp only [leafList_leaf]
      refine ⟨by simp, by simp [addr], ?_⟩
      intro e he
      simp only [List.singleton_append, Linked, next, addr] at he ⊢
      exact he.2
    · intro x
      simp only [addrs_mk, List.flatMap_nil, List.count_append, List.count_cons, List.count_nil]
      omega
  | succ h =>
    obtain ⟨h1, h2, h3, h4⟩ := (WF_node_mk ..).1 hA
    obtain ⟨h5, h6, h7, h8⟩ := (WF_node_mk ..).1 hB
    subst h1; subst h5
    obtain ⟨m, hm⟩ := headKey_some_of_ne_nil _ (WF.keys_ne_nil_succ hN h _ hB)
    have hmin : (Node.mk ra false rd rch rnx).minimum = some m := by
      rw [WF.minimum_eq hN _ _ hB, hm]
    have hlne : lch ≠ [] := by
      intro hnil; rw [hnil] at h2; simp at h2
    refine ⟨.mk la false (ld ++ m :: rd) (lch ++ rch) rnx, by simp [merge, hmin], rfl, ?_, ?_,
      ?_, ?_, ?_⟩
    · rw [WF_node_mk]
      refine ⟨rfl, ?_, ?_, ?_⟩
      · simp only [List.length_append, List.length_cons]; omega
      · intro c hc
        rcases List.mem_append.1 hc with h9 | h9
        · exact h3 c h9
        · exact h7 c h9
      · cases rch with
        | nil => simp at h6
        | cons c cs =>
          have hc := h7 c (by simp)
          have hkc : headKey c = some m := by
            rw [← headKey_cons_child hN ra rd c cs rnx hc.1 hc.2.1]
            exact hm
          rw [List.tail_append_of_ne_nil hlne, List.map_append, h4, List.map_cons, hkc]
          simp only [List.tail_cons] at h8
          rw [h8]
          simp
    · simp only [node_size, data, List.length_append, List.length_cons]
      rw [if_neg (by omega)]
      omega
    · simp [keys_node, List.flatMap_append]
    · simp only [leafList_node, List.flatMap_append]
      apply relink_refl
      have := WF.leafList_ne_nil _ _ hA
      rw [leafList_node] at this
      simp [this]
    · intro x
      simp only [addrs_mk, List.flatMap_append, List.count_append, List.count_cons]
      omega


theorem move_into_left_spec {N : Nat} (hN : 1 ≤ N) (h : Nat) (A B : Node K)
    (hA : WF N h A) (hB : WF N h B) (hsz : 1 ≤ B.node_size) :
    ∃ A1 B1, move_into_left A B = some (A1, B1) ∧ A1.addr = A.addr ∧ B1.addr = B.addr ∧
      WF N h A1 ∧ WF N h B1 ∧ A1.node_size = A.node_size + 1 ∧
      B1.node_size + 1 = B.node_size ∧
      keys A1 ++ keys B1 = keys A ++ keys B ∧
      Relink (leafList A ++ leafList B) (leafList A1 ++ leafList B1) ∧
      (∀ x, (addrs A1 ++ addrs B1).count x = (addrs A ++ addrs B).count x) := by
  obtain ⟨la, llf, ld, lch, lnx⟩ := A
  obtain ⟨ra, rlf, rd, rch, rnx⟩ := B
  cases rd with
  | nil => simp [node_size, data] at hsz
  | cons x xs =>
  cases h with
  | zero =>
    obtain ⟨h1, h2⟩ := (WF_leaf_mk ..).1 hA
    obtain ⟨h3, h4⟩ := (WF_leaf_mk ..).1 hB
    subst h1; subst h2; subst h3; subst h4
    refine ⟨.mk la true (ld ++ [x]) [] lnx, .mk ra true xs [] rnx, by simp [move_into_left],
      rfl, rfl, (WF_leaf_mk ..).2 ⟨rfl, rfl⟩, (WF_leaf_mk ..).2 ⟨rfl, rfl⟩,
      by simp [node_size, data], by simp [node_size, data], by simp [keys_leaf], ?_, ?_⟩
    · simp only [leafList_leaf]
      refine ⟨by simp, by simp [addr], ?_⟩
      intro e he
      simp only [List.singleton_append, Linked, next, addr] at he ⊢
      exact he
    · intro x
      simp only [addrs_mk]
  | succ h =>
    obtain ⟨h1, h2, h3, h4⟩ := (WF_node_mk ..).1 hA
    obtain ⟨h5, h6, h7, h8⟩ := (WF_node_mk ..).1 hB
    subst h1; subst h5
    cases rch with
    | nil => simp at h6
    | cons c cs =>
    have hc := h7 c (by simp)
    obtain ⟨m, hm⟩ := headKey_some_of_ne_nil c (WF.keys_ne_nil hN h c hc.1 hc.2.1)
    have hmin : c.minimum = some m := by rw [WF.minimum_eq hN _ _ hc.1, hm]
    have hlne : lch ≠ [] := by
      intro hnil; rw [hnil] at h2; simp at h2
    refine ⟨.mk la false (ld ++ [m]) (lch ++ [c]) lnx, .mk ra false xs cs rnx,
      by simp [move_into_left, hmin], rfl, rfl, ?_, ?_, by simp [node_size, data],
      by simp [node_size, data], ?_, ?_, ?_⟩
    · rw [WF_node_mk]
      refine ⟨rfl, ?_, ?_, ?_⟩
      · simp only [List.length_append, List.length_cons, List.length_nil]; omega
      · intro y hy
        rcases List.mem_append.1 hy with h9 | h9
        · exact h3 y h9
        · rw [List.mem_singleton] at h9
          subst h9
          exact hc
      · rw [List.tail_append_of_ne_nil hlne, List.map_append, h4]
        simp [hm]
    · rw [WF_node_mk]
      refine ⟨rfl, ?_, ?_, ?_⟩
      · simp only [List.length_cons] at h6 ⊢; omega
      · intro y hy
        exact h7 y (List.mem_cons_of_mem _ hy)
      · simp only [List.tail_cons, List.map_cons] at h8
        rw [List.map_tail, h8]
        rfl
    · simp [keys_node, List.flatMap_append]
    · have e : leafList (.mk la false (ld ++ [m]) (lch ++ [c]) lnx) ++
          leafList (.mk ra false xs cs rnx) =
          leafList (.mk la false ld lch lnx) ++ leafList (.mk ra false (x :: xs) (c :: cs) rnx) := by
        simp [leafList_node, List.flatMap_append]
      rw [e]
      apply relink_refl
      have := WF.leafList_ne_nil _ _ hA
      simp [this]
    · intro y
      simp only [addrs_mk, List.flatMap_append, List.flatMap_cons, List.flatMap_nil,
        List.count_append, List.count_cons, List.count_nil]
      omega

theorem move_into_right_spec {N : Nat} (hN : 1 ≤ N) (h : Nat) (A B : Node K)
    (hA : WF N h A) (hB : WF N h B) (hsz : 1 ≤ A.node_size) :
    ∃ A1 B1, move_into_right A B = some (A1, B1) ∧ A1.addr = A.addr ∧ B1.addr = B.addr ∧
      WF N h A1 ∧ WF N h B1 ∧ A1.node_size + 1 = A.node_size ∧
      B1.node_size = B.node_size + 1 ∧
      keys A1 ++ keys B1 = keys A ++ keys B ∧
      (∃ X, keys A = keys A1 ++ X) ∧
      Relink (leafList A ++ leafList B) (leafList A1 ++ leafList B1) ∧
      (∀ x, (addrs A1 ++ addrs B1).count x = (addrs A ++ addrs B).count x) := by
  obtain ⟨la, llf, ld, lch, lnx⟩ := A
  obtain ⟨ra, rlf, rd, rch, rnx⟩ := B
  have hldne : ld ≠ [] := by
    intro hnil; rw [hnil] at hsz; simp [node_size, data] at hsz
  cases h with
  | zero =>
    obtain ⟨h1, h2⟩ := (WF_leaf_mk ..).1 hA
    obtain ⟨h3, h4⟩ := (WF_leaf_mk ..).1 hB
    subst h1; subst h2; subst h3; subst h4
    have hlast : ld.getLast? = some (ld.getLast hldne) := List.getLast?_eq_getLast _ hldne
    have hsplit : ld.dropLast ++ [ld.getLast hldne] = ld := List.dropLast_append_getLast hldne
    refine ⟨.mk la true ld.dropLast [] lnx, .mk ra true (ld.getLast hldne :: rd) [] rnx,
      by simp [move_into_right, hlast],
      rfl, rfl, (WF_leaf_mk ..).2 ⟨rfl, rfl⟩, (WF_leaf_mk ..).2 ⟨rfl, rfl⟩,
      ?_, by simp [node_size, data], ?_, ?_, ?_, ?_⟩
    · have : 1 ≤ ld.length := hsz
      simp only [node_size, data, List.length_dropLast]; omega
    · simp only [keys_leaf]
      conv_rhs => rw [← hsplit]
      simp
    · exact ⟨[ld.getLast hldne], by simp only [keys_leaf]; exact hsplit.symm⟩
    · simp only [leafList_leaf]
      refine ⟨by simp, by simp [addr], ?_⟩
      intro e he
      simp only [List.singleton_append, Linked, next, addr] at he ⊢
      exact he
    · intro x
      simp only [addrs_mk]
  | succ h =>
    obtain ⟨h1, h2, h3, h4⟩ := (WF_node_mk ..).1 hA
    obtain ⟨h5, h6, h7, h8⟩ := (WF_node_mk ..).1 hB
    subst h1; subst h5
    cases rch with
    | nil => simp at h6
    | cons c cs =>
    have hc := h7 c (by simp)
    obtain ⟨m, hm⟩ := headKey_some_of_ne_nil c (WF.keys_ne_nil hN h c hc.1 hc.2.1)
    have hmin : c.minimum = some m := by rw [WF.minimum_eq hN _ _ hc.1, hm]
    have hlne : lch ≠ [] := by
      intro hnil; rw [hnil] at h2; simp at h2
    have hlast : lch.getLast? = some (lch.getLast hlne) := List.getLast?_eq_getLast _ hlne
    have hsplit : lch.dropLast ++ [lch.getLast hlne] = lch := List.dropLast_append_getLast hlne
    obtain ⟨z, zs, hz⟩ : ∃ z zs, ld = z :: zs := by
      cases ld with
      | nil => exact absurd rfl hldne
      | cons z zs => exact ⟨z, zs, rfl⟩
    refine ⟨.mk la false ld.dropLast lch.dropLast lnx,
      .mk ra false (m :: rd) (lch.getLast hlne :: c :: cs) rnx,
      by subst hz; simp [move_into_right, hmin, hlast], rfl, rfl, ?_, ?_, ?_,
      by simp [node_size, data], ?_, ?_, ?_, ?_⟩
    · rw [WF_node_mk]
      refine ⟨rfl, ?_, ?_, ?_⟩
      · have : 1 ≤ ld.length := hsz
        simp only [List.length_dropLast]; omega
      · intro y hy
        exact h3 y (List.mem_of_mem_dropLast hy)
      · have e : lch.dropLast.tail = lch.tail.dropLast := by
          cases lch with
          | nil => rfl
          | cons y ys =>
            cases ys with
            | nil => rfl
            | cons y2 ys2 => simp [List.dropLast]
        rw [e, List.map_dropLast, h4, List.map_dropLast]
    · rw [WF_node_mk]
      refine ⟨rfl, ?_, ?_, ?_⟩
      · simp only [List.length_cons] at h6 ⊢; omega
      · intro y hy
        rcases List.mem_cons.1 hy with h9 | h9
        · subst h9
          exact h3 _ (List.getLast_mem hlne)
        · exact h7 y h9
      · simp only [List.tail_cons, List.map_cons] at h8 ⊢
        rw [h8, hm]
    · have : 1 ≤ ld.length := hsz
      simp only [node_size, data, List.length_dropLast]; omega
    · simp only [keys_node, List.flatMap_cons]
      conv_rhs => rw [← hsplit]
      simp [List.flatMap_append]
    · refine ⟨keys (lch.getLast hlne), ?_⟩
      simp only [keys_node]
      conv_lhs => rw [← hsplit]
      simp [List.flatMap_append]
    · have e : leafList (.mk la false ld.dropLast lch.dropLast lnx) ++
          leafList (.mk ra false (m :: rd) (lch.getLast hlne :: c :: cs) rnx) =
          leafList (.mk la false ld lch lnx) ++ leafList (.mk ra false rd (c :: cs) rnx) := by
        simp only [leafList_node, List.flatMap_cons]
        conv_rhs => rw [← hsplit]
        simp [List.flatMap_append]
      rw [e]
      apply relink_refl
      have := WF.leafList_ne_nil _ _ hA
      simp [this]
    · intro y
      simp only [addrs_mk, List.flatMap_cons]
      have e : (lch.flatMap addrs).count y =
          (lch.dropLast.flatMap addrs).count y + (addrs (lch.getLast hlne)).count y := by
        conv_lhs => rw [← hsplit]
        simp [List.flatMap_append]
      simp only [List.count_append, List.count_cons, e]
      omega

end Node
end ADS

namespace ADS
namespace Node

variable {K : Type}

/-! ## Keys and children after a merge or a move -/

theorem map_eraseIdx_eq {α β : Type} (f : α → β) (l : List α) (k : Nat) :
    (l.eraseIdx k).map f = (l.map f).eraseIdx k := by
  induction l generalizing k with
  | nil => simp
  | cons x xs ih =>
    cases k with
    | zero => simp
    | succ j => simp [ih]

theorem dropLast_eq_eraseIdx {α : Type} (l : List α) : l.dropLast = l.eraseIdx (l.length - 1) := by
  induction l with
  | nil => simp
  | cons x xs ih =>
    cases xs with
    | nil => simp
    | cons y ys =>
      simp only [List.dropLast_cons₂, List.length_cons, Nat.add_sub_cancel] at ih ⊢
      rw [List.eraseIdx_cons_succ, ih]

theorem split_pair {α : Type} (l : List α) (k : Nat) (X Y : α) (hX : l[k]? = some X)
    (hY : l[k + 1]? = some Y) : l = l.take k ++ X :: Y :: l.drop (k + 2) := by
  have h1 := split_at l k X hX
  have hY2 : (l.drop (k + 1))[0]? = some Y := by
    rw [List.getElem?_drop]; simpa using hY
  have h2 := split_at (l.drop (k + 1)) 0 Y hY2
  simp only [List.take_zero, List.nil_append, List.drop_drop] at h2
  rw [h2] at h1
  exact h1

theorem seps_merge_zero {α β : Type} (f : α → Option β) (Suf : List α) (X0 Y0 M : α)
    (d : List β) (h : (X0 :: Y0 :: Suf).tail.map f = d.map some) :
    (M :: Suf).tail.map f = (d.eraseIdx 0).map some := by
  rw [map_eraseIdx_eq, ← h]
  simp

theorem seps_merge_succ {α β : Type} (f : α → Option β) (p : α) (ps Suf : List α)
    (X0 Y0 M : α) (d : List β) (m : β) (hM : f M = some m)
    (h : (p :: ps ++ X0 :: Y0 :: Suf).tail.map f = d.map some) :
    (p :: ps ++ M :: Suf).tail.map f =
      ((d.eraseIdx (ps.length + 1)).set ps.length m).map some := by
  rw [List.map_set, map_eraseIdx_eq, ← h]
  simp [List.eraseIdx_append_of_length_le, hM]

theorem seps_merge_keep {α β : Type} (f : α → Option β) (p : α) (ps Suf : List α)
    (X0 Y0 M : α) (d : List β) (hM : f M = f X0)
    (h : (p :: ps ++ X0 :: Y0 :: Suf).tail.map f = d.map some) :
    (p :: ps ++ M :: Suf).tail.map f = (d.eraseIdx (ps.length + 1)).map some := by
  rw [map_eraseIdx_eq, ← h]
  simp [List.eraseIdx_append_of_length_le, hM]

theorem seps_move_zero {α β : Type} (f : α → Option β) (Suf : List α) (X0 Y0 X1 Y1 : α)
    (d : List β) (my : β) (hY : f Y1 = some my)
    (h : (X0 :: Y0 :: Suf).tail.map f = d.map some) :
    (X1 :: Y1 :: Suf).tail.map f = (d.set 0 my).map some := by
  rw [List.map_set, ← h]
  simp [hY]

theorem seps_move_succ {α β : Type} (f : α → Option β) (p : α) (ps Suf : List α)
    (X0 Y0 X1 Y1 : α) (d : List β) (mx my : β) (hX : f X1 = some mx) (hY : f Y1 = some my)
    (h : (p :: ps ++ X0 :: Y0 :: Suf).tail.map f = d.map some) :
    (p :: ps ++ X1 :: Y1 :: Suf).tail.map f =
      ((d.set ps.length mx).set (ps.length + 1) my).map some := by
  rw [List.map_set, List.map_set, ← h]
  simp [hX, hY, List.set_append]

theorem seps_move_keep {α β : Type} (f : α → Option β) (p : α) (ps Suf : List α)
    (X0 Y0 X1 Y1 : α) (d : List β) (my : β) (hX : f X1 = f X0) (hY : f Y1 = some my)
    (h : (p :: ps ++ X0 :: Y0 :: Suf).tail.map f = d.map some) :
    (p :: ps ++ X1 :: Y1 :: Suf).tail.map f = (d.set (ps.length + 1) my).map some := by
  rw [List.map_set, ← h]
  simp [hX, hY, List.set_append]

theorem seps_length {α β : Type} (f : α → Option β) (l : List α) (d : List β)
    (h : l.tail.map f = d.map some) : l.length - 1 = d.length := by
  have := congrArg List.length h
  simpa using this


theorem getElem?_append_length {α : Type} (l s : List α) (x : α) :
    (l ++ x :: s)[l.length]? = some x := by
  induction l with
  | nil => simp
  | cons y ys ih => simpa using ih

theorem getElem?_append_length_succ {α : Type} (l s : List α) (x y : α) :
    (l ++ x :: y :: s)[l.length + 1]? = some y := by
  induction l with
  | nil => simp
  | cons z zs ih => simpa using ih


theorem seps_merge_first {α β : Type} (f : α → Option β) (Pre Suf : List α) (X0 Y0 M : α)
    (d : List β) (hP : Pre.length = 0)
    (h : (Pre ++ X0 :: Y0 :: Suf).tail.map f = d.map some) :
    (Pre ++ M :: Suf).tail.map f = (d.eraseIdx Pre.length).map some := by
  cases Pre with
  | nil => exact seps_merge_zero f Suf X0 Y0 M d h
  | cons p ps => simp at hP

theorem seps_merge_later {α β : Type} (f : α → Option β) (Pre Suf : List α) (X0 Y0 M : α)
    (d : List β) (m : β) (hP : 0 < Pre.length) (hM : f M = some m)
    (h : (Pre ++ X0 :: Y0 :: Suf).tail.map f = d.map some) :
    (Pre ++ M :: Suf).tail.map f =
      ((d.eraseIdx Pre.length).set (Pre.length - 1) m).map some := by
  cases Pre with
  | nil => simp at hP
  | cons p ps => exact seps_merge_succ f p ps Suf X0 Y0 M d m hM h

theorem seps_move_first {α β : Type} (f : α → Option β) (Pre Suf : List α) (X0 Y0 X1 Y1 : α)
    (d : List β) (my : β) (hP : Pre.length = 0) (hY : f Y1 = some my)
    (h : (Pre ++ X0 :: Y0 :: Suf).tail.map f = d.map some) :
    (Pre ++ X1 :: Y1 :: Suf).tail.map f = (d.set 0 my).map some := by
  cases Pre with
  | nil => exact seps_move_zero f Suf X0 Y0 X1 Y1 d my hY h
  | cons p ps => simp at hP

theorem seps_move_later {α β : Type} (f : α → Option β) (Pre Suf : List α) (X0 Y0 X1 Y1 : α)
    (d : List β) (mx my : β) (hP : 0 < Pre.length) (hX : f X1 = some mx) (hY : f Y1 = some my)
    (h : (Pre ++ X0 :: Y0 :: Suf).tail.map f = d.map some) :
    (Pre ++ X1 :: Y1 :: Suf).tail.map f =
      ((d.set (Pre.length - 1) mx).set Pre.length my).map some := by
  cases Pre with
  | nil => simp at hP
  | cons p ps => exact seps_move_succ f p ps Suf X0 Y0 X1 Y1 d mx my hX hY h

end Node
end ADS

namespace ADS
namespace Node

variable {K : Type}

/-! ## Erasure: the leaf and the search for the child -/

theorem map_addr_sublist (ch : List (Node K)) : (ch.map addr).Sublist (ch.flatMap addrs) := by
  induction ch with
  | nil => simp
  | cons c cs ih =>
    obtain ⟨a, lf, d, ch2, nx⟩ := c
    simp only [List.map_cons, List.flatMap_cons, addrs_mk, addr, List.cons_append]
    exact List.Sublist.cons₂ _ (List.Sublist.trans ih (List.sublist_append_right _ _))

theorem key_number_eq (ch : List (Node K)) (r : Nat) (c c1 : Node K)
    (hnd : (ch.map addr).Nodup) (hc : ch[r]? = some c) (h1 : c1.addr = c.addr) :
    (ch.set r c1).findIdx (fun x => x.addr == c1.addr) = r := by
  have hr := lt_of_getElem?_some hc
  have hcr : ch[r] = c := by
    rw [List.getElem?_eq_getElem hr] at hc
    exact Option.some.inj hc
  rw [List.findIdx_eq (by rw [List.length_set]; exact hr)]
  constructor
  · simp [List.getElem_set]
  · intro j hj
    have hjl : j < ch.length := by omega
    rw [List.getElem_set, if_neg (by omega)]
    simp only [beq_eq_false_iff_ne, ne_eq]
    intro heq
    have hjm : j < (ch.map addr).length := by simpa using hjl
    have hrm : r < (ch.map addr).length := by simpa using hr
    have h2 : (ch.map addr)[j] = (ch.map addr)[r] := by
      simp only [List.getElem_map]
      rw [heq, h1, hcr]
    have := (List.Nodup.getElem_inj_iff hnd).1 h2
    omega

section
variable [LinearOrder K]

theorem filter_ne_context (key : K) (P M S : List K) (hP : ∀ x ∈ P, x < key)
    (hS : ∀ x ∈ S, key < x) :
    (P ++ (M ++ S)).filter (fun x => decide (x ≠ key)) =
      P ++ (M.filter (fun x => decide (x ≠ key)) ++ S) := by
  have h1 : P.filter (fun x => decide (x ≠ key)) = P :=
    List.filter_eq_self.2 (fun x hx => by simpa using ne_of_lt (hP x hx))
  have h2 : S.filter (fun x => decide (x ≠ key)) = S :=
    List.filter_eq_self.2 (fun x hx => by simpa using ne_of_gt (hS x hx))
  simp only [List.filter_append, h1, h2]

theorem eraseIdx_eq_filter (key : K) (d : List K) (p : Nat) (hs : d.Sorted (· < ·))
    (hp : d[p]? = some key) :
    d.eraseIdx p = d.filter (fun x => decide (x ≠ key)) := by
  have hsp := split_at d p key hp
  rw [hsp] at hs
  have hs2 := List.pairwise_append.1 hs
  have hs3 := List.pairwise_cons.1 hs2.2.1
  have := filter_ne_context key (d.take p) [key] (d.drop (p + 1))
    (fun x hx => hs2.2.2 x hx key (by simp)) (fun x hx => hs3.1 x hx)
  rw [List.eraseIdx_eq_take_drop_succ]
  conv_rhs => rw [hsp]
  simpa using this.symm

theorem erase_leaf_case {N : Nat} (key : K) (a : Nat) (d : List K) (nx : Option Nat)
    (hs : d.Sorted (· < ·)) (hk : key ∈ d) :
    ∃ t1 sig, erase N key (.mk a true d [] nx) = some (t1, sig) ∧
      ErasePost N 0 key (.mk a true d [] nx) t1 sig := by
  have hp := rankLt_mem key d hs hk
  have hlt := lt_of_getElem?_some hp
  have hne : d.length ≠ 0 := by omega
  refine ⟨.mk a true (d.eraseIdx (rankLt key d)) [] nx, true, ?_, rfl,
    (WF_leaf_mk ..).2 ⟨rfl, rfl⟩, ?_, ?_, ?_, ?_, ?_, ?_⟩
  · rw [erase, erase_loop_leaf]
    simp [erase_leaf, hne, hlt]
  · simp only [node_size, data, List.length_eraseIdx, if_pos hlt]; omega
  · simp only [node_size, data, List.length_eraseIdx, if_pos hlt]; omega
  · rw [keys_leaf, keys_leaf]
    exact eraseIdx_eq_filter key d _ hs hp
  · simp only [leafList_leaf]
    refine ⟨by simp, by simp [addr], ?_⟩
    intro e he
    simpa only [Linked, next] using he
  · intro x
    simp [addrs_mk]
  · intro hcon
    cases hcon

theorem headKey_ne_of_pos {N h a : Nat} {d : List K} {ch : List (Node K)} {nx : Option Nat}
    (hN : 1 ≤ N) (hwf : WF N (h + 1) (.mk a false d ch nx)) (key : K) (r : Nat) (hr : 0 < r)
    (hlo : ∀ x ∈ (ch.take r).flatMap keys, x < key) :
    headKey (.mk a false d ch nx) ≠ some key := by
  obtain ⟨_, h2, h3, _⟩ := (WF_node_mk ..).1 hwf
  cases ch with
  | nil => simp at h2
  | cons c0 cs =>
    have hc0 := h3 c0 (by simp)
    rw [headKey_cons_child hN a d c0 cs nx hc0.1 hc0.2.1]
    intro hcon
    have hmem : key ∈ ((c0 :: cs).take r).flatMap keys := by
      obtain ⟨j, hj⟩ : ∃ j, r = j + 1 := ⟨r - 1, by omega⟩
      rw [hj, List.take_succ_cons, List.flatMap_cons]
      exact List.mem_append_left _ (mem_of_head? hcon)
    exact lt_irrefl key (hlo key hmem)

end

end Node
end ADS

namespace ADS
namespace Node

variable {K : Type} [LinearOrder K]

/-! ## Erasure at an internal node -/

theorem erasePost_of {N h a : Nat} {d : List K} {ch : List (Node K)} {nx : Option Nat}
    (key : K) (r : Nat) (c c1 : Node K) (hc : ch[r]? = some c)
    (hlo : ∀ x ∈ (ch.take r).flatMap keys, x < key)
    (hhi : ∀ x ∈ (ch.drop (r + 1)).flatMap keys, key < x)
    (hpost : ErasePost N h key c c1 sig)
    (d1 : List K) (ch1 : List (Node K)) (sig1 : Bool)
    (hwf1 : WF N (h + 1) (.mk a false d1 ch1 nx))
    (hl1 : d1.length ≤ d.length) (hl2 : d.length ≤ d1.length + 1)
    (hk : ch1.flatMap keys =
      (ch.take r).flatMap keys ++ (keys c1 ++ (ch.drop (r + 1)).flatMap keys))
    (hl : Relink ((ch.take r).flatMap leafList ++
        (leafList c1 ++ (ch.drop (r + 1)).flatMap leafList)) (ch1.flatMap leafList))
    (ha : ∀ x, (ch1.flatMap addrs).count x ≤
      ((ch.take r).flatMap addrs ++ (addrs c1 ++ (ch.drop (r + 1)).flatMap addrs)).count x)
    (hsig : sig1 = false → headKey (.mk a false d ch nx) ≠ some key ∧
      (N ≤ d.length → N ≤ d1.length)) :
    ErasePost N (h + 1) key (.mk a false d ch nx) (.mk a false d1 ch1 nx) sig1 := by
  obtain ⟨_, _, _, _, hp5, hp6, hp7, _⟩ := hpost
  refine ⟨rfl, hwf1, hl1, hl2, ?_, ?_, ?_, hsig⟩
  · rw [keys_node, hk, keys_split a d ch nx r c hc, filter_ne_context key _ _ _ hlo hhi, hp5]
  · rw [leafList_node a d1, leafList_split a d ch nx r c hc]
    exact (hp6.context _ _).trans hl
  · intro x
    have h1 := ha x
    have h2 := hp7 x
    rw [addrs_mk, addrs_mk, flatMap_split addrs ch r c hc]
    simp only [List.count_append, List.count_cons] at h1 ⊢
    omega

theorem seps_set_upd {α β : Type} (f : α → Option β) (l : List α) (d : List β) (r : Nat)
    (x : α) (m : β) (hr : 0 < r) (hx : f x = some m) (h : l.tail.map f = d.map some) :
    (l.set r x).tail.map f = (d.set (r - 1) m).map some := by
  cases l with
  | nil => simpa using h
  | cons z zs =>
    obtain ⟨j, rfl⟩ : ∃ j, r = j + 1 := ⟨r - 1, by omega⟩
    simp only [List.set_cons_succ, List.tail_cons, Nat.add_sub_cancel] at h ⊢
    rw [List.map_set, List.map_set, h, hx]

theorem erase_node_last {N h a : Nat} {d : List K} {ch : List (Node K)} {nx : Option Nat}
    (hN : 1 ≤ N) (key : K)
    (hwf : WF N (h + 1) (.mk a false d ch nx)) (hd1 : 1 ≤ d.length)
    (c c1 : Node K) (hc : ch[d.length]? = some c)
    (hlo : ∀ x ∈ (ch.take d.length).flatMap keys, x < key)
    (hhi : ∀ x ∈ (ch.drop (d.length + 1)).flatMap keys, key < x)
    (hpost : ErasePost N h key c c1 true)
    (hkn : (ch.set d.length c1).findIdx (fun x => x.addr == c1.addr) = d.length)
    (hpos : headKey (.mk a false d ch nx) ≠ some key)
    (hunder : c1.node_size < N) :
    ∃ t1 sig1, erase_node N d.length c1 true (.mk a false d ch nx) = some (t1, sig1) ∧
      ErasePost N (h + 1) key (.mk a false d ch nx) t1 sig1 := by
  obtain ⟨h1, h2, h3, h4⟩ := (WF_node_mk ..).1 hwf
  have hpost2 := hpost
  obtain ⟨hp1, hp2, hp3, hp4, hp5, hp6, hp7, hp8⟩ := hpost2
  have hL0lt : d.length - 1 < ch.length := by omega
  obtain ⟨L0, hL0⟩ : ∃ L0, ch[d.length - 1]? = some L0 :=
    ⟨ch[d.length - 1], List.getElem?_eq_getElem hL0lt⟩
  have hsp := split_pair ch (d.length - 1) L0 c hL0 (by
    have : d.length - 1 + 1 = d.length := by omega
    rw [this]; exact hc)
  have hdrop : ch.drop (d.length - 1 + 2) = [] := List.drop_eq_nil_of_le (by omega)
  rw [hdrop] at hsp
  generalize hPre : ch.take (d.length - 1) = Pre at hsp
  have hPl : Pre.length = d.length - 1 := by
    rw [← hPre, List.length_take]; omega
  have hdl : d.length = Pre.length + 1 := by omega
  subst hsp
  have hL0b := h3 L0 (by simp)
  have hcb := h3 c (by simp)
  have hmg : (Pre ++ [L0, c]).set (Pre.length + 1) c1 = Pre ++ [L0, c1] := by simp
  have hget : (Pre ++ [L0, c1])[Pre.length]? = some L0 := getElem?_append_length Pre [c1] L0
  have htake : List.take (Pre.length + 1) (Pre ++ [L0, c]) = Pre ++ [L0] := by
    rw [List.take_append_eq_append_take]
    simp
  have hdrop2 : List.drop (Pre.length + 1 + 1) (Pre ++ [L0, c]) = [] :=
    List.drop_eq_nil_of_le (by simp)
  simp only [hdl] at hc hlo hhi hkn ⊢
  rw [hmg] at hkn
  rw [htake] at hlo
  rw [hdrop2] at hhi
  by_cases hfit : L0.node_size + c1.node_size < order N
  · -- merge into the left sibling
    obtain ⟨M, hM1, hM2, hM3, hM4, hM5, hM6, hM7⟩ := merge_spec hN h L0 c1 hL0b.1 hp2
    have hML0 : headKey M = headKey L0 := by
      rw [headKey, hM5, List.head?_append_of_ne_nil _ (WF.keys_ne_nil hN h L0 hL0b.1 hL0b.2.1)]
      rfl
    have hev : erase_node N (Pre.length + 1) c1 true (.mk a false d (Pre ++ [L0, c]) nx) =
        some (.mk a false d.dropLast (Pre ++ [M]) nx, decide (¬ (Pre.length ≥ N))) := by
      simp only [erase_node, hdl, hmg, hkn, order_half]
      simp only [Nat.add_sub_cancel, hget, hfit, hM1, if_true, if_false, gt_iff_lt,
        lt_self_iff_false, ge_iff_le, Nat.not_le.2 hunder, Nat.add_one_ne_zero,
        Bool.true_eq_false]
      simp
    refine ⟨_, _, hev, ?_⟩
    apply erasePost_of key (Pre.length + 1) c c1 hc (by rw [htake]; exact hlo)
      (by rw [hdrop2]; exact hhi) hpost
    · rw [WF_node_mk]
      refine ⟨rfl, by simp [hdl], ?_, ?_⟩
      · intro x hx
        rcases List.mem_append.1 hx with hx1 | hx1
        · exact h3 x (List.mem_append_left _ hx1)
        · rw [List.mem_singleton] at hx1
          subst hx1
          refine ⟨hM3, by rw [hM4]; omega, ?_⟩
          rw [hM4]
          unfold order at hfit
          split <;> omega
      · rw [dropLast_eq_eraseIdx, hdl, Nat.add_sub_cancel]
        clear hmg hget htake hdrop2 hc hlo hhi hkn hev hPl hdl hPre hdrop hL0 h3 h2 hwf hpos
        cases Pre with
        | nil => exact seps_merge_zero headKey [] L0 c M d h4
        | cons p ps =>
          have := seps_merge_keep headKey p ps [] L0 c M d hML0 h4
          simpa using this
    · simp
    · simp only [List.length_dropLast]; omega
    · rw [htake, hdrop2]
      simp [hM5]
    · rw [htake, hdrop2]
      have := hM6.context (Pre.flatMap leafList) []
      simpa [List.flatMap_append] using this
    · intro x
      rw [htake, hdrop2]
      have := hM7 x
      simp only [List.flatMap_append, List.flatMap_cons, List.flatMap_nil, List.count_append,
        List.append_nil] at this ⊢
      omega
    · intro hs1
      refine ⟨hpos, fun _ => ?_⟩
      simp only [decide_eq_false_iff_not, not_not] at hs1
      simp only [List.length_dropLast]
      omega
  · -- move one key over from the left sibling
    have hsz1 : c1.node_size + 1 = N := by omega
    have hL0big : N + 1 ≤ L0.node_size := by
      unfold order at hfit; omega
    obtain ⟨A1, B1, hm0, hm1, hm2, hm3, hm4, hm5, hm6, hm7, ⟨X, hm8⟩, hm9, hm10⟩ :=
      move_into_right_spec hN h L0 c1 hL0b.1 hp2 (by omega)
    have hA1ne : keys A1 ≠ [] := WF.keys_ne_nil hN h A1 hm3 (by omega)
    have hB1ne : keys B1 ≠ [] := WF.keys_ne_nil hN h B1 hm4 (by omega)
    have hAL0 : headKey A1 = headKey L0 := by
      rw [headKey, headKey, hm8, List.head?_append_of_ne_nil _ hA1ne]
    obtain ⟨m, hm⟩ := headKey_some_of_ne_nil B1 hB1ne
    have hmin : B1.minimum = some m := by rw [WF.minimum_eq hN _ _ hm4, hm]
    have hms : merge_and_split N L0 c1 = some (A1, B1) := by
      rw [merge_and_split, order_half, if_neg (by omega), hm0]
    have hev : erase_node N (Pre.length + 1) c1 true (.mk a false d (Pre ++ [L0, c]) nx) =
        some (.mk a false (d.set Pre.length m) (Pre ++ [A1, B1]) nx, false) := by
      simp only [erase_node, hdl, hmg, hkn, order_half]
      simp only [Nat.add_sub_cancel, hget, hfit, hms, hmin, if_true, if_false, gt_iff_lt,
        lt_self_iff_false, ge_iff_le, Nat.not_le.2 hunder, Nat.add_one_ne_zero,
        Bool.true_eq_false]
      simp
    refine ⟨_, _, hev, ?_⟩
    apply erasePost_of key (Pre.length + 1) c c1 hc (by rw [htake]; exact hlo)
      (by rw [hdrop2]; exact hhi) hpost
    · rw [WF_node_mk]
      refine ⟨rfl, by simp [hdl], ?_, ?_⟩
      · intro x hx
        rcases List.mem_append.1 hx with hx1 | hx1
        · exact h3 x (List.mem_append_left _ hx1)
        · simp only [List.mem_cons, List.mem_singleton, List.not_mem_nil, or_false] at hx1
          rcases hx1 with hx2 | hx2
          · subst hx2
            exact ⟨hm3, by omega, by omega⟩
          · subst hx2
            exact ⟨hm4, by omega, by omega⟩
      · clear hmg hget htake hdrop2 hc hlo hhi hkn hev hPl hdl hPre hdrop hL0 h3 h2 hwf hpos
        cases Pre with
        | nil => exact seps_move_zero headKey [] L0 c A1 B1 d m hm h4
        | cons p ps =>
          have := seps_move_keep headKey p ps [] L0 c A1 B1 d m hAL0 hm h4
          simpa using this
    · simp
    · simp
    · rw [htake, hdrop2]
      simp only [List.flatMap_append, List.flatMap_cons, List.flatMap_nil, List.append_nil,
        List.append_assoc]
      rw [hm7]
    · rw [htake, hdrop2]
      have := hm9.context (Pre.flatMap leafList) []
      simpa [List.flatMap_append] using this
    · intro x
      rw [htake, hdrop2]
      have := hm10 x
      simp only [List.flatMap_append, List.flatMap_cons, List.flatMap_nil, List.count_append,
        List.append_nil] at this ⊢
      omega
    · intro _
      refine ⟨hpos, fun hh => ?_⟩
      simpa using hh

theorem erase_node_inner {N h a : Nat} {d : List K} {ch : List (Node K)} {nx : Option Nat}
    (hN : 1 ≤ N) (key : K)
    (hwf : WF N (h + 1) (.mk a false d ch nx))
    (r : Nat) (hrd : r < d.length)
    (c c1 : Node K) (hc : ch[r]? = some c)
    (hlo : ∀ x ∈ (ch.take r).flatMap keys, x < key)
    (hhi : ∀ x ∈ (ch.drop (r + 1)).flatMap keys, key < x)
    (hpost : ErasePost N h key c c1 true)
    (hkn : (ch.set r c1).findIdx (fun x => x.addr == c1.addr) = r)
    (hpos : 0 < r → headKey (.mk a false d ch nx) ≠ some key)
    (hunder : c1.node_size < N) :
    ∃ t1 sig1, erase_node N r c1 true (.mk a false d ch nx) = some (t1, sig1) ∧
      ErasePost N (h + 1) key (.mk a false d ch nx) t1 sig1 := by
  obtain ⟨h1, h2, h3, h4⟩ := (WF_node_mk ..).1 hwf
  have hpost2 := hpost
  obtain ⟨hp1, hp2, hp3, hp4, hp5, hp6, hp7, hp8⟩ := hpost2
  have hR0lt : r + 1 < ch.length := by omega
  obtain ⟨R0, hR0⟩ : ∃ R0, ch[r + 1]? = some R0 :=
    ⟨ch[r + 1], List.getElem?_eq_getElem hR0lt⟩
  have hsp := split_pair ch r c R0 hc hR0
  generalize hPre : ch.take r = Pre at hsp
  generalize hSuf : ch.drop (r + 2) = Suf at hsp
  have hPl : Pre.length = r := by
    rw [← hPre, List.length_take]; omega
  subst hPl
  subst hsp
  have hdl : d.length = Pre.length + 1 + Suf.length := by
    simp only [List.length_append, List.length_cons] at h2; omega
  have hR0b := h3 R0 (by simp)
  have hcb := h3 c (by simp)
  have hmg : (Pre ++ c :: R0 :: Suf).set Pre.length c1 = Pre ++ c1 :: R0 :: Suf := by simp
  have hget : (Pre ++ c1 :: R0 :: Suf)[Pre.length + 1]? = some R0 :=
    getElem?_append_length_succ Pre Suf c1 R0
  have htake : List.take Pre.length (Pre ++ c :: R0 :: Suf) = Pre := by simp
  have hdrop2 : List.drop (Pre.length + 1) (Pre ++ c :: R0 :: Suf) = R0 :: Suf := by
    rw [List.drop_append_eq_append_drop]
    simp
  rw [hmg] at hkn
  rw [htake] at hlo
  rw [hdrop2] at hhi
  have hneq : ¬ (Pre.length = d.length) := by omega
  have hngt : ¬ (d.length < Pre.length) := by omega
  have hnz : ¬ (d.length = 0) := by omega
  have hR0ne : keys R0 ≠ [] := WF.keys_ne_nil hN h R0 hR0b.1 hR0b.2.1
  by_cases hfit : R0.node_size + c1.node_size < order N
  · -- merge the right sibling into the child
    obtain ⟨M, hM1, hM2, hM3, hM4, hM5, hM6, hM7⟩ := merge_spec hN h c1 R0 hp2 hR0b.1
    have hMne : keys M ≠ [] := by rw [hM5]; simp [hR0ne]
    obtain ⟨m, hm⟩ := headKey_some_of_ne_nil M hMne
    have hmin : M.minimum = some m := by rw [WF.minimum_eq hN _ _ hM3, hm]
    have hMb : N ≤ M.node_size ∧ M.node_size ≤ 2 * N := by
      rw [hM4]
      unfold order at hfit
      constructor
      · omega
      · split <;> omega
    have hset2 : ((Pre ++ c1 :: R0 :: Suf).set Pre.length M).eraseIdx (Pre.length + 1) =
        Pre ++ M :: Suf := by
      simp [List.eraseIdx_append_of_length_le]
    have hk1 : (Pre ++ M :: Suf).flatMap keys =
        (List.take Pre.length (Pre ++ c :: R0 :: Suf)).flatMap keys ++
          (keys c1 ++ (List.drop (Pre.length + 1) (Pre ++ c :: R0 :: Suf)).flatMap keys) := by
      rw [htake, hdrop2]
      simp [List.flatMap_append, hM5]
    have hl1 : Relink ((List.take Pre.length (Pre ++ c :: R0 :: Suf)).flatMap leafList ++
        (leafList c1 ++ (List.drop (Pre.length + 1) (Pre ++ c :: R0 :: Suf)).flatMap leafList))
        ((Pre ++ M :: Suf).flatMap leafList) := by
      rw [htake, hdrop2]
      have := hM6.context (Pre.flatMap leafList) (Suf.flatMap leafList)
      simpa [List.flatMap_append] using this
    have ha1 : ∀ x, ((Pre ++ M :: Suf).flatMap addrs).count x ≤
        ((List.take Pre.length (Pre ++ c :: R0 :: Suf)).flatMap addrs ++
          (addrs c1 ++ (List.drop (Pre.length + 1) (Pre ++ c :: R0 :: Suf)).flatMap addrs)).count
          x := by
      intro x
      rw [htake, hdrop2]
      have := hM7 x
      simp only [List.flatMap_append, List.flatMap_cons, List.count_append] at this ⊢
      omega
    have hchmem : ∀ x ∈ Pre ++ M :: Suf, WF N h x ∧ N ≤ x.node_size ∧ x.node_size ≤ 2 * N := by
      intro x hx
      rcases List.mem_append.1 hx with hx1 | hx1
      · exact h3 x (List.mem_append_left _ hx1)
      · rcases List.mem_cons.1 hx1 with hx2 | hx2
        · subst hx2
          exact ⟨hM3, hMb.1, hMb.2⟩
        · exact h3 x (by simp [hx2])
    have hlen1 : (Pre ++ M :: Suf).length = d.length := by
      simp only [List.length_append, List.length_cons]; omega
    by_cases hP0 : Pre.length = 0
    · have hev : erase_node N Pre.length c1 true (.mk a false d (Pre ++ c :: R0 :: Suf) nx) =
          some (.mk a false (d.eraseIdx Pre.length) (Pre ++ M :: Suf) nx, true) := by
        simp only [erase_node, hmg, hkn, order_half]
        have hnpos : ¬ (0 < Pre.length) := by omega
        simp only [hget, hfit, hM1, if_true, if_false, gt_iff_lt, ge_iff_le,
          Nat.not_le.2 hunder, Bool.true_eq_false, hset2, hneq, hngt, hnz, hnpos]
      refine ⟨_, _, hev, ?_⟩
      apply erasePost_of key Pre.length c c1 hc (by rw [htake]; exact hlo)
        (by rw [hdrop2]; exact hhi) hpost
      · rw [WF_node_mk]
        refine ⟨rfl, ?_, hchmem, seps_merge_first headKey Pre Suf c R0 M d hP0 h4⟩
        rw [hlen1, List.length_eraseIdx, if_pos hrd]; omega
      · rw [List.length_eraseIdx, if_pos hrd]; omega
      · rw [List.length_eraseIdx, if_pos hrd]; omega
      · exact hk1
      · exact hl1
      · exact ha1
      · intro hcon
        cases hcon
    · have hPpos : 0 < Pre.length := by omega
      have hev : erase_node N Pre.length c1 true (.mk a false d (Pre ++ c :: R0 :: Suf) nx) =
          some (.mk a false ((d.eraseIdx Pre.length).set (Pre.length - 1) m)
            (Pre ++ M :: Suf) nx, decide (d.length - 1 < N)) := by
        simp only [erase_node, hmg, hkn, order_half]
        simp only [hget, hfit, hM1, hmin, if_true, if_false, gt_iff_lt, ge_iff_le,
          Nat.not_le.2 hunder, Bool.true_eq_false, hset2, hneq, hngt, hnz, hP0, hPpos]
      refine ⟨_, _, hev, ?_⟩
      apply erasePost_of key Pre.length c c1 hc (by rw [htake]; exact hlo)
        (by rw [hdrop2]; exact hhi) hpost
      · rw [WF_node_mk]
        refine ⟨rfl, ?_, hchmem, seps_merge_later headKey Pre Suf c R0 M d m hPpos hm h4⟩
        rw [hlen1, List.length_set, List.length_eraseIdx, if_pos hrd]; omega
      · rw [List.length_set, List.length_eraseIdx, if_pos hrd]; omega
      · rw [List.length_set, List.length_eraseIdx, if_pos hrd]; omega
      · exact hk1
      · exact hl1
      · exact ha1
      · intro hs1
        refine ⟨hpos hPpos, fun _ => ?_⟩
        simp only [decide_eq_false_iff_not, not_lt] at hs1
        rw [List.length_set, List.length_eraseIdx, if_pos hrd]
        exact hs1
  · -- move one key over from the right sibling
    have hsz1 : c1.node_size + 1 = N := by omega
    have hR0big : N + 1 ≤ R0.node_size := by
      unfold order at hfit; omega
    obtain ⟨A1, B1, hm0, hm1, hm2, hm3, hm4, hm5, hm6, hm7, hm9, hm10⟩ :=
      move_into_left_spec hN h c1 R0 hp2 hR0b.1 (by omega)
    have hA1ne : keys A1 ≠ [] := WF.keys_ne_nil hN h A1 hm3 (by omega)
    have hB1ne : keys B1 ≠ [] := WF.keys_ne_nil hN h B1 hm4 (by omega)
    obtain ⟨mx, hmx⟩ := headKey_some_of_ne_nil A1 hA1ne
    obtain ⟨my, hmy⟩ := headKey_some_of_ne_nil B1 hB1ne
    have hminx : A1.minimum = some mx := by rw [WF.minimum_eq hN _ _ hm3, hmx]
    have hminy : B1.minimum = some my := by rw [WF.minimum_eq hN _ _ hm4, hmy]
    have hms : merge_and_split N c1 R0 = some (A1, B1) := by
      rw [merge_and_split, order_half, if_pos hunder, hm0]
    have hset2 : ((Pre ++ c1 :: R0 :: Suf).set Pre.length A1).set (Pre.length + 1) B1 =
        Pre ++ A1 :: B1 :: Suf := by
      simp
    have hk1 : (Pre ++ A1 :: B1 :: Suf).flatMap keys =
        (List.take Pre.length (Pre ++ c :: R0 :: Suf)).flatMap keys ++
          (keys c1 ++ (List.drop (Pre.length + 1) (Pre ++ c :: R0 :: Suf)).flatMap keys) := by
      rw [htake, hdrop2]
      simp only [List.flatMap_append, List.flatMap_cons]
      rw [← List.append_assoc (keys A1), hm7]
      simp
    have hl1 : Relink ((List.take Pre.length (Pre ++ c :: R0 :: Suf)).flatMap leafList ++
        (leafList c1 ++ (List.drop (Pre.length + 1) (Pre ++ c :: R0 :: Suf)).flatMap leafList))
        ((Pre ++ A1 :: B1 :: Suf).flatMap leafList) := by
      rw [htake, hdrop2]
      have := hm9.context (Pre.flatMap leafList) (Suf.flatMap leafList)
      simpa [List.flatMap_append] using this
    have ha1 : ∀ x, ((Pre ++ A1 :: B1 :: Suf).flatMap addrs).count x ≤
        ((List.take Pre.length (Pre ++ c :: R0 :: Suf)).flatMap addrs ++
          (addrs c1 ++ (List.drop (Pre.length + 1) (Pre ++ c :: R0 :: Suf)).flatMap addrs)).count
          x := by
      intro x
      rw [htake, hdrop2]
      have := hm10 x
      simp only [List.flatMap_append, List.flatMap_cons, List.count_append] at this ⊢
      omega
    have hchmem : ∀ x ∈ Pre ++ A1 :: B1 :: Suf,
        WF N h x ∧ N ≤ x.node_size ∧ x.node_size ≤ 2 * N := by
      intro x hx
      rcases List.mem_append.1 hx with hx1 | hx1
      · exact h3 x (List.mem_append_left _ hx1)
      · rcases List.mem_cons.1 hx1 with hx2 | hx2
        · subst hx2
          exact ⟨hm3, by omega, by omega⟩
        · rcases List.mem_cons.1 hx2 with hx3 | hx3
          · subst hx3
            exact ⟨hm4, by omega, by omega⟩
          · exact h3 x (by simp [hx3])
    have hlen1 : (Pre ++ A1 :: B1 :: Suf).length = d.length + 1 := by
      simp only [List.length_append, List.length_cons]; omega
    by_cases hP0 : Pre.length = 0
    · have hev : erase_node N Pre.length c1 true (.mk a false d (Pre ++ c :: R0 :: Suf) nx) =
          some (.mk a false (d.set 0 my) (Pre ++ A1 :: B1 :: Suf) nx, true) := by
        simp only [erase_node, hmg, hkn, order_half]
        simp only [hget, hfit, hms, hminy, if_true, if_false, gt_iff_lt, ge_iff_le,
          Nat.not_le.2 hunder, Bool.true_eq_false, hset2, hneq, hngt, hnz, if_pos hP0]
      refine ⟨_, _, hev, ?_⟩
      apply erasePost_of key Pre.length c c1 hc (by rw [htake]; exact hlo)
        (by rw [hdrop2]; exact hhi) hpost
      · rw [WF_node_mk]
        refine ⟨rfl, ?_, hchmem, seps_move_first headKey Pre Suf c R0 A1 B1 d my hP0 hmy h4⟩
        rw [hlen1, List.length_set]
      · rw [List.length_set]
      · rw [List.length_set]; omega
      · exact hk1
      · exact hl1
      · exact ha1
      · intro hcon
        cases hcon
    · have hPpos : 0 < Pre.length := by omega
      have hev : erase_node N Pre.length c1 true (.mk a false d (Pre ++ c :: R0 :: Suf) nx) =
          some (.mk a false ((d.set (Pre.length - 1) mx).set Pre.length my)
            (Pre ++ A1 :: B1 :: Suf) nx, false) := by
        simp only [erase_node, hmg, hkn, order_half]
        simp only [hget, hfit, hms, hminx, hminy, if_true, if_false, gt_iff_lt, ge_iff_le,
          Nat.not_le.2 hunder, Bool.true_eq_false, hset2, hneq, hngt, hnz, if_neg hP0]
      refine ⟨_, _, hev, ?_⟩
      apply erasePost_of key Pre.length c c1 hc (by rw [htake]; exact hlo)
        (by rw [hdrop2]; exact hhi) hpost
      · rw [WF_node_mk]
        refine ⟨rfl, ?_, hchmem,
          seps_move_later headKey Pre Suf c R0 A1 B1 d mx my hPpos hmx hmy h4⟩
        rw [hlen1, List.length_set, List.length_set]
      · rw [List.length_set, List.length_set]
      · rw [List.length_set, List.length_set]; omega
      · exact hk1
      · exact hl1
      · exact ha1
      · intro _
        refine ⟨hpos hPpos, fun hh => ?_⟩
        rw [List.length_set, List.length_set]
        exact hh

theorem erase_node_spec {N h a : Nat} {d : List K} {ch : List (Node K)} {nx : Option Nat}
    (hN : 1 ≤ N) (key : K)
    (hwf : WF N (h + 1) (.mk a false d ch nx)) (hd1 : 1 ≤ d.length)
    (hnd : (addrs (.mk a false d ch nx)).Nodup)
    (r : Nat) (c c1 : Node K) (sig : Bool) (hc : ch[r]? = some c)
    (hlo : ∀ x ∈ (ch.take r).flatMap keys, x < key)
    (hhi : ∀ x ∈ (ch.drop (r + 1)).flatMap keys, key < x)
    (hpost : ErasePost N h key c c1 sig) :
    ∃ t1 sig1, erase_node N r c1 sig (.mk a false d ch nx) = some (t1, sig1) ∧
      ErasePost N (h + 1) key (.mk a false d ch nx) t1 sig1 := by
  obtain ⟨h1, h2, h3, h4⟩ := (WF_node_mk ..).1 hwf
  have hpost2 := hpost
  obtain ⟨hp1, hp2, hp3, hp4, hp5, hp6, hp7, hp8⟩ := hpost2
  have hr : r < ch.length := lt_of_getElem?_some hc
  have hcmem : c ∈ ch := List.mem_iff_getElem?.2 ⟨r, hc⟩
  have hcb := h3 c hcmem
  have hchnd : (ch.map addr).Nodup := by
    rw [addrs_mk] at hnd
    exact (List.nodup_cons.1 hnd).2.sublist (map_addr_sublist ch)
  have hkn := key_number_eq ch r c c1 hchnd hc hp1
  have hpos : 0 < r → headKey (.mk a false d ch nx) ≠ some key :=
    fun h0 => headKey_ne_of_pos hN hwf key r h0 hlo
  have hset : ch.set r c1 = ch.take r ++ c1 :: ch.drop (r + 1) := set_eq_of_getElem? ch r c c1 hc
  by_cases hsig : sig = false
  · -- the child returned nullptr
    subst hsig
    obtain ⟨hq1, hq2⟩ := hp8 rfl
    have hhk : headKey c1 = headKey c := by
      rw [headKey, hp5, headKey]
      cases hkc : keys c with
      | nil => rfl
      | cons z zs =>
        have : z ≠ key := by
          intro he
          apply hq1
          rw [headKey, hkc, he]
          rfl
        simp [List.filter_cons, this]
    refine ⟨.mk a false d (ch.set r c1) nx, false, by simp [erase_node], ?_⟩
    apply erasePost_of key r c c1 hc hlo hhi hpost d (ch.set r c1) false
    · rw [WF_node_mk]
      refine ⟨rfl, by rw [List.length_set]; exact h2, ?_, ?_⟩
      · intro x hx
        rcases mem_set_of _ _ _ _ hx with hx1 | hx1
        · subst hx1
          exact ⟨hp2, hq2 hcb.2.1, le_trans hp3 hcb.2.2⟩
        · exact h3 x hx1
      · rw [seps_set headKey ch r c c1 hc (fun _ => hhk), h4]
    · exact le_refl _
    · omega
    · rw [flatMap_set keys ch r c c1 hc]
    · rw [flatMap_set leafList ch r c c1 hc]
      apply relink_refl
      have := WF.leafList_ne_nil _ _ hp2
      simp [this]
    · intro x
      rw [flatMap_set addrs ch r c c1 hc]
    · intro _
      refine ⟨?_, fun hh => hh⟩
      by_cases h0 : 0 < r
      · exact hpos h0
      · have hr0 : r = 0 := by omega
        subst hr0
        cases ch with
        | nil => simp at hc
        | cons c0 cs =>
          simp at hc
          subst hc
          rw [headKey_cons_child hN a d c0 cs nx hcb.1 hcb.2.1]
          exact hq1
  · have hst : sig = true := by
      cases sig with
      | false => exact absurd rfl hsig
      | true => rfl
    subst hst
    have hrle : r ≤ d.length := by omega
    by_cases hfull : N ≤ c1.node_size
    · -- the child still holds enough keys
      have hwfset : ∀ d1 : List K, d1.length = d.length →
          (ch.set r c1).tail.map headKey = d1.map some →
          WF N (h + 1) (.mk a false d1 (ch.set r c1) nx) := by
        intro d1 hd1len hseps
        rw [WF_node_mk]
        refine ⟨rfl, by rw [List.length_set, hd1len]; exact h2, ?_, hseps⟩
        intro x hx
        rcases mem_set_of _ _ _ _ hx with hx1 | hx1
        · subst hx1
          exact ⟨hp2, hfull, le_trans hp3 hcb.2.2⟩
        · exact h3 x hx1
      have hk1 : (ch.set r c1).flatMap keys =
          (ch.take r).flatMap keys ++ (keys c1 ++ (ch.drop (r + 1)).flatMap keys) :=
        flatMap_set keys ch r c c1 hc
      have hl1 : Relink ((ch.take r).flatMap leafList ++
          (leafList c1 ++ (ch.drop (r + 1)).flatMap leafList))
          ((ch.set r c1).flatMap leafList) := by
        rw [flatMap_set leafList ch r c c1 hc]
        apply relink_refl
        have := WF.leafList_ne_nil _ _ hp2
        simp [this]
      have ha1 : ∀ x, ((ch.set r c1).flatMap addrs).count x ≤
          ((ch.take r).flatMap addrs ++ (addrs c1 ++ (ch.drop (r + 1)).flatMap addrs)).count x := by
        intro x
        rw [flatMap_set addrs ch r c c1 hc]
      have hngt : ¬ (d.length < r) := by omega
      by_cases hr0 : r = 0
      · have hev : erase_node N r c1 true (.mk a false d ch nx) =
            some (.mk a false d (ch.set r c1) nx, true) := by
          simp only [erase_node, hkn, order_half]
          simp only [if_true, if_false, gt_iff_lt, ge_iff_le, hfull, Bool.true_eq_false, hngt,
            if_pos hr0]
        refine ⟨_, _, hev, ?_⟩
        apply erasePost_of key r c c1 hc hlo hhi hpost d (ch.set r c1) true
        · apply hwfset d rfl
          rw [seps_set headKey ch r c c1 hc (fun h0 => by omega), h4]
        · exact le_refl _
        · omega
        · exact hk1
        · exact hl1
        · exact ha1
        · intro hcon
          cases hcon
      · have hrpos : 0 < r := by omega
        obtain ⟨m, hm⟩ := headKey_some_of_ne_nil c1 (WF.keys_ne_nil hN h c1 hp2 hfull)
        have hmin : c1.minimum = some m := by rw [WF.minimum_eq hN _ _ hp2, hm]
        have hev : erase_node N r c1 true (.mk a false d ch nx) =
            some (.mk a false (d.set (r - 1) m) (ch.set r c1) nx, false) := by
          simp only [erase_node, hkn, order_half]
          simp only [if_true, if_false, gt_iff_lt, ge_iff_le, hfull, Bool.true_eq_false, hngt,
            if_neg hr0, hmin]
        refine ⟨_, _, hev, ?_⟩
        apply erasePost_of key r c c1 hc hlo hhi hpost (d.set (r - 1) m) (ch.set r c1) false
        · apply hwfset _ (by rw [List.length_set])
          exact seps_set_upd headKey ch d r c1 m hrpos hm h4
        · rw [List.length_set]
        · rw [List.length_set]; omega
        · exact hk1
        · exact hl1
        · exact ha1
        · intro _
          refine ⟨hpos hrpos, fun hh => ?_⟩
          rw [List.length_set]
          exact hh
    · have hunder : c1.node_size < N := by omega
      by_cases hlast : r = d.length
      · subst hlast
        exact erase_node_last hN key hwf hd1 c c1 hc hlo hhi hpost hkn (hpos (by omega)) hunder
      · exact erase_node_inner hN key hwf r (by omega) c c1 hc hlo hhi hpost hkn hpos hunder

end Node
end ADS

namespace ADS
namespace Node

variable {K : Type} [LinearOrder K]

/-! ## Erasure -/

omit [LinearOrder K] in
theorem addrs_child_sublist (a : Nat) (lf : Bool) (d : List K) (ch : List (Node K))
    (nx : Option Nat) (c : Node K) (hc : c ∈ ch) :
    (addrs c).Sublist (addrs (.mk a lf d ch nx)) := by
  rw [addrs_mk]
  apply List.Sublist.cons
  obtain ⟨i, hi⟩ := List.mem_iff_getElem?.1 hc
  rw [flatMap_split addrs ch i c hi]
  exact List.Sublist.trans (List.sublist_append_left _ _) (List.sublist_append_right _ _)

theorem erase_spec {N : Nat} (hN : 1 ≤ N) (key : K) :
    ∀ (h : Nat) (t : Node K), WF N h t → (1 ≤ h → 1 ≤ t.node_size) →
      (keys t).Sorted (· < ·) → key ∈ keys t → (addrs t).Nodup →
      ∃ t1 sig, erase N key t = some (t1, sig) ∧ ErasePost N h key t t1 sig := by
  intro h
  induction h with
  | zero =>
    intro t hwf _ hs hk _
    obtain ⟨a, lf, d, ch, nx⟩ := t
    obtain ⟨h1, h2⟩ := (WF_leaf_mk ..).1 hwf
    subst h1; subst h2
    rw [keys_leaf] at hs hk
    exact erase_leaf_case key a d nx hs hk
  | succ h ih =>
    intro t hwf hsz hs hk hnd
    obtain ⟨a, lf, d, ch, nx⟩ := t
    obtain ⟨h1, h2, h3, h4⟩ := (WF_node_mk ..).1 hwf
    subst h1
    obtain ⟨c, hc, hcwf, hcsz, hcs, hlo, hhi, _⟩ := descend hwf hs key
    have hkc : key ∈ keys c := (mem_keys_child hwf hs key c hc).1 hk
    have hcmem : c ∈ ch := List.mem_iff_getElem?.2 ⟨_, hc⟩
    have hcnd : (addrs c).Nodup := hnd.sublist (addrs_child_sublist a false d ch nx c hcmem)
    obtain ⟨c1, sig, hec, hpost⟩ := ih c hcwf (fun _ => le_trans hN hcsz.1) hcs hkc hcnd
    obtain ⟨t1, sig1, hev, hpost1⟩ := erase_node_spec hN key hwf (hsz (by omega)) hnd
      (rankLe key d) c c1 sig hc hlo hhi hpost
    refine ⟨t1, sig1, ?_, hpost1⟩
    rw [erase, erase_loop_node]
    simp only [Nat.zero_add, Bool.false_eq_true, if_false]
    rw [erase_child_eq, hc]
    simp only [hec]
    exact hev

end Node
end ADS

namespace ADS

open Node

variable {K : Type}

/-! ## Reading through pointers and walking the leaf chain -/

theorem find?_of_nodup_map {α : Type} (f : α → Nat) (L : List α) (l : α)
    (hnd : (L.map f).Nodup) (hl : l ∈ L) :
    L.find? (fun u => decide (f u = f l)) = some l := by
  induction L with
  | nil => simp at hl
  | cons x xs ih =>
    rw [List.map_cons, List.nodup_cons] at hnd
    rcases List.mem_cons.1 hl with h | h
    · subst h
      simp
    · have hne : f x ≠ f l := by
        intro heq
        apply hnd.1
        rw [heq]
        exact List.mem_map_of_mem f h
      rw [List.find?_cons_of_neg _ (by simpa using hne)]
      exact ih hnd.2 h

theorem Node.lookup_leaf (t : Node K) (hnd : (addrs t).Nodup) (l : Node K)
    (hl : l ∈ leafList t) : lookup l.addr t = some l := by
  unfold lookup
  apply find?_of_nodup_map addr (nodes t) l hnd
  exact List.mem_of_mem_filter hl

theorem Node.leaves_nonempty {N : Nat} (hN : 1 ≤ N) :
    ∀ (h : Nat) (t : Node K), WF N h t → N ≤ t.node_size →
      ∀ l ∈ leafList t, l.data ≠ [] := by
  intro h
  induction h with
  | zero =>
    intro t hwf hsz l hl
    obtain ⟨a, lf, d, ch, nx⟩ := t
    obtain ⟨h1, h2⟩ := (WF_leaf_mk ..).1 hwf
    subst h1; subst h2
    rw [leafList_leaf, List.mem_singleton] at hl
    subst hl
    intro hd
    have : 1 ≤ d.length := le_trans hN hsz
    simp only [data] at hd
    rw [hd] at this
    simp at this
  | succ h ih =>
    intro t hwf _ l hl
    obtain ⟨a, lf, d, ch, nx⟩ := t
    obtain ⟨h1, _, h3, _⟩ := (WF_node_mk ..).1 hwf
    subst h1
    rw [leafList_node, List.mem_flatMap] at hl
    obtain ⟨c, hc, hlc⟩ := hl
    exact ih c (h3 c hc).1 (h3 c hc).2.1 l hlc

theorem Node.leaves_nonempty_top {N : Nat} (hN : 1 ≤ N) (h : Nat) (t : Node K)
    (hwf : WF N h t) (hk : keys t ≠ []) : ∀ l ∈ leafList t, l.data ≠ [] := by
  cases h with
  | zero =>
    intro l hl
    obtain ⟨a, lf, d, ch, nx⟩ := t
    obtain ⟨h1, h2⟩ := (WF_leaf_mk ..).1 hwf
    subst h1; subst h2
    rw [leafList_leaf, List.mem_singleton] at hl
    subst hl
    rw [keys_leaf] at hk
    exact hk
  | succ h =>
    intro l hl
    obtain ⟨a, lf, d, ch, nx⟩ := t
    obtain ⟨h1, _, h3, _⟩ := (WF_node_mk ..).1 hwf
    subst h1
    rw [leafList_node, List.mem_flatMap] at hl
    obtain ⟨c, hc, hlc⟩ := hl
    exact Node.leaves_nonempty hN h c (h3 c hc).1 (h3 c hc).2.1 l hlc

theorem Node.linked_cons_next (l : Node K) (S : List (Node K)) (e : Option Nat)
    (h : Linked (l :: S) e) : l.next = (match S with | [] => e | l2 :: _ => some l2.addr) := by
  cases S with
  | nil => exact h
  | cons l2 S2 => exact h.1

namespace ADS_set

theorem iterate_end (s : ADS_set K) (fuel : Nat) : s.iterate fuel end_ = some [] := by
  cases fuel <;> simp [iterate]

theorem iterate_chain (s : ADS_set K) (hnd : (addrs s.root).Nodup)
    (hne : ∀ l ∈ leafList s.root, l.data ≠ []) :
    ∀ (fuel : Nat) (P : List (Node K)) (l : Node K) (S : List (Node K)) (i : Nat),
      leafList s.root = P ++ l :: S → Linked (l :: S) none → i < l.data.length →
      (l.data.length - i) + (S.flatMap data).length ≤ fuel →
      s.iterate fuel ⟨some l.addr, i⟩ = some (l.data.drop i ++ S.flatMap data) := by
  intro fuel
  induction fuel with
  | zero =>
    intro P l S i _ _ hi hf
    omega
  | succ fuel ih =>
    intro P l S i hLL hlk hi hf
    have hlmem : l ∈ leafList s.root := by rw [hLL]; simp
    have hlook := Node.lookup_leaf s.root hnd l hlmem
    have hder : s.deref ⟨some l.addr, i⟩ = some l.data[i] := by
      simp only [deref, hlook]
      exact List.getElem?_eq_getElem hi
    have hdrop : l.data.drop i = l.data[i] :: l.data.drop (i + 1) :=
      List.drop_eq_getElem_cons hi
    have hnotend : (⟨some l.addr, i⟩ : Iterator) ≠ end_ := by
      simp [end_]
    by_cases hlast : i + 1 ≥ l.node_size
    · have hadv : s.advance ⟨some l.addr, i⟩ = some ⟨l.next, 0⟩ := by
        simp only [advance, hlook, if_pos hlast]
      have hd2 : l.data.drop (i + 1) = [] := List.drop_eq_nil_of_le hlast
      have hnx := Node.linked_cons_next l S none hlk
      rw [iterate, if_neg hnotend, hder, hadv]
      simp only []
      cases S with
      | nil =>
        simp only [] at hnx
        rw [hnx]
        have : (⟨none, 0⟩ : Iterator) = end_ := rfl
        rw [this, iterate_end]
        simp [hdrop, hd2]
      | cons l2 S2 =>
        simp only [] at hnx
        rw [hnx]
        have hl2mem : l2 ∈ leafList s.root := by rw [hLL]; simp
        have hl2ne := hne l2 hl2mem
        have hl2pos : 0 < l2.data.length := List.length_pos.2 hl2ne
        have hsz : l.data.length - i = 1 := by
          have : l.node_size = l.data.length := rfl
          omega
        have := ih (P ++ [l]) l2 S2 0 (by rw [hLL]; simp) hlk.2 hl2pos (by
          simp only [List.flatMap_cons, List.length_append] at hf
          omega)
        rw [this]
        simp [hdrop, hd2]
    · have hadv : s.advance ⟨some l.addr, i⟩ = some ⟨some l.addr, i + 1⟩ := by
        simp only [advance, hlook, if_neg hlast]
      have hi2 : i + 1 < l.data.length := by
        have : l.node_size = l.data.length := rfl
        omega
      rw [iterate, if_neg hnotend, hder, hadv]
      simp only []
      rw [ih P l S (i + 1) hLL hlk hi2 (by omega), hdrop]
      rfl

theorem walk_chain (s : ADS_set K) (hnd : (addrs s.root).Nodup) :
    ∀ (fuel : Nat) (P : List (Node K)) (l : Node K) (S : List (Node K)),
      leafList s.root = P ++ l :: S → Linked (l :: S) none → S.length + 1 ≤ fuel →
      s.walk fuel (some l.addr) = some (l :: S) := by
  intro fuel
  induction fuel with
  | zero =>
    intro P l S _ _ hf
    omega
  | succ fuel ih =>
    intro P l S hLL hlk hf
    have hlmem : l ∈ leafList s.root := by rw [hLL]; simp
    have hlook := Node.lookup_leaf s.root hnd l hlmem
    have hnx := Node.linked_cons_next l S none hlk
    rw [walk, hlook]
    simp only []
    cases S with
    | nil =>
      simp only [] at hnx
      rw [hnx]
      cases fuel <;> simp [walk]
    | cons l2 S2 =>
      simp only [] at hnx
      rw [hnx, ih (P ++ [l]) l2 S2 (by rw [hLL]; simp) hlk.2 (by
        simp only [List.length_cons] at hf; omega)]

end ADS_set

end ADS

namespace ADS

open Node

variable {K : Type} [LinearOrder K]

/-! ## The container -/

theorem nodup_of_perm_fresh (L A : List Nat) (f n : Nat) (hp : L.Perm (A ++ List.range' f n))
    (hA : A.Nodup) (hlt : ∀ a ∈ A, a < f) : L.Nodup ∧ ∀ a ∈ L, a < f + n := by
  constructor
  · rw [hp.nodup_iff, List.nodup_append]
    refine ⟨hA, List.nodup_range' f n, ?_⟩
    intro a ha hr
    have h1 := hlt a ha
    rw [List.mem_range'] at hr
    obtain ⟨i, _, hi⟩ := hr
    omega
  · intro a ha
    have := hp.mem_iff.1 ha
    rcases List.mem_append.1 this with h | h
    · have := hlt a h
      omega
    · rw [List.mem_range'] at h
      obtain ⟨i, hi1, hi2⟩ := h
      omega

theorem nodup_of_count_le (L A : List Nat) (hc : ∀ x, L.count x ≤ A.count x) (hA : A.Nodup) :
    L.Nodup ∧ ∀ a ∈ L, a ∈ A := by
  constructor
  · rw [List.nodup_iff_count_le_one]
    intro a
    exact le_trans (hc a) (List.nodup_iff_count_le_one.1 hA a)
  · intro a ha
    have h1 : 0 < L.count a := List.count_pos_iff.2 ha
    have h2 := hc a
    exact List.count_pos_iff.1 (by omega)

theorem length_filter_ne (key : K) (l : List K) (hs : l.Sorted (· < ·)) (hk : key ∈ l) :
    (l.filter (fun x => decide (x ≠ key))).length + 1 = l.length := by
  induction l with
  | nil => simp at hk
  | cons z zs ih =>
    by_cases hz : z = key
    · subst hz
      have hall : ∀ x ∈ zs, z < x := fun x hx => List.rel_of_sorted_cons hs x hx
      have h1 : zs.filter (fun x => decide (x ≠ z)) = zs :=
        List.filter_eq_self.2 (fun x hx => by simpa using ne_of_gt (hall x hx))
      rw [List.filter_cons_of_neg (by simp), h1, List.length_cons]
    · have hk2 : key ∈ zs := by
        rcases List.mem_cons.1 hk with h | h
        · exact absurd h.symm hz
        · exact h
      have h1 := ih hs.of_cons hk2
      rw [List.filter_cons_of_pos (by simpa using hz), List.length_cons, List.length_cons, h1]

namespace ADS_set

theorem inv_new (N : Nat) : Inv N (new : ADS_set K) := by
  refine ⟨0, (WF_leaf_mk ..).2 ⟨rfl, rfl⟩, by simp [new, node_size, data], by omega, ?_, ?_, ?_,
    ?_, ?_, ?_⟩
  · simp [new, keys_leaf]
  · simp [new, leafList_leaf, Linked, next]
  · simp [new, leafList_leaf, addr]
  · simp [new, addrs_mk]
  · simp [new, addrs_mk]
  · simp [new, keys_leaf]

theorem toList_of_inv {N : Nat} (hN : 1 ≤ N) (s : ADS_set K) (hinv : Inv N s) (fuel : Nat)
    (hf : s.size ≤ fuel) : s.toList fuel = some (keys s.root) := by
  obtain ⟨h, hwf, _, _, _, hlk, hhead, hnd, _, hlen⟩ := hinv
  unfold toList begin_ empty
  by_cases he : s.leaves = 0
  · have hk : keys s.root = [] := by
      apply List.eq_nil_of_length_eq_zero
      omega
    simp only [he, decide_True, if_true, iterate_end, hk]
  · simp only [he, decide_False, Bool.false_eq_true, if_false]
    have hk : keys s.root ≠ [] := by
      intro hk
      rw [hk] at hlen
      exact he hlen
    have hne := Node.leaves_nonempty_top hN h s.root hwf hk
    cases hLL : leafList s.root with
    | nil => exact absurd hLL (WF.leafList_ne_nil h s.root hwf)
    | cons l S =>
      rw [hLL] at hhead hlk
      simp only [List.head?_cons, Option.map_some', Option.some.injEq] at hhead
      rw [← hhead]
      have hl : l ∈ leafList s.root := by rw [hLL]; simp
      have hpos : 0 < l.data.length := List.length_pos.2 (hne l hl)
      have hkeys : keys s.root = l.data ++ S.flatMap data := by
        rw [keys, hLL, List.flatMap_cons]
      have := iterate_chain s hnd hne fuel [] l S 0 (by rw [hLL]; rfl) hlk hpos (by
        have h1 : s.size = s.leaves := rfl
        rw [hkeys, List.length_append] at hlen
        omega)
      rw [this, hkeys]
      simp

theorem find_of_inv {N : Nat} (s : ADS_set K) (hinv : Inv N s) (key : K) :
    ∃ it, s.find key = some it ∧ (key ∉ keys s.root → it = end_) ∧
      (key ∈ keys s.root → ∃ l ∈ leafList s.root, ∃ i, it = ⟨some l.addr, i⟩ ∧
        l.data[i]? = some key) := by
  obtain ⟨h, hwf, _, _, hs, _, _, _, _, hlen⟩ := hinv
  unfold find empty
  by_cases he : s.leaves = 0
  · have hk : keys s.root = [] := by
      apply List.eq_nil_of_length_eq_zero
      omega
    simp only [he, decide_True, if_true]
    refine ⟨end_, rfl, fun _ => rfl, ?_⟩
    intro hmem
    rw [hk] at hmem
    simp at hmem
  · simp only [he, decide_False, Bool.false_eq_true, if_false]
    exact find_spec key h s.root hwf hs

theorem find_ne_end_iff {N : Nat} (s : ADS_set K) (hinv : Inv N s) (key : K) (it : Iterator)
    (hit : s.find key = some it) : it ≠ end_ ↔ key ∈ keys s.root := by
  obtain ⟨it2, h1, h2, h3⟩ := find_of_inv s hinv key
  rw [hit] at h1
  cases h1
  constructor
  · intro hne
    by_contra hk
    exact hne (h2 hk)
  · intro hk
    obtain ⟨l, _, i, hi, _⟩ := h3 hk
    rw [hi]
    simp [end_]

end ADS_set

end ADS

namespace ADS

open Node

variable {K : Type} [LinearOrder K]

namespace ADS_set

/-! ## Insert and erase keep the invariant -/

theorem insert_present {N : Nat} (s : ADS_set K) (hinv : Inv N s) (key : K)
    (hk : key ∈ keys s.root) :
    ∃ it, s.insert N key = some (s, it, false) ∧ s.find key = some it := by
  obtain ⟨it, hit, _, _⟩ := find_of_inv s hinv key
  have hne := (find_ne_end_iff s hinv key it hit).2 hk
  refine ⟨it, ?_, hit⟩
  simp only [insert, hit, ne_eq, hne, not_false_eq_true, if_true]

theorem insert_absent {N : Nat} (hN : 1 ≤ N) (s : ADS_set K) (hinv : Inv N s) (key : K)
    (hk : key ∉ keys s.root) :
    ∃ s1 it, s.insert N key = some (s1, it, true) ∧ Inv N s1 ∧
      keys s1.root = insKey key (keys s.root) ∧ s1.find key = some it ∧
      s1.leaves = s.leaves + 1 ∧ s1.head = s.head := by
  obtain ⟨it0, hit0, hend, _⟩ := find_of_inv s hinv key
  have hit0e : it0 = end_ := hend hk
  subst hit0e
  obtain ⟨h, hwf, hsz, hroot, hs, hlk, hhead, hnd, hlt, hlen⟩ := hinv
  obtain ⟨root1, ret, fresh1, hins, hp1, hp2, hp3, hp4, hp5, hp6, hp7, hp8⟩ :=
    insert_spec hN key h s.root s.fresh hwf hsz hs hk
  have hfr : s.fresh + (fresh1 - s.fresh) = fresh1 := by omega
  obtain ⟨hnd1, hlt1⟩ := nodup_of_perm_fresh _ _ _ _ hp7 hnd hlt
  rw [hfr] at hlt1
  have hsorted : (insKey key (keys s.root)).Sorted (· < ·) := insKey_sorted key _ hs
  have hlen1 : (insKey key (keys s.root)).length = s.leaves + 1 := by
    rw [length_insKey key _ hk, hlen]
  cases ret with
  | none =>
    simp only [keysOpt, leafListOpt, addrsOpt, List.append_nil] at hp4 hp5 hp6 hnd1 hlt1
    have hinv2 : Inv N (⟨s.leaves + 1, root1, s.head, fresh1⟩ : ADS_set K) := by
      refine ⟨h, hp2, hp3, fun h1 => le_trans (hroot h1) hp4, ?_, hp6.2.2 none hlk, ?_, hnd1,
        hlt1, ?_⟩
      · show (keys root1).Sorted (· < ·)
        rw [hp5]; exact hsorted
      · show (leafList root1).head?.map addr = some s.head
        rw [hp6.2.1, hhead]
      · show s.leaves + 1 = (keys root1).length
        rw [hp5, hlen1]
    obtain ⟨it, hit, _, _⟩ := find_of_inv _ hinv2 key
    refine ⟨_, it, ?_, hinv2, hp5, hit, rfl, rfl⟩
    simp only [insert, hit0, ne_eq, not_true_eq_false, if_false, hins, hit]
  | some r =>
    obtain ⟨hr1, hr2, hr3, hr4⟩ := hp4
    simp only [keysOpt, leafListOpt, addrsOpt] at hp5 hp6 hnd1 hlt1
    obtain ⟨m, hm⟩ := headKey_some_of_ne_nil r (WF.keys_ne_nil hN h r hr1 hr2)
    have hmin : r.minimum = some m := by rw [WF.minimum_eq hN _ _ hr1, hm]
    have hinv2 : Inv N (⟨s.leaves + 1, .mk fresh1 false [m] [root1, r] none, s.head,
        fresh1 + 1⟩ : ADS_set K) := by
      refine ⟨h + 1, ?_, ?_, ?_, ?_, ?_, ?_, ?_, ?_, ?_⟩
      · rw [WF_node_mk]
        refine ⟨rfl, rfl, ?_, by simp [hm]⟩
        intro c hc
        simp only [List.mem_cons, List.mem_singleton, List.not_mem_nil, or_false] at hc
        rcases hc with hc1 | hc1
        · subst hc1; exact ⟨hp2, hr4, hp3⟩
        · subst hc1; exact ⟨hr1, hr2, hr3⟩
      · show [m].length ≤ 2 * N
        simp only [List.length_singleton]; omega
      · intro _
        show 1 ≤ [m].length
        simp
      · show (keys (.mk fresh1 false [m] [root1, r] none)).Sorted (· < ·)
        rw [keys_node]
        simp only [List.flatMap_cons, List.flatMap_nil, List.append_nil]
        rw [hp5]; exact hsorted
      · show Linked (leafList (.mk fresh1 false [m] [root1, r] none)) none
        rw [leafList_node]
        simp only [List.flatMap_cons, List.flatMap_nil, List.append_nil]
        exact hp6.2.2 none hlk
      · show (leafList (.mk fresh1 false [m] [root1, r] none)).head?.map addr = some s.head
        rw [leafList_node]
        simp only [List.flatMap_cons, List.flatMap_nil, List.append_nil]
        rw [hp6.2.1, hhead]
      · show (addrs (.mk fresh1 false [m] [root1, r] none)).Nodup
        rw [addrs_mk]
        simp only [List.flatMap_cons, List.flatMap_nil, List.append_nil]
        rw [List.nodup_cons]
        refine ⟨?_, hnd1⟩
        intro hmem
        have := hlt1 fresh1 hmem
        omega
      · intro x hx
        change x ∈ addrs (.mk fresh1 false [m] [root1, r] none) at hx
        show x < fresh1 + 1
        rw [addrs_mk] at hx
        simp only [List.flatMap_cons, List.flatMap_nil, List.append_nil] at hx
        rcases List.mem_cons.1 hx with hx1 | hx1
        · omega
        · have := hlt1 x hx1
          omega
      · show s.leaves + 1 = (keys (.mk fresh1 false [m] [root1, r] none)).length
        rw [keys_node]
        simp only [List.flatMap_cons, List.flatMap_nil, List.append_nil]
        rw [hp5, hlen1]
    obtain ⟨it, hit, _, _⟩ := find_of_inv _ hinv2 key
    refine ⟨_, it, ?_, hinv2, ?_, hit, rfl, rfl⟩
    · simp only [insert, hit0, ne_eq, not_true_eq_false, if_false, hins, hmin, hit]
    · show keys (.mk fresh1 false [m] [root1, r] none) = _
      rw [keys_node]
      simp only [List.flatMap_cons, List.flatMap_nil, List.append_nil]
      exact hp5


theorem erase_absent {N : Nat} (s : ADS_set K) (hinv : Inv N s) (key : K)
    (hk : key ∉ keys s.root) : s.erase N key = some (s, 0) := by
  obtain ⟨it0, hit0, hend, _⟩ := find_of_inv s hinv key
  have hit0e : it0 = end_ := hend hk
  subst hit0e
  simp only [erase, hit0, if_true]

theorem erase_present {N : Nat} (hN : 1 ≤ N) (s : ADS_set K) (hinv : Inv N s) (key : K)
    (hk : key ∈ keys s.root) :
    ∃ s1, s.erase N key = some (s1, 1) ∧ Inv N s1 ∧
      keys s1.root = (keys s.root).filter (fun x => decide (x ≠ key)) ∧
      s1.leaves + 1 = s.leaves ∧ s1.head = s.head ∧ s1.fresh = s.fresh := by
  obtain ⟨it0, hit0, _, _⟩ := find_of_inv s hinv key
  have hne := (find_ne_end_iff s hinv key it0 hit0).2 hk
  obtain ⟨h, hwf, hsz, hroot, hs, hlk, hhead, hnd, hlt, hlen⟩ := hinv
  obtain ⟨root1, sig, her, hp1, hp2, hp3, hp4, hp5, hp6, hp7, hp8⟩ :=
    erase_spec hN key h s.root hwf hroot hs hk hnd
  obtain ⟨hnd1, hsub1⟩ := nodup_of_count_le _ _ hp7 hnd
  have hsorted : ((keys s.root).filter (fun x => decide (x ≠ key))).Sorted (· < ·) :=
    hs.sublist (List.filter_sublist _)
  have hlen1 := length_filter_ne key (keys s.root) hs hk
  have hleaves : s.leaves - 1 + 1 = s.leaves := by omega
  have hlenk : s.leaves - 1 = (keys root1).length := by
    rw [hp5]; omega
  by_cases hcol : root1.node_size = 0 ∧ root1.leaf = false
  · -- the root has no key left: its only child becomes the root
    obtain ⟨a, lf, d, ch, nx⟩ := root1
    obtain ⟨hc1, hc2⟩ := hcol
    simp only [leaf] at hc2
    subst hc2
    have hd : d = [] := List.eq_nil_of_length_eq_zero hc1
    subst hd
    cases h with
    | zero =>
      have := ((WF_leaf_mk ..).1 hp2).1
      cases this
    | succ h =>
      obtain ⟨_, h2, h3, _⟩ := (WF_node_mk ..).1 hp2
      cases ch with
      | nil => simp at h2
      | cons c0 cs =>
        have hcs : cs = [] := by
          apply List.eq_nil_of_length_eq_zero
          simp only [List.length_cons, List.length_nil] at h2
          omega
        subst hcs
        have hc0 := h3 c0 (by simp)
        have hk0 : keys (.mk a false [] [c0] nx) = keys c0 := by
          rw [keys_node]; simp
        have hl0 : leafList (.mk a false [] [c0] nx) = leafList c0 := by
          rw [leafList_node]; simp
        have hsub0 : (addrs c0).Sublist (addrs (.mk a false [] [c0] nx)) :=
          addrs_child_sublist a false [] [c0] nx c0 (by simp)
        have hinv2 : Inv N (⟨s.leaves - 1, c0, s.head, s.fresh⟩ : ADS_set K) := by
          refine ⟨h, hc0.1, hc0.2.2, fun _ => le_trans hN hc0.2.1, ?_, ?_, ?_,
            hnd1.sublist hsub0, ?_, ?_⟩
          · show (keys c0).Sorted (· < ·)
            rw [← hk0, hp5]; exact hsorted
          · show Linked (leafList c0) none
            rw [← hl0]; exact hp6.2.2 none hlk
          · show (leafList c0).head?.map addr = some s.head
            rw [← hl0, hp6.2.1, hhead]
          · intro x hx
            exact hlt x (hsub1 x (hsub0.subset hx))
          · show s.leaves - 1 = (keys c0).length
            rw [← hk0]; exact hlenk
        refine ⟨_, ?_, hinv2, ?_, hleaves, rfl, rfl⟩
        · simp only [erase, hit0, hne, if_false, her, node_size, data, leaf, children,
            List.length_nil, and_self, if_true]
        · show keys c0 = _
          rw [← hk0, hp5]
  · have hinv2 : Inv N (⟨s.leaves - 1, root1, s.head, s.fresh⟩ : ADS_set K) := by
      refine ⟨h, hp2, le_trans hp3 hsz, ?_, ?_, hp6.2.2 none hlk, ?_, hnd1, ?_, hlenk⟩
      · intro h1
        show 1 ≤ root1.node_size
        obtain ⟨j, rfl⟩ : ∃ j, h = j + 1 := ⟨h - 1, by omega⟩
        have hlf := ((WF_succ ..).1 hp2).1
        by_contra hcon
        exact hcol ⟨by omega, hlf⟩
      · show (keys root1).Sorted (· < ·)
        rw [hp5]; exact hsorted
      · show (leafList root1).head?.map addr = some s.head
        rw [hp6.2.1, hhead]
      · intro x hx
        exact hlt x (hsub1 x hx)
    refine ⟨_, ?_, hinv2, hp5, hleaves, rfl, rfl⟩
    simp only [erase, hit0, hne, if_false, her, hcol]

end ADS_set

end ADS

namespace ADS

open Node

variable {K : Type} [LinearOrder K]

/-! ## Reachable containers -/

theorem insKey_eq_orderedInsert (key : K) (l : List K) (hs : l.Sorted (· < ·)) (hk : key ∉ l) :
    insKey key l = List.orderedInsert (· ≤ ·) key l := by
  induction l with
  | nil => simp [insKey]
  | cons z zs ih =>
    have hne : key ≠ z := fun h => hk (by simp [h])
    have hk2 : key ∉ zs := fun h => hk (by simp [h])
    rw [List.orderedInsert]
    by_cases hle : key ≤ z
    · rw [if_pos hle]
      have hlt : key < z := lt_of_le_of_ne hle hne
      have hall : ∀ x ∈ z :: zs, key < x := by
        intro x hx
        rcases List.mem_cons.1 hx with h | h
        · rw [h]; exact hlt
        · exact lt_trans hlt (List.rel_of_sorted_cons hs x h)
      have h1 : (z :: zs).filter (fun x => decide (x < key)) = [] :=
        List.filter_eq_nil_iff.2 (fun x hx => by simpa using le_of_lt (hall x hx))
      have h2 : (z :: zs).filter (fun x => decide (key < x)) = z :: zs :=
        List.filter_eq_self.2 (fun x hx => by simpa using hall x hx)
      rw [insKey, h1, h2]
      rfl
    · rw [if_neg hle]
      have hlt : z < key := not_le.1 hle
      have := ih hs.of_cons hk2
      rw [← this]
      simp only [insKey]
      rw [List.filter_cons_of_pos (by simpa using hlt),
        List.filter_cons_of_neg (by simpa using le_of_lt hlt)]
      rfl

omit [LinearOrder K] in
theorem Node.linked_last (L : List (Node K)) (e : Option Nat) (h : Linked L e) :
    ∀ l, L.getLast? = some l → l.next = e := by
  induction L with
  | nil => intro l hl; simp at hl
  | cons x xs ih =>
    intro l hl
    cases xs with
    | nil =>
      simp at hl
      subst hl
      exact h
    | cons y ys =>
      rw [List.getLast?_cons_cons] at hl
      exact ih h.2 l hl

namespace ADS_set

theorem inv_of_reachable {N : Nat} (hN : 1 ≤ N) (s : ADS_set K) (hr : Reachable N s) :
    Inv N s := by
  induction hr with
  | new => exact inv_new N
  | insert s s1 k r _ hins ih =>
    by_cases hk : k ∈ keys s.root
    · obtain ⟨it, h1, _⟩ := insert_present s ih k hk
      rw [h1] at hins
      cases hins
      exact ih
    · obtain ⟨s2, it, h1, h2, _⟩ := insert_absent hN s ih k hk
      rw [h1] at hins
      cases hins
      exact h2
  | erase s s1 k r _ her ih =>
    by_cases hk : k ∈ keys s.root
    · obtain ⟨s2, h1, h2, _⟩ := erase_present hN s ih k hk
      rw [h1] at her
      cases her
      exact h2
    · have h1 := erase_absent s ih k hk
      rw [h1] at her
      cases her
      exact ih

theorem toList_size {N : Nat} (hN : 1 ≤ N) (s : ADS_set K) (hinv : Inv N s) (l : List K)
    (hl : s.toList s.size = some l) : l = keys s.root := by
  rw [toList_of_inv hN s hinv s.size (le_refl _)] at hl
  exact (Option.some.inj hl).symm

theorem deref_of_find {N : Nat} (s : ADS_set K) (hinv : Inv N s) (key : K) (it : Iterator)
    (hit : s.find key = some it) (hk : key ∈ keys s.root) : s.deref it = some key := by
  obtain ⟨it2, h1, _, h3⟩ := find_of_inv s hinv key
  rw [hit] at h1
  cases h1
  obtain ⟨l, hl, i, hi, hd⟩ := h3 hk
  obtain ⟨_, _, _, _, _, _, _, hnd, _, _⟩ := hinv
  rw [hi]
  simp only [deref, Node.lookup_leaf s.root hnd l hl]
  exact hd

theorem insertAll_spec {N : Nat} (hN : 1 ≤ N) (L : List K) :
    ∀ (s0 : ADS_set K), Inv N s0 →
      ∃ s, insertAll N L s0 = some s ∧ Inv N s ∧
        ∀ k, k ∈ keys s.root ↔ k ∈ keys s0.root ∨ k ∈ L := by
  induction L with
  | nil =>
    intro s0 h0
    exact ⟨s0, rfl, h0, fun k => by simp⟩
  | cons x xs ih =>
    intro s0 h0
    by_cases hk : x ∈ keys s0.root
    · obtain ⟨it, h1, _⟩ := insert_present s0 h0 x hk
      obtain ⟨s, h2, h3, h4⟩ := ih s0 h0
      refine ⟨s, ?_, h3, ?_⟩
      · simp only [insertAll, h1, h2]
      · intro k
        rw [h4 k, List.mem_cons]
        constructor
        · rintro (h | h)
          · exact Or.inl h
          · exact Or.inr (Or.inr h)
        · rintro (h | h | h)
          · exact Or.inl h
          · rw [h]; exact Or.inl hk
          · exact Or.inr h
    · obtain ⟨s1, it, h1, h2, h3, _⟩ := insert_absent hN s0 h0 x hk
      obtain ⟨s, h4, h5, h6⟩ := ih s1 h2
      refine ⟨s, ?_, h5, ?_⟩
      · simp only [insertAll, h1, h4]
      · intro k
        rw [h6 k, h3, mem_insKey, List.mem_cons]
        constructor
        · rintro ((h | ⟨h, _⟩) | h)
          · exact Or.inr (Or.inl h)
          · exact Or.inl h
          · exact Or.inr (Or.inr h)
        · rintro (h | h | h)
          · by_cases hkx : k = x
            · exact Or.inl (Or.inl hkx)
            · exact Or.inl (Or.inr ⟨h, hkx⟩)
          · exact Or.inl (Or.inl h)
          · exact Or.inr h

theorem reachable_insertAll {N : Nat} (L : List K) :
    ∀ (s0 s : ADS_set K), Reachable N s0 → insertAll N L s0 = some s → Reachable N s := by
  induction L with
  | nil =>
    intro s0 s h0 h
    simp only [insertAll, Option.some.injEq] at h
    subst h
    exact h0
  | cons x xs ih =>
    intro s0 s h0 h
    rw [insertAll] at h
    cases hins : s0.insert N x with
    | none => rw [hins] at h; cases h
    | some r =>
      obtain ⟨s1, r1⟩ := r
      rw [hins] at h
      exact ih s1 s (Reachable.insert s0 s1 x r1 h0 hins) h

theorem reachable_ofList {N : Nat} (L : List K) (s : ADS_set K) (h : ofList N L = some s) :
    Reachable N s :=
  reachable_insertAll L new s Reachable.new h

theorem sample_reachable : Reachable 1 sample :=
  reachable_ofList [5, 3, 8] sample rfl

theorem runOps_spec {N : Nat} (hN : 1 ≤ N) (ops : List (Op K)) :
    ∀ (s0 : ADS_set K), Inv N s0 →
      ∃ s i e, runOps N ops s0 = some (s, i, e) ∧ Inv N s ∧ s.leaves + e = s0.leaves + i := by
  induction ops with
  | nil =>
    intro s0 h0
    exact ⟨s0, 0, 0, rfl, h0, rfl⟩
  | cons op ops ih =>
    intro s0 h0
    cases op with
    | insert k =>
      by_cases hk : k ∈ keys s0.root
      · obtain ⟨it, h1, _⟩ := insert_present s0 h0 k hk
        obtain ⟨s, i, e, h2, h3, h4⟩ := ih s0 h0
        refine ⟨s, i, e, ?_, h3, h4⟩
        simp [runOps, h1, h2]
      · obtain ⟨s1, it, h1, h2, _, _, h5, _⟩ := insert_absent hN s0 h0 k hk
        obtain ⟨s, i, e, h6, h7, h8⟩ := ih s1 h2
        refine ⟨s, i + 1, e, ?_, h7, by omega⟩
        simp [runOps, h1, h6]
    | erase k =>
      by_cases hk : k ∈ keys s0.root
      · obtain ⟨s1, h1, h2, _, h4, _⟩ := erase_present hN s0 h0 k hk
        obtain ⟨s, i, e, h6, h7, h8⟩ := ih s1 h2
        refine ⟨s, i, e + 1, ?_, h7, by omega⟩
        simp [runOps, h1, h6]
      · have h1 := erase_absent s0 h0 k hk
        obtain ⟨s, i, e, h2, h3, h4⟩ := ih s0 h0
        refine ⟨s, i, e, ?_, h3, h4⟩
        simp [runOps, h1, h2]

theorem sorted_ext (l1 l2 : List K) (h1 : l1.Sorted (· < ·)) (h2 : l2.Sorted (· < ·))
    (h : ∀ k, k ∈ l1 ↔ k ∈ l2) : l1 = l2 :=
  List.eq_of_perm_of_sorted ((List.perm_ext_iff_of_nodup h1.nodup h2.nodup).2 h) h1 h2

end ADS_set

/-! ## All nodes of a well-shaped tree -/

omit [LinearOrder K] in
theorem Node.mem_nodes (r t : Node K) (ht : t ∈ nodes r) :
    t = r ∨ ∃ c ∈ r.children, t ∈ nodes c := by
  obtain ⟨a, lf, d, ch, nx⟩ := r
  rw [nodes_mk] at ht
  rcases List.mem_cons.1 ht with h1 | h1
  · exact Or.inl h1
  · rw [List.mem_flatMap] at h1
    exact Or.inr h1

omit [LinearOrder K] in
theorem Node.nodes_bounds {N : Nat} :
    ∀ (h : Nat) (t : Node K), WF N h t → N ≤ t.node_size → t.node_size ≤ 2 * N →
      ∀ u ∈ nodes t, N ≤ u.node_size ∧ u.node_size ≤ 2 * N := by
  intro h
  induction h with
  | zero =>
    intro t hwf h1 h2 u hu
    obtain ⟨a, lf, d, ch, nx⟩ := t
    obtain ⟨_, h4⟩ := (WF_leaf_mk ..).1 hwf
    subst h4
    rw [nodes_mk] at hu
    simp only [List.flatMap_nil, List.mem_singleton] at hu
    subst hu
    exact ⟨h1, h2⟩
  | succ h ih =>
    intro t hwf h1 h2 u hu
    obtain ⟨a, lf, d, ch, nx⟩ := t
    obtain ⟨_, _, h3, _⟩ := (WF_node_mk ..).1 hwf
    rw [nodes_mk] at hu
    rcases List.mem_cons.1 hu with hu1 | hu1
    · subst hu1
      exact ⟨h1, h2⟩
    · rw [List.mem_flatMap] at hu1
      obtain ⟨c, hc, huc⟩ := hu1
      exact ih c (h3 c hc).1 (h3 c hc).2.1 (h3 c hc).2.2 u huc

theorem Node.nodes_wf {N : Nat} :
    ∀ (h : Nat) (t : Node K), WF N h t → (keys t).Sorted (· < ·) →
      ∀ u ∈ nodes t, ∃ h1, WF N h1 u ∧ (keys u).Sorted (· < ·) := by
  intro h
  induction h with
  | zero =>
    intro t hwf hs u hu
    obtain ⟨a, lf, d, ch, nx⟩ := t
    obtain ⟨_, h4⟩ := (WF_leaf_mk ..).1 hwf
    subst h4
    rw [nodes_mk] at hu
    simp only [List.flatMap_nil, List.mem_singleton] at hu
    subst hu
    exact ⟨0, hwf, hs⟩
  | succ h ih =>
    intro t hwf hs u hu
    obtain ⟨a, lf, d, ch, nx⟩ := t
    obtain ⟨h1, _, h3, _⟩ := (WF_node_mk ..).1 hwf
    subst h1
    rw [nodes_mk] at hu
    rcases List.mem_cons.1 hu with hu1 | hu1
    · subst hu1
      exact ⟨h + 1, hwf, hs⟩
    · rw [List.mem_flatMap] at hu1
      obtain ⟨c, hc, huc⟩ := hu1
      obtain ⟨i, hi⟩ := List.mem_iff_getElem?.1 hc
      have hcs : (keys c).Sorted (· < ·) := by
        rw [keys_split a d ch nx i c hi] at hs
        exact (List.pairwise_append.1 (List.pairwise_append.1 hs).2.1).1
      exact ih c (h3 c hc).1 hcs u huc

omit [LinearOrder K] in
theorem Node.keys_lt_of_lt {R : K → K → Prop} (ch : List (Node K)) (i j : Nat) (ci cj : Node K)
    (hs : (ch.flatMap keys).Pairwise R) (hij : i < j) (hi : ch[i]? = some ci)
    (hj : ch[j]? = some cj) : ∀ x ∈ keys ci, ∀ y ∈ keys cj, R x y := by
  intro x hx y hy
  rw [flatMap_split keys ch j cj hj] at hs
  have hs2 := (List.pairwise_append.1 hs).2.2
  apply hs2 x _ y (List.mem_append_left _ hy)
  rw [List.mem_flatMap]
  refine ⟨ci, ?_, hx⟩
  rw [List.mem_iff_getElem?]
  refine ⟨i, ?_⟩
  rw [List.getElem?_take, if_pos hij]
  exact hi

theorem Node.separators {N h a : Nat} {d : List K} {ch : List (Node K)} {nx : Option Nat}
    (hwf : WF N (h + 1) (.mk a false d ch nx))
    (hs : (keys (.mk a false d ch nx)).Sorted (· < ·)) :
    d.Sorted (· < ·) ∧
    ∀ i x, d[i]? = some x → ∃ cl cr, ch[i]? = some cl ∧ ch[i + 1]? = some cr ∧
      x ∈ keys cr ∧ (∀ y ∈ keys cr, x ≤ y) ∧ (∀ y ∈ keys cl, y < x) := by
  obtain ⟨_, h2, h3, h4⟩ := (WF_node_mk ..).1 hwf
  have hs1 : (ch.flatMap keys).Pairwise (· < ·) := by
    rw [keys_node] at hs; exact hs
  have hpart : ∀ i x, d[i]? = some x → ∃ cl cr, ch[i]? = some cl ∧ ch[i + 1]? = some cr ∧
      x ∈ keys cr ∧ (∀ y ∈ keys cr, x ≤ y) ∧ (∀ y ∈ keys cl, y < x) := by
    intro i x hx
    have hi := lt_of_getElem?_some hx
    obtain ⟨cr, hcr, hkr⟩ := WF.headKey_child hwf i x hx
    have hil : i < ch.length := by omega
    have hcl : ch[i]? = some ch[i] := List.getElem?_eq_getElem hil
    have hcrs : (keys cr).Sorted (· < ·) := by
      rw [keys_split a d ch nx (i + 1) cr hcr] at hs
      exact (List.pairwise_append.1 (List.pairwise_append.1 hs).2.1).1
    refine ⟨ch[i], cr, hcl, hcr, mem_of_head? hkr, sorted_head_le hcrs hkr, ?_⟩
    intro y hy
    exact Node.keys_lt_of_lt ch i (i + 1) ch[i] cr hs1 (by omega) hcl hcr y hy x
      (mem_of_head? hkr)
  refine ⟨?_, hpart⟩
  rw [List.Sorted, List.pairwise_iff_getElem]
  intro i j hi hj hij
  obtain ⟨_, cri, _, hcri, hxi, _, _⟩ := hpart i d[i] (List.getElem?_eq_getElem hi)
  obtain ⟨_, crj, _, hcrj, hxj, _, _⟩ := hpart j d[j] (List.getElem?_eq_getElem hj)
  exact Node.keys_lt_of_lt ch (i + 1) (j + 1) cri crj hs1 (by omega) hcri hcrj _ hxi _ hxj

end ADS

namespace ADS

open Node ADS_set

variable {K : Type} [LinearOrder K]

/-! ## The properties of the container -/

/-- C1: for every `N ≥ 1` and every list `L` of keys, inserting the elements of
`L` one by one into the empty container (which is what the constructor from a
sequence does) succeeds, and iterating the result from `begin()` to `end()`
yields a strictly ascending list whose members are exactly the keys occurring
in `L`. -/
theorem C1_iteration_sorted_distinct (N : Nat) (hN : 1 ≤ N) (L : List K) :
    ∃ s l, ofList N L = some s ∧
      (∀ fuel, s.size ≤ fuel → s.toList fuel = some l) ∧
      l.Sorted (· < ·) ∧ ∀ k, k ∈ l ↔ k ∈ L := by
  obtain ⟨s, h1, h2, h3⟩ := insertAll_spec hN L new (inv_new N)
  refine ⟨s, keys s.root, h1, fun fuel hf => toList_of_inv hN s h2 fuel hf, ?_, ?_⟩
  · obtain ⟨_, _, _, _, hs, _⟩ := h2
    exact hs
  · intro k
    rw [h3 k]
    simp [new, keys_leaf]

theorem C1_iteration_sorted_distinct_witness :
    1 ≤ 2 ∧ ∃ s l, ofList 2 [5, 3, 8, 3, 1] = some s ∧
      (∀ fuel, s.size ≤ fuel → s.toList fuel = some l) ∧
      l.Sorted (· < ·) ∧ ∀ k : Nat, k ∈ l ↔ k ∈ [5, 3, 8, 3, 1] :=
  ⟨by decide, C1_iteration_sorted_distinct 2 (by decide) [5, 3, 8, 3, 1]⟩

/-- C2: in a container reachable from the empty one by inserts and erases
(`N ≥ 1`), `find(k)` returns an iterator different from `end()` that
dereferences to `k` when `k` is one of the keys yielded by iteration, and
`end()` otherwise, in particular when the container is empty; `count(k)` is 1
in the first case and 0 in the second. -/
theorem C2_find_and_count (N : Nat) (hN : 1 ≤ N) (s : ADS_set K) (hr : Reachable N s) (k : K) :
    ∃ l it, (∀ fuel, s.size ≤ fuel → s.toList fuel = some l) ∧ s.find k = some it ∧
      (k ∈ l → it ≠ end_ ∧ s.deref it = some k ∧ s.count k = some 1) ∧
      (k ∉ l → it = end_ ∧ s.count k = some 0) ∧
      (s.empty = true → it = end_) := by
  have hinv := inv_of_reachable hN s hr
  obtain ⟨it, hit, hno, _⟩ := find_of_inv s hinv k
  have hiff := find_ne_end_iff s hinv k it hit
  refine ⟨keys s.root, it, fun fuel hf => toList_of_inv hN s hinv fuel hf, hit, ?_, ?_, ?_⟩
  · intro hk
    have hne := hiff.2 hk
    refine ⟨hne, deref_of_find s hinv k it hit hk, ?_⟩
    simp only [count, hit, hne, if_false]
  · intro hk
    have he := hno hk
    refine ⟨he, ?_⟩
    simp only [count, hit, he, if_true]
  · intro he
    apply hno
    obtain ⟨_, _, _, _, _, _, _, _, _, hlen⟩ := hinv
    have h0 : s.leaves = 0 := by simpa [empty] using he
    have : keys s.root = [] := List.eq_nil_of_length_eq_zero (by omega)
    rw [this]
    simp

theorem C2_find_and_count_witness :
    1 ≤ 1 ∧ ∃ l it, (∀ fuel, sample.size ≤ fuel → sample.toList fuel = some l) ∧
      sample.find 8 = some it ∧
      (8 ∈ l → it ≠ end_ ∧ sample.deref it = some 8 ∧ sample.count 8 = some 1) ∧
      (8 ∉ l → it = end_ ∧ sample.count 8 = some 0) ∧
      (sample.empty = true → it = end_) :=
  ⟨by decide, C2_find_and_count 1 (by decide) sample sample_reachable 8⟩

/-- C3: in a reachable container (`N ≥ 1`) whose iteration yields `l`, inserting
a key `k` that is not in `l` returns `(it, true)` where `it` dereferences to
`k` and is the result of a `find(k)` made right after; the iteration then
yields `l` with `k` put at its sorted place, so that its members are `k` and
the members of `l`. -/
theorem C3_insert_absent_key (N : Nat) (hN : 1 ≤ N) (s : ADS_set K) (hr : Reachable N s)
    (k : K) (l : List K) (hl : s.toList s.size = some l) (hk : k ∉ l) :
    ∃ s1 it, s.insert N k = some (s1, it, true) ∧ s1.deref it = some k ∧
      s1.find k = some it ∧
      (∀ fuel, s1.size ≤ fuel → s1.toList fuel = some (List.orderedInsert (· ≤ ·) k l)) ∧
      (∀ x, x ∈ List.orderedInsert (· ≤ ·) k l ↔ x = k ∨ x ∈ l) := by
  have hinv := inv_of_reachable hN s hr
  have hlk := toList_size hN s hinv l hl
  subst hlk
  obtain ⟨_, _, _, _, hs, _⟩ := id hinv
  obtain ⟨s1, it, h1, h2, h3, h4, _, _⟩ := insert_absent hN s hinv k hk
  have hmem : k ∈ keys s1.root := by
    rw [h3, mem_insKey]; exact Or.inl rfl
  refine ⟨s1, it, h1, deref_of_find s1 h2 k it h4 hmem, h4, ?_, ?_⟩
  · intro fuel hf
    rw [toList_of_inv hN s1 h2 fuel hf, h3, insKey_eq_orderedInsert k _ hs hk]
  · intro x
    rw [List.mem_orderedInsert]

theorem C3_insert_absent_key_witness :
    1 ≤ 1 ∧ sample.toList sample.size = some [3, 5, 8] ∧ 4 ∉ [3, 5, 8] ∧
      ∃ s1 it, sample.insert 1 4 = some (s1, it, true) ∧ s1.deref it = some 4 ∧
        s1.find 4 = some it ∧
        (∀ fuel, s1.size ≤ fuel →
          s1.toList fuel = some (List.orderedInsert (· ≤ ·) 4 [3, 5, 8])) ∧
        (∀ x, x ∈ List.orderedInsert (· ≤ ·) 4 [3, 5, 8] ↔ x = 4 ∨ x ∈ [3, 5, 8]) :=
  ⟨by decide, by decide, by decide,
    C3_insert_absent_key 1 (by decide) sample sample_reachable 4 [3, 5, 8] (by decide)
      (by decide)⟩

/-- C4: in a reachable container (`N ≥ 1`) a first `insert(k)` succeeds, and a
second `insert(k)` made right after it returns the flag `false` with an
iterator that dereferences to `k` and leaves the container as it was: the
same tree, element count, head and allocation counter. -/
theorem C4_insert_twice (N : Nat) (hN : 1 ≤ N) (s : ADS_set K) (hr : Reachable N s) (k : K) :
    ∃ s1 it1 b1, s.insert N k = some (s1, it1, b1) ∧
      ∃ it2, s1.insert N k = some (s1, it2, false) ∧ s1.deref it2 = some k := by
  have hinv := inv_of_reachable hN s hr
  by_cases hk : k ∈ keys s.root
  · obtain ⟨it, h1, h2⟩ := insert_present s hinv k hk
    exact ⟨s, it, false, h1, it, h1, deref_of_find s hinv k it h2 hk⟩
  · obtain ⟨s1, it, h1, h2, h3, h4, _, _⟩ := insert_absent hN s hinv k hk
    have hmem : k ∈ keys s1.root := by
      rw [h3, mem_insKey]; exact Or.inl rfl
    obtain ⟨it2, h5, h6⟩ := insert_present s1 h2 k hmem
    exact ⟨s1, it, true, h1, it2, h5, deref_of_find s1 h2 k it2 h6 hmem⟩

theorem C4_insert_twice_witness :
    1 ≤ 1 ∧ ∃ s1 it1 b1, sample.insert 1 4 = some (s1, it1, b1) ∧
      ∃ it2, s1.insert 1 4 = some (s1, it2, false) ∧ s1.deref it2 = some 4 :=
  ⟨by decide, C4_insert_twice 1 (by decide) sample sample_reachable 4⟩

/-- C5: for `N ≥ 1`, in a reachable container whose iteration yields `l`,
erasing a key `k` of `l` returns 1; afterwards `find(k)` is `end()`, `size()`
is one less and the iteration yields `l` without `k`, the other keys in their
order. The container built from 5, 3, 8, 1 has, after erasing 3, size 3 and
the iteration 1, 5, 8, and `find(3)` is `end()`. -/
theorem C5_erase_present_key (N : Nat) (hN : 1 ≤ N) :
    (∀ (s : ADS_set K), Reachable N s → ∀ (k : K) (l : List K),
      s.toList s.size = some l → k ∈ l →
      ∃ s1, s.erase N k = some (s1, 1) ∧ s1.find k = some end_ ∧ s1.size + 1 = s.size ∧
        ∀ fuel, s1.size ≤ fuel →
          s1.toList fuel = some (l.filter (fun x => decide (x ≠ k)))) ∧
    (∃ s s1 : ADS_set Nat, ofList N [5, 3, 8, 1] = some s ∧ s.erase N 3 = some (s1, 1) ∧
      s1.find 3 = some end_ ∧ s1.size = 3 ∧
      ∀ fuel, 3 ≤ fuel → s1.toList fuel = some [1, 5, 8]) := by
  have hgen : ∀ (K1 : Type) [LinearOrder K1] (s : ADS_set K1), Inv N s → ∀ (k : K1),
      k ∈ keys s.root →
      ∃ s1, s.erase N k = some (s1, 1) ∧ s1.find k = some end_ ∧ s1.size + 1 = s.size ∧
        ∀ fuel, s1.size ≤ fuel →
          s1.toList fuel = some ((keys s.root).filter (fun x => decide (x ≠ k))) := by
    intro K1 _ s hinv k hk
    obtain ⟨s1, h1, h2, h3, h4, _⟩ := erase_present hN s hinv k hk
    obtain ⟨it, hit, hno, _⟩ := find_of_inv s1 h2 k
    have hnk : k ∉ keys s1.root := by
      rw [h3]
      simp
    refine ⟨s1, h1, ?_, h4, ?_⟩
    · rw [hit, hno hnk]
    · intro fuel hf
      rw [toList_of_inv hN s1 h2 fuel hf, h3]
  constructor
  · intro s hr k l hl hk
    have hinv := inv_of_reachable hN s hr
    have hlk := toList_size hN s hinv l hl
    subst hlk
    exact hgen K s hinv k hk
  · obtain ⟨s, h1, h2, h3⟩ := insertAll_spec hN [5, 3, 8, 1] (new : ADS_set Nat) (inv_new N)
    have hkeys : keys s.root = [1, 3, 5, 8] := by
      obtain ⟨_, _, _, _, hs, _⟩ := id h2
      apply sorted_ext _ _ hs (by decide)
      intro k
      have hnew : keys (new : ADS_set Nat).root = [] := by simp [new, keys_leaf]
      rw [h3 k, hnew]
      simp only [List.not_mem_nil, false_or, List.mem_cons, or_false]
      omega
    obtain ⟨s1, h4, h5, h6, h7⟩ := hgen Nat s h2 3 (by rw [hkeys]; decide)
    have hsz : s.size = 4 := by
      obtain ⟨_, _, _, _, _, _, _, _, _, hlen⟩ := id h2
      show s.leaves = 4
      rw [hlen, hkeys]
      rfl
    have hsz1 : s1.size = 3 := by omega
    refine ⟨s, s1, h1, h4, h5, hsz1, ?_⟩
    intro fuel hf
    rw [h7 fuel (by omega), hkeys]
    rfl

theorem C5_erase_present_key_witness :
    1 ≤ 1 ∧ sample.toList sample.size = some [3, 5, 8] ∧ 5 ∈ [3, 5, 8] ∧
      ∃ s1, sample.erase 1 5 = some (s1, 1) ∧ s1.find 5 = some end_ ∧
        s1.size + 1 = sample.size ∧
        ∀ fuel, s1.size ≤ fuel →
          s1.toList fuel = some ([3, 5, 8].filter (fun x => decide (x ≠ 5))) :=
  ⟨by decide, by decide, by decide,
    (C5_erase_present_key 1 (by decide)).1 sample sample_reachable 5 [3, 5, 8] (by decide)
      (by decide)⟩

/-- C6: in a reachable container (`N ≥ 1`) whose iteration yields `l`, erasing a
key that is not in `l` returns 0 and leaves the container as it was (tree,
head, element count); the test that guards the call of `Node::erase` lets
only keys of `l` through. -/
theorem C6_erase_absent_key (N : Nat) (hN : 1 ≤ N) (s : ADS_set K) (hr : Reachable N s)
    (k : K) (l : List K) (hl : s.toList s.size = some l) (hk : k ∉ l) :
    s.erase N k = some (s, 0) ∧
      ∀ k2 it, s.find k2 = some it → it ≠ end_ → k2 ∈ l := by
  have hinv := inv_of_reachable hN s hr
  have hlk := toList_size hN s hinv l hl
  subst hlk
  refine ⟨erase_absent s hinv k hk, ?_⟩
  intro k2 it hit hne
  exact (find_ne_end_iff s hinv k2 it hit).1 hne

theorem C6_erase_absent_key_witness :
    1 ≤ 1 ∧ sample.toList sample.size = some [3, 5, 8] ∧ 4 ∉ [3, 5, 8] ∧
      sample.erase 1 4 = some (sample, 0) ∧
      ∀ k2 it, sample.find k2 = some it → it ≠ end_ → k2 ∈ [3, 5, 8] :=
  ⟨by decide, by decide, by decide,
    C6_erase_absent_key 1 (by decide) sample sample_reachable 4 [3, 5, 8] (by decide)
      (by decide)⟩

/-- C7, as stated, fails: after `insert(1)`, `erase(1)`, `insert(1)` on the empty
container `size()` is 1, while one distinct key was passed to `insert` and one
`erase` call returned 1. -/
theorem C7_distinct_keys_counterexample :
    ∃ s i e, runOps 2 [Op.insert 1, Op.erase 1, Op.insert 1] (new : ADS_set Nat) =
        some (s, i, e) ∧
      s.size ≠ (insertKeys [Op.insert 1, Op.erase 1, Op.insert (1 : Nat)]).dedup.length - e :=
  ⟨⟨1, .mk 0 true [1] [] none, 0, 1⟩, 2, 1, rfl, by decide⟩

/-- Running public calls from a container that stores the keys `acc`: the run
goes through, the container reached stores exactly the keys of `liveFrom`, the
`insert` calls that returned `true` are those of a key not stored at the time
and the `erase` calls that returned 1 are those of a stored key. -/
theorem runOps_live {N : Nat} (hN : 1 ≤ N) (ops : List (Op K)) :
    ∀ (s0 : ADS_set K) (acc : List K), Inv N s0 → acc.Nodup →
      (∀ k, k ∈ keys s0.root ↔ k ∈ acc) →
      ∃ s i e, runOps N ops s0 = some (s, i, e) ∧ Inv N s ∧
        (∀ k, k ∈ keys s.root ↔ k ∈ liveFrom ops acc) ∧ (liveFrom ops acc).Nodup ∧
        i = freshInserts ops acc ∧ e = hitErases ops acc ∧
        s.leaves + e = s0.leaves + i := by
  induction ops with
  | nil =>
    intro s0 acc h0 hnd hmem
    exact ⟨s0, 0, 0, rfl, h0, hmem, hnd, rfl, rfl, rfl⟩
  | cons op ops ih =>
    intro s0 acc h0 hnd hmem
    cases op with
    | insert k =>
      by_cases hk : k ∈ keys s0.root
      · have hka : k ∈ acc := (hmem k).1 hk
        obtain ⟨it, h1, _⟩ := insert_present s0 h0 k hk
        obtain ⟨s, i, e, h2, h3, h4, h5, h6, h7, h8⟩ := ih s0 acc h0 hnd hmem
        refine ⟨s, i, e, ?_, h3, ?_, ?_, ?_, ?_, h8⟩
        · simp [runOps, h1, h2]
        · simp only [liveFrom, if_pos hka]
          exact h4
        · simp only [liveFrom, if_pos hka]
          exact h5
        · simp only [freshInserts, if_pos hka, Nat.zero_add]
          exact h6
        · simp only [hitErases, if_pos hka]
          exact h7
      · have hka : k ∉ acc := fun hc => hk ((hmem k).2 hc)
        obtain ⟨s1, it, h1, h2, hkeys, _, h5, _⟩ := insert_absent hN s0 h0 k hk
        have hmem1 : ∀ x, x ∈ keys s1.root ↔ x ∈ k :: acc := by
          intro x
          rw [hkeys, mem_insKey, List.mem_cons, hmem x]
          constructor
          · rintro (h | h)
            · exact Or.inl h
            · exact Or.inr h.1
          · rintro (h | h)
            · exact Or.inl h
            · by_cases hx : x = k
              · exact Or.inl hx
              · exact Or.inr ⟨h, hx⟩
        obtain ⟨s, i, e, h6, h7, h8, h9, h10, h11, h12⟩ :=
          ih s1 (k :: acc) h2 (List.nodup_cons.2 ⟨hka, hnd⟩) hmem1
        refine ⟨s, i + 1, e, ?_, h7, ?_, ?_, ?_, ?_, by omega⟩
        · simp [runOps, h1, h6]
        · simp only [liveFrom, if_neg hka]
          exact h8
        · simp only [liveFrom, if_neg hka]
          exact h9
        · simp only [freshInserts, if_neg hka]
          omega
        · simp only [hitErases, if_neg hka]
          exact h11
    | erase k =>
      have hndf : (acc.filter (fun x => decide (x ≠ k))).Nodup := hnd.filter _
      by_cases hk : k ∈ keys s0.root
      · have hka : k ∈ acc := (hmem k).1 hk
        obtain ⟨s1, h1, h2, hkeys, h4, _⟩ := erase_present hN s0 h0 k hk
        have hmem1 : ∀ x, x ∈ keys s1.root ↔ x ∈ acc.filter (fun x => decide (x ≠ k)) := by
          intro x
          rw [hkeys, List.mem_filter, List.mem_filter, hmem x]
        obtain ⟨s, i, e, h6, h7, h8, h9, h10, h11, h12⟩ := ih s1 _ h2 hndf hmem1
        refine ⟨s, i, e + 1, ?_, h7, ?_, ?_, ?_, ?_, by omega⟩
        · simp [runOps, h1, h6]
        · simp only [liveFrom]
          exact h8
        · simp only [liveFrom]
          exact h9
        · simp only [freshInserts]
          exact h10
        · simp only [hitErases, if_pos hka]
          omega
      · have hka : k ∉ acc := fun hc => hk ((hmem k).2 hc)
        have h1 := erase_absent s0 h0 k hk
        have hmem1 : ∀ x, x ∈ keys s0.root ↔ x ∈ acc.filter (fun x => decide (x ≠ k)) := by
          intro x
          rw [List.mem_filter, hmem x]
          constructor
          · intro h
            refine ⟨h, ?_⟩
            simp only [ne_eq, decide_eq_true_eq]
            intro hx
            exact hka (hx ▸ h)
          · intro h
            exact h.1
        obtain ⟨s, i, e, h2, h3, h4, h5, h6, h7, h8⟩ := ih s0 _ h0 hndf hmem1
        refine ⟨s, i, e, ?_, h3, ?_, ?_, ?_, ?_, h8⟩
        · simp [runOps, h1, h2]
        · simp only [liveFrom]
          exact h4
        · simp only [liveFrom]
          exact h5
        · simp only [freshInserts]
          exact h6
        · simp only [hitErases, if_neg hka, Nat.zero_add]
          exact h7

/-- C7, amended: every finite sequence of `insert` and `erase` calls on the
empty container (`N ≥ 1`) runs through, and afterwards `size()` equals the
number of keys stored: the distinct keys passed to `insert` and not erased
since they were last inserted (`liveKeys`), which are exactly the keys the
container iterates. Equivalently, `size()` equals the number of `insert` calls
of a key not stored at the time (every distinct key counted once, and once more
for each insert after it has been erased) minus the number of `erase` calls
that returned 1; the former are the `insert` calls that returned `true`, the
latter the `erase` calls of a stored key. -/
theorem C7_size_counts_stored_keys (N : Nat) (hN : 1 ≤ N) (ops : List (Op K)) :
    ∃ s i e l, runOps N ops (new : ADS_set K) = some (s, i, e) ∧
      s.toList s.size = some l ∧ (∀ k, k ∈ l ↔ k ∈ liveKeys ops) ∧
      (liveKeys ops).Nodup ∧ l.Nodup ∧ s.size = l.length ∧
      s.size = (liveKeys ops).length ∧
      i = freshInserts ops [] ∧ e = hitErases ops [] ∧
      e ≤ freshInserts ops [] ∧ s.size = freshInserts ops [] - e := by
  have hnew : keys (new : ADS_set K).root = [] := by simp [new, keys_leaf]
  obtain ⟨s, i, e, h1, hinv, h3, h4, h5, h6, h7⟩ :=
    runOps_live hN ops new [] (inv_new N) List.nodup_nil (fun k => by rw [hnew])
  have h0 : (new : ADS_set K).leaves = 0 := rfl
  have hsz : s.size = s.leaves := rfl
  have hl := toList_of_inv hN s hinv s.size (le_refl _)
  obtain ⟨_, _, _, _, hs, _, _, _, _, hlen⟩ := hinv
  have hperm : (keys s.root).Perm (liveKeys ops) :=
    (List.perm_ext_iff_of_nodup hs.nodup h4).2 h3
  refine ⟨s, i, e, keys s.root, h1, hl, h3, h4, hs.nodup, by rw [hsz, hlen], ?_, h5, h6,
    by omega, by omega⟩
  rw [hsz, hlen]
  exact hperm.length_eq

theorem C7_size_counts_stored_keys_witness :
    ∃ s i e l, runOps 2 [Op.insert 1, Op.erase 1, Op.insert 1, Op.insert 1, Op.insert 4]
        (new : ADS_set Nat) = some (s, i, e) ∧
      s.toList s.size = some l ∧
      (∀ k, k ∈ l ↔
        k ∈ liveKeys [Op.insert 1, Op.erase 1, Op.insert 1, Op.insert 1, Op.insert 4]) ∧
      (liveKeys [Op.insert 1, Op.erase 1, Op.insert 1, Op.insert 1, Op.insert (4 : Nat)]).Nodup ∧
      l.Nodup ∧ s.size = l.length ∧
      s.size =
        (liveKeys [Op.insert 1, Op.erase 1, Op.insert 1, Op.insert 1, Op.insert (4 : Nat)]).length ∧
      i = freshInserts [Op.insert 1, Op.erase 1, Op.insert 1, Op.insert 1, Op.insert (4 : Nat)]
        [] ∧
      e = hitErases [Op.insert 1, Op.erase 1, Op.insert 1, Op.insert 1, Op.insert (4 : Nat)] [] ∧
      e ≤ freshInserts [Op.insert 1, Op.erase 1, Op.insert 1, Op.insert 1, Op.insert (4 : Nat)]
        [] ∧
      s.size =
        freshInserts [Op.insert 1, Op.erase 1, Op.insert 1, Op.insert 1, Op.insert (4 : Nat)] []
          - e :=
  C7_size_counts_stored_keys 2 (by decide)
    [Op.insert 1, Op.erase 1, Op.insert 1, Op.insert 1, Op.insert 4]

/-- C8: in a container reachable from the empty one (`N ≥ 1`) no node holds more
than `2 * N` keys, in particular none holds `2 * N + 1`, and every node other
than the root holds at least `N` keys. -/
theorem C8_occupancy (N : Nat) (hN : 1 ≤ N) (s : ADS_set K) (hr : Reachable N s) :
    (∀ t ∈ nodes s.root, t.node_size ≤ 2 * N ∧ t.node_size ≠ 2 * N + 1) ∧
      (∀ c ∈ s.root.children, ∀ t ∈ nodes c, N ≤ t.node_size) := by
  obtain ⟨h, hwf, hsz, _⟩ := inv_of_reachable hN s hr
  have hch : ∀ c ∈ s.root.children, ∀ t ∈ nodes c, N ≤ t.node_size ∧ t.node_size ≤ 2 * N := by
    intro c hc t ht
    cases h with
    | zero =>
      have := ((WF_zero ..).1 hwf).2
      rw [this] at hc
      simp at hc
    | succ h =>
      have h3 := ((WF_succ ..).1 hwf).2.2.1 c hc
      exact Node.nodes_bounds h c h3.1 h3.2.1 h3.2.2 t ht
  constructor
  · intro t ht
    have hle : t.node_size ≤ 2 * N := by
      rcases Node.mem_nodes s.root t ht with h1 | ⟨c, hc, htc⟩
      · rw [h1]; exact hsz
      · exact (hch c hc t htc).2
    exact ⟨hle, by omega⟩
  · intro c hc t ht
    exact (hch c hc t ht).1

theorem C8_occupancy_witness :
    1 ≤ 1 ∧ (∀ t ∈ nodes sample.root, t.node_size ≤ 2 * 1 ∧ t.node_size ≠ 2 * 1 + 1) ∧
      (∀ c ∈ sample.root.children, ∀ t ∈ nodes c, 1 ≤ t.node_size) :=
  ⟨by decide, C8_occupancy 1 (by decide) sample sample_reachable⟩

/-- C9: in a container reachable from the empty one (`N ≥ 1`) `head` is the
address of the leftmost leaf; following `next` from `head` meets the leaves
of the tree from left to right, each once, and stops at a leaf whose `next`
is null; the keys met on the way are strictly ascending and there are
`size()` of them. -/
theorem C9_leaf_chain (N : Nat) (hN : 1 ≤ N) (s : ADS_set K) (hr : Reachable N s) :
    (leafList s.root).head?.map addr = some s.head ∧
      (∀ fuel, (leafList s.root).length ≤ fuel →
        s.walk fuel (some s.head) = some (leafList s.root)) ∧
      ((leafList s.root).map addr).Nodup ∧
      (∀ l, (leafList s.root).getLast? = some l → l.next = none) ∧
      ((leafList s.root).flatMap data).Sorted (· < ·) ∧
      ((leafList s.root).flatMap data).length = s.size := by
  obtain ⟨h, hwf, _, _, hs, hlk, hhead, hnd, _, hlen⟩ := inv_of_reachable hN s hr
  refine ⟨hhead, ?_, ?_, Node.linked_last _ none hlk, hs, hlen.symm⟩
  · intro fuel hf
    cases hLL : leafList s.root with
    | nil => exact absurd hLL (WF.leafList_ne_nil h s.root hwf)
    | cons l S =>
      rw [hLL] at hhead hlk hf
      simp only [List.head?_cons, Option.map_some', Option.some.injEq] at hhead
      rw [← hhead]
      exact walk_chain s hnd fuel [] l S (by rw [hLL]; rfl) hlk (by
        simp only [List.length_cons] at hf; omega)
  · exact hnd.sublist ((List.filter_sublist _).map addr)

theorem C9_leaf_chain_witness :
    1 ≤ 1 ∧ (leafList sample.root).head?.map addr = some sample.head ∧
      (∀ fuel, (leafList sample.root).length ≤ fuel →
        sample.walk fuel (some sample.head) = some (leafList sample.root)) ∧
      ((leafList sample.root).map addr).Nodup ∧
      (∀ l, (leafList sample.root).getLast? = some l → l.next = none) ∧
      ((leafList sample.root).flatMap data).Sorted (· < ·) ∧
      ((leafList sample.root).flatMap data).length = sample.size :=
  ⟨by decide, C9_leaf_chain 1 (by decide) sample sample_reachable⟩

/-- C10: in a container reachable from the empty one (`N ≥ 1`) every internal
node has `node_size + 1` children and strictly ascending keys; each key
`data[i]` is stored in the leaves under `children[i+1]` and is the least key
stored there, and every key stored under `children[i]` is less than it. -/
theorem C10_separators (N : Nat) (hN : 1 ≤ N) (s : ADS_set K) (hr : Reachable N s) :
    ∀ t ∈ nodes s.root, t.leaf = false →
      t.children.length = t.node_size + 1 ∧ t.data.Sorted (· < ·) ∧
      ∀ i x, t.data[i]? = some x →
        ∃ cl cr, t.children[i]? = some cl ∧ t.children[i + 1]? = some cr ∧
          x ∈ keys cr ∧ (∀ y ∈ keys cr, x ≤ y) ∧ (∀ y ∈ keys cl, y < x) := by
  obtain ⟨h, hwf, _, _, hs, _⟩ := inv_of_reachable hN s hr
  intro t ht hlf
  obtain ⟨h1, hwf1, hs1⟩ := Node.nodes_wf h s.root hwf hs t ht
  cases h1 with
  | zero =>
    have := ((WF_zero ..).1 hwf1).1
    rw [hlf] at this
    cases this
  | succ h1 =>
    obtain ⟨a, lf, d, ch, nx⟩ := t
    simp only [leaf] at hlf
    subst hlf
    obtain ⟨_, h2, _, _⟩ := (WF_node_mk ..).1 hwf1
    obtain ⟨h3, h4⟩ := Node.separators hwf1 hs1
    exact ⟨h2, h3, h4⟩

theorem C10_separators_witness :
    1 ≤ 1 ∧ ∀ t ∈ nodes sample.root, t.leaf = false →
      t.children.length = t.node_size + 1 ∧ t.data.Sorted (· < ·) ∧
      ∀ i x, t.data[i]? = some x →
        ∃ cl cr, t.children[i]? = some cl ∧ t.children[i + 1]? = some cr ∧
          x ∈ keys cr ∧ (∀ y ∈ keys cr, x ≤ y) ∧ (∀ y ∈ keys cl, y < x) :=
  ⟨by decide, C10_separators 1 (by decide) sample sample_reachable⟩

end ADS

namespace ADS

open Node

variable {K : Type}

/-! ## Leaves and internal nodes -/

namespace Node

theorem WF.shape {N : Nat} (h : Nat) (t : Node K) (hwf : WF N h t) :
    (h = 0 ∧ t.leaf = true ∧ t.children = []) ∨
    (1 ≤ h ∧ t.leaf = false ∧ t.children.length = t.node_size + 1) := by
  obtain ⟨a, lf, d, ch, nx⟩ := t
  cases h with
  | zero =>
    obtain ⟨h1, h2⟩ := (WF_leaf_mk ..).1 hwf
    exact Or.inl ⟨rfl, h1, h2⟩
  | succ h =>
    obtain ⟨h1, h2, _, _⟩ := (WF_node_mk ..).1 hwf
    exact Or.inr ⟨by omega, h1, h2⟩

end Node

/-! ## Two iterators in lockstep: `operator==` -/

namespace ADS_set

theorem iterAt_nil (s : ADS_set K) (it : Iterator) (h : IterAt s it []) : it = end_ := by
  rcases h with ⟨h, _⟩ | ⟨P, l, S, i, _, hi, _, hks⟩
  · exact h
  · exfalso
    have := congrArg List.length hks
    simp only [List.length_nil, List.length_append, List.length_drop] at this
    omega

theorem iterAt_cons (s : ADS_set K) (hnd : (addrs s.root).Nodup)
    (hne : ∀ l ∈ leafList s.root, l.data ≠ [])
    (hlk : Linked (leafList s.root) none) (it : Iterator) (k : K) (ks : List K)
    (h : IterAt s it (k :: ks)) :
    it ≠ end_ ∧ s.deref it = some k ∧ ∃ it1, s.advance it = some it1 ∧ IterAt s it1 ks := by
  rcases h with ⟨_, h⟩ | ⟨P, l, S, i, hLL, hi, hit, hks⟩
  · cases h
  · subst hit
    have hlmem : l ∈ leafList s.root := by rw [hLL]; simp
    have hlook := Node.lookup_leaf s.root hnd l hlmem
    have hdrop : l.data.drop i = l.data[i] :: l.data.drop (i + 1) :=
      List.drop_eq_getElem_cons hi
    rw [hdrop, List.cons_append] at hks
    obtain ⟨hk, hks⟩ := List.cons.inj hks
    have hlkS : Linked (l :: S) none := by
      rw [hLL] at hlk
      exact ((linked_append P (l :: S) none (by simp)).1 hlk).2
    refine ⟨by simp [end_], ?_, ?_⟩
    · simp only [deref, hlook]
      rw [hk]
      exact List.getElem?_eq_getElem hi
    · by_cases hlast : i + 1 ≥ l.node_size
      · refine ⟨⟨l.next, 0⟩, by simp only [advance, hlook, if_pos hlast], ?_⟩
        have hd2 : l.data.drop (i + 1) = [] := List.drop_eq_nil_of_le hlast
        have hnx := Node.linked_cons_next l S none hlkS
        cases S with
        | nil =>
          simp only [] at hnx
          left
          refine ⟨by rw [hnx]; rfl, ?_⟩
          rw [hks, hd2]
          rfl
        | cons l2 S2 =>
          simp only [] at hnx
          right
          have hl2mem : l2 ∈ leafList s.root := by rw [hLL]; simp
          have hl2pos : 0 < l2.data.length := List.length_pos.2 (hne l2 hl2mem)
          refine ⟨P ++ [l], l2, S2, 0, by rw [hLL]; simp, hl2pos, by rw [hnx], ?_⟩
          rw [hks, hd2]
          simp
      · have hi2 : i + 1 < l.data.length := by
          have : l.node_size = l.data.length := rfl
          omega
        exact ⟨⟨some l.addr, i + 1⟩, by simp only [advance, hlook, if_neg hlast],
          Or.inr ⟨P, l, S, i + 1, hLL, hi2, rfl, hks⟩⟩

variable [LinearOrder K]

theorem iterAt_begin {N : Nat} (hN : 1 ≤ N) (s : ADS_set K) (hinv : Inv N s) :
    IterAt s s.begin_ (keys s.root) := by
  obtain ⟨h, hwf, _, _, _, hlk, hhead, hnd, _, hlen⟩ := hinv
  unfold begin_ empty
  by_cases he : s.leaves = 0
  · have hk : keys s.root = [] := by
      apply List.eq_nil_of_length_eq_zero
      omega
    simp only [he, decide_True, if_true, hk]
    exact Or.inl ⟨rfl, rfl⟩
  · simp only [he, decide_False, Bool.false_eq_true, if_false]
    have hk : keys s.root ≠ [] := by
      intro hk
      rw [hk] at hlen
      exact he hlen
    have hne := Node.leaves_nonempty_top hN h s.root hwf hk
    cases hLL : leafList s.root with
    | nil => exact absurd hLL (WF.leafList_ne_nil h s.root hwf)
    | cons l S =>
      rw [hLL] at hhead
      simp only [List.head?_cons, Option.map_some', Option.some.injEq] at hhead
      rw [← hhead]
      have hl : l ∈ leafList s.root := by rw [hLL]; simp
      have hpos : 0 < l.data.length := List.length_pos.2 (hne l hl)
      refine Or.inr ⟨[], l, S, 0, by rw [hLL]; rfl, hpos, rfl, ?_⟩
      rw [keys, hLL, List.flatMap_cons]
      rfl

theorem eq_loop_spec (a b : ADS_set K) (hnda : (addrs a.root).Nodup)
    (hnea : ∀ l ∈ leafList a.root, l.data ≠ []) (hlka : Linked (leafList a.root) none)
    (hndb : (addrs b.root).Nodup)
    (hneb : ∀ l ∈ leafList b.root, l.data ≠ []) (hlkb : Linked (leafList b.root) none) :
    ∀ (fuel : Nat) (la lb : List K) (li ri : Iterator), IterAt a li la → IterAt b ri lb →
      la.length = lb.length → la.length ≤ fuel →
      eq_loop a b fuel li ri = some (decide (la = lb)) := by
  intro fuel
  induction fuel with
  | zero =>
    intro la lb li ri hla _ hlen hf
    have h1 : la = [] := List.eq_nil_of_length_eq_zero (by omega)
    subst h1
    have h2 : lb = [] := List.eq_nil_of_length_eq_zero (by simpa using hlen.symm)
    subst h2
    simp [eq_loop, iterAt_nil a li hla]
  | succ fuel ih =>
    intro la lb li ri hla hlb hlen hf
    cases la with
    | nil =>
      have h2 : lb = [] := List.eq_nil_of_length_eq_zero (by simpa using hlen.symm)
      subst h2
      simp [eq_loop, iterAt_nil a li hla]
    | cons x la1 =>
      cases lb with
      | nil => simp at hlen
      | cons y lb1 =>
        obtain ⟨hne1, hd1, li1, ha1, hr1⟩ := iterAt_cons a hnda hnea hlka li x la1 hla
        obtain ⟨_, hd2, ri1, ha2, hr2⟩ := iterAt_cons b hndb hneb hlkb ri y lb1 hlb
        simp only [List.length_cons, Nat.add_right_cancel_iff] at hlen
        simp only [List.length_cons] at hf
        rw [eq_loop, if_neg hne1, hd1]
        simp only [hd2]
        by_cases hxy : x = y
        · rw [if_pos hxy, ha1]
          simp only [ha2]
          rw [ih la1 lb1 li1 ri1 hr1 hr2 hlen (by omega)]
          simp [hxy]
        · rw [if_neg hxy]
          simp [hxy]

/-- `operator==` on two containers that satisfy the invariant: the sizes are
compared first, then the keys in iteration order. -/
theorem equal_of_inv {N : Nat} (hN : 1 ≤ N) (a b : ADS_set K) (ha : Inv N a) (hb : Inv N b)
    (fuel : Nat) (hf : a.size ≤ fuel) :
    equal a b fuel = some (decide (a.size = b.size ∧ keys a.root = keys b.root)) := by
  have hia := iterAt_begin hN a ha
  have hib := iterAt_begin hN b hb
  obtain ⟨h1, hwf1, _, _, _, hlk1, _, hnd1, _, hlen1⟩ := ha
  obtain ⟨h2, hwf2, _, _, _, hlk2, _, hnd2, _, hlen2⟩ := hb
  unfold equal
  have hsa : a.size = a.leaves := rfl
  have hsb : b.size = b.leaves := rfl
  by_cases hne : b.leaves ≠ a.leaves
  · rw [if_pos hne]
    have : ¬ (a.size = b.size ∧ keys a.root = keys b.root) := by
      intro hc
      apply hne
      rw [← hsa, ← hsb, hc.1]
    simp [this]
  · rw [if_neg hne]
    have heq : b.leaves = a.leaves := not_not.1 hne
    by_cases h0 : b.leaves = 0
    · rw [if_pos h0]
      have hka : keys a.root = [] := List.eq_nil_of_length_eq_zero (by omega)
      have hkb : keys b.root = [] := List.eq_nil_of_length_eq_zero (by omega)
      simp [hka, hkb, hsa, hsb, heq]
    · rw [if_neg h0]
      have hka : keys a.root ≠ [] := by
        intro hk
        rw [hk] at hlen1
        simp at hlen1
        omega
      have hkb : keys b.root ≠ [] := by
        intro hk
        rw [hk] at hlen2
        simp at hlen2
        omega
      rw [eq_loop_spec a b hnd1 (Node.leaves_nonempty_top hN h1 a.root hwf1 hka) hlk1
        hnd2 (Node.leaves_nonempty_top hN h2 b.root hwf2 hkb) hlk2 fuel
        (keys a.root) (keys b.root) a.begin_ b.begin_ hia hib (by omega) (by omega)]
      simp [hsa, hsb, heq]

theorem sample2_reachable : Reachable 1 sample2 :=
  Reachable.erase sample sample2 3 1 sample_reachable rfl

end ADS_set

end ADS

namespace ADS

open Node ADS_set

variable {K : Type} [LinearOrder K]

/-! ## The properties of equality, iteration and splitting -/

/-- C11: for reachable containers `a` and `b` over the same `N`, `operator==`
returns true exactly when both have the same `size()` and the same sequence of
keys under ascending iteration, and `operator!=` is its negation; in particular
two containers built by inserting the same set of keys, in whatever orders,
compare equal, also when their trees differ in shape (as the trees built from
1, 2, 3, 4 and from 4, 3, 2, 1 for `N = 1` do). -/
theorem C11_equality (N : Nat) (hN : 1 ≤ N) :
    (∀ a b : ADS_set K, Reachable N a → Reachable N b →
      ∃ la lb, a.toList a.size = some la ∧ b.toList b.size = some lb ∧
        ∀ fuel, a.size ≤ fuel →
          equal a b fuel = some (decide (a.size = b.size ∧ la = lb)) ∧
          notEqual a b fuel = some (!decide (a.size = b.size ∧ la = lb))) ∧
    (∀ L1 L2 : List K, (∀ k, k ∈ L1 ↔ k ∈ L2) →
      ∃ a b, ofList N L1 = some a ∧ ofList N L2 = some b ∧
        equal a b a.size = some true) ∧
    (∃ a b : ADS_set Nat, ofList 1 [1, 2, 3, 4] = some a ∧ ofList 1 [4, 3, 2, 1] = some b ∧
      a.root.node_size = 1 ∧ b.root.node_size = 2 ∧ equal a b a.size = some true) := by
  refine ⟨?_, ?_, ?_⟩
  · intro a b hra hrb
    have ha := inv_of_reachable hN a hra
    have hb := inv_of_reachable hN b hrb
    refine ⟨keys a.root, keys b.root, toList_of_inv hN a ha _ (le_refl _),
      toList_of_inv hN b hb _ (le_refl _), ?_⟩
    intro fuel hf
    have := equal_of_inv hN a b ha hb fuel hf
    refine ⟨this, ?_⟩
    rw [notEqual, this]
    rfl
  · intro L1 L2 hL
    obtain ⟨a, hae, ha, hka⟩ := insertAll_spec hN L1 (new : ADS_set K) (inv_new N)
    obtain ⟨b, hbe, hb, hkb⟩ := insertAll_spec hN L2 (new : ADS_set K) (inv_new N)
    refine ⟨a, b, hae, hbe, ?_⟩
    have hnew : keys (new : ADS_set K).root = [] := by simp [new, keys_leaf]
    have hkeys : keys a.root = keys b.root := by
      obtain ⟨_, _, _, _, hsa, _⟩ := ha
      obtain ⟨_, _, _, _, hsb, _⟩ := hb
      apply sorted_ext _ _ hsa hsb
      intro k
      rw [hka k, hkb k, hnew]
      simp [hL k]
    have hsz : a.size = b.size := by
      obtain ⟨_, _, _, _, _, _, _, _, _, hla⟩ := ha
      obtain ⟨_, _, _, _, _, _, _, _, _, hlb⟩ := hb
      show a.leaves = b.leaves
      rw [hla, hlb, hkeys]
    rw [equal_of_inv hN a b ha hb a.size (le_refl _)]
    simp [hsz, hkeys]
  · exact ⟨⟨4, .mk 2 false [3] [.mk 0 true [1, 2] [] (some 1), .mk 1 true [3, 4] [] none] none,
        0, 3⟩,
      ⟨4, .mk 2 false [3, 4] [.mk 0 true [1, 2] [] (some 3), .mk 3 true [3] [] (some 1),
        .mk 1 true [4] [] none] none, 0, 4⟩, rfl, rfl, rfl, rfl, by decide⟩

/-- C11 at `N = 1`: `sample` against `sample2`, and the containers built from
5, 3, 8 and from 3, 5, 8. -/
theorem C11_equality_witness :
    (∃ la lb, sample.toList sample.size = some la ∧ sample2.toList sample2.size = some lb ∧
        ∀ fuel, sample.size ≤ fuel →
          equal sample sample2 fuel = some (decide (sample.size = sample2.size ∧ la = lb)) ∧
          notEqual sample sample2 fuel =
            some (!decide (sample.size = sample2.size ∧ la = lb))) ∧
    (∃ a b : ADS_set Nat, ofList 1 [5, 3, 8] = some a ∧ ofList 1 [3, 5, 8] = some b ∧
        equal a b a.size = some true) :=
  ⟨(C11_equality 1 (le_refl 1)).1 sample sample2 sample_reachable sample2_reachable,
    (C11_equality 1 (le_refl 1)).2.1 [5, 3, 8] [3, 5, 8] (by intro k; simp; tauto)⟩

/-- C12: for every container whose root is a single leaf holding exactly one
key `k` (with `size()` equal to 1, as it is in every reachable container),
`erase(k)` returns 1 and afterwards `empty()` is true, `size()` is 0 and
`begin() == end()`; the root stays the same leaf, now without keys. -/
theorem C12_erase_last_key (N : Nat) (s : ADS_set K) (k : K) (a : Nat) (ch : List (Node K))
    (nx : Option Nat) (hroot : s.root = .mk a true [k] ch nx)
    (hsize : s.size = 1 ∨ (1 ≤ N ∧ Reachable N s)) :
    ∃ s1, s.erase N k = some (s1, 1) ∧ s1.empty = true ∧ s1.size = 0 ∧
      s1.begin_ = end_ ∧ s1.root = .mk a true [] ch nx := by
  have hsz : s.size = 1 := by
    rcases hsize with h1 | ⟨hN, hr⟩
    · exact h1
    · obtain ⟨h, hwf, _, _, _, _, _, _, _, hlen⟩ := inv_of_reachable hN s hr
      have hch : ch = [] := by
        rcases WF.shape h s.root hwf with ⟨_, _, q⟩ | ⟨_, q, _⟩
        · rw [hroot] at q
          exact q
        · rw [hroot] at q
          cases q
      show s.leaves = 1
      rw [hlen, hroot, hch, keys_leaf]
      rfl
  obtain ⟨lv, root, head, fresh⟩ := s
  simp only [size] at hsz
  simp only at hroot
  subst hroot
  subst hsz
  refine ⟨⟨0, .mk a true [] ch nx, head, fresh⟩, ?_, rfl, rfl, rfl, rfl⟩
  simp [ADS_set.erase, ADS_set.find, empty, Node.find, find_loop, Node.erase, erase_loop,
    erase_leaf, end_, node_size, Node.leaf, Node.data]

/-- C12 on the container holding the single key 7. -/
theorem C12_erase_last_key_witness :
    ∃ s1, (⟨1, .mk 0 true [7] [] none, 0, 1⟩ : ADS_set Nat).erase 2 7 = some (s1, 1) ∧
      s1.empty = true ∧ s1.size = 0 ∧ s1.begin_ = end_ ∧ s1.root = .mk 0 true [] [] none :=
  C12_erase_last_key 2 ⟨1, .mk 0 true [7] [] none, 0, 1⟩ 7 0 [] none rfl (Or.inl rfl)

/-- C13: an iterator at `(leaf, offset)` with `offset < leaf.node_size` can be
read, and `operator++` yields `(leaf, offset + 1)` when
`offset + 1 < leaf.node_size` and `(leaf.next, 0)` otherwise, which is the
end iterator when the leaf has no next leaf. -/
theorem C13_iterator_advance {α : Type} (s : ADS_set α) (p : Nat) (l : Node α) (i : Nat)
    (hl : s.root.lookup p = some l) (hi : i < l.node_size) :
    (s.deref ⟨some p, i⟩).isSome = true ∧
    (i + 1 < l.node_size → s.advance ⟨some p, i⟩ = some ⟨some p, i + 1⟩) ∧
    (¬ i + 1 < l.node_size → s.advance ⟨some p, i⟩ = some ⟨l.next, 0⟩) ∧
    (¬ i + 1 < l.node_size → l.next = none → s.advance ⟨some p, i⟩ = some end_) := by
  refine ⟨?_, ?_, ?_, ?_⟩
  · simp only [deref, hl]
    have hi2 : i < l.data.length := hi
    rw [List.getElem?_eq_getElem hi2]
    rfl
  · intro h
    simp only [advance, hl]
    rw [if_neg (by omega)]
  · intro h
    simp only [advance, hl]
    rw [if_pos (by omega)]
  · intro h hnx
    simp only [advance, hl]
    rw [if_pos (by omega), hnx]
    rfl

/-- C13 on `sample`: from the last slot of the first leaf to the second leaf. -/
theorem C13_iterator_advance_witness :
    (sample.deref ⟨some 0, 1⟩).isSome = true ∧
    (1 + 1 < (Node.mk 0 true [3, 5] [] (some 1)).node_size →
      sample.advance ⟨some 0, 1⟩ = some ⟨some 0, 1 + 1⟩) ∧
    (¬ 1 + 1 < (Node.mk 0 true [3, 5] [] (some 1)).node_size →
      sample.advance ⟨some 0, 1⟩ = some ⟨(Node.mk 0 true [3, 5] [] (some 1)).next, 0⟩) ∧
    (¬ 1 + 1 < (Node.mk 0 true [3, 5] [] (some 1)).node_size →
      (Node.mk 0 true [3, 5] [] (some 1)).next = none →
      sample.advance ⟨some 0, 1⟩ = some end_) :=
  C13_iterator_advance sample 0 (.mk 0 true [3, 5] [] (some 1)) 1 rfl (by decide)

/-- C14: `split` on a leaf holding `2 * N + 1` strictly ascending keys leaves
the first `N + 1` keys in the original (left) leaf and returns a new right leaf
holding the remaining `N` keys in the same order; the leaf chain is rewired so
that `left.next` is the right leaf and `right.next` is the left leaf's former
`next`. -/
theorem C14_leaf_split (N fresh a : Nat) (d : List K) (ch : List (Node K)) (nx : Option Nat)
    (hlen : d.length = 2 * N + 1) (hs : d.Sorted (· < ·)) :
    ∃ L R, split N fresh (.mk a true d ch nx) = (L, R) ∧
      L.addr = a ∧ L.leaf = true ∧ R.leaf = true ∧
      L.data = d.take (N + 1) ∧ R.data = d.drop (N + 1) ∧
      L.node_size = N + 1 ∧ R.node_size = N ∧ L.data ++ R.data = d ∧
      L.data.Sorted (· < ·) ∧ R.data.Sorted (· < ·) ∧ (∀ x ∈ L.data, ∀ y ∈ R.data, x < y) ∧
      R.addr = fresh ∧ L.next = some R.addr ∧ R.next = nx := by
  have e1 : (d.drop (N + 1)).take N = d.drop (N + 1) :=
    List.take_of_length_le (by rw [List.length_drop]; omega)
  have hs2 : (d.take (N + 1) ++ d.drop (N + 1)).Sorted (· < ·) := by
    rw [List.take_append_drop]
    exact hs
  refine ⟨_, _, split_leaf_eq .., rfl, rfl, rfl, rfl, e1, ?_, ?_, ?_, ?_, ?_, ?_, rfl, rfl, rfl⟩
  · simp only [node_size, Node.data, List.length_take]
    omega
  · simp only [node_size, Node.data, List.length_take, List.length_drop]
    omega
  · simp only [Node.data, e1, List.take_append_drop]
  · exact (List.pairwise_append.1 hs2).1
  · simp only [Node.data, e1]
    exact (List.pairwise_append.1 hs2).2.1
  · simp only [Node.data, e1]
    exact (List.pairwise_append.1 hs2).2.2

/-- C14 for `N = 2` on the leaf holding 1, 2, 3, 4, 5. -/
theorem C14_leaf_split_witness :
    ∃ L R, split 2 9 (.mk 0 true [1, 2, 3, 4, 5] [] (some 4)) = (L, R) ∧
      L.addr = 0 ∧ L.leaf = true ∧ R.leaf = true ∧
      L.data = [1, 2, 3, 4, 5].take (2 + 1) ∧ R.data = [1, 2, 3, 4, 5].drop (2 + 1) ∧
      L.node_size = 2 + 1 ∧ R.node_size = 2 ∧ L.data ++ R.data = [1, 2, 3, 4, 5] ∧
      L.data.Sorted (· < ·) ∧ R.data.Sorted (· < ·) ∧ (∀ x ∈ L.data, ∀ y ∈ R.data, x < y) ∧
      R.addr = 9 ∧ L.next = some R.addr ∧ R.next = some 4 :=
  C14_leaf_split 2 9 0 [1, 2, 3, 4, 5] [] (some 4) rfl (by decide)

/-- C15: `split` on an internal node holding `2 * N + 1` keys and `2 * N + 2`
children leaves the first `N` keys and the first `N + 1` children in the left
node; the new right node holds the last `N` keys (indices `N + 1 .. 2 * N`) and
the last `N + 1` children (indices `N + 1 .. 2 * N + 1`), its first child being
the original child `N + 1`; the key at index `N` is kept by neither node. The
separator which the parent (`insert_node`) inserts for the right node is the
right node's subtree minimum, and in a well-shaped tree that minimum is the key
which was dropped. -/
theorem C15_internal_split {α : Type} (N fresh a : Nat) (d : List α) (ch : List (Node α))
    (nx : Option Nat) (hd : d.length = 2 * N + 1) (hc : ch.length = 2 * N + 2) :
    ∃ L R, split N fresh (.mk a false d ch nx) = (L, R) ∧
      L.addr = a ∧ L.leaf = false ∧ R.leaf = false ∧
      L.data = d.take N ∧ L.children = ch.take (N + 1) ∧
      R.data = d.drop (N + 1) ∧ R.children = ch.drop (N + 1) ∧
      L.node_size = N ∧ L.children.length = N + 1 ∧
      R.node_size = N ∧ R.children.length = N + 1 ∧
      R.children.head? = ch[N + 1]? ∧
      (∃ k, d[N]? = some k ∧ d = L.data ++ k :: R.data) ∧ ch = L.children ++ R.children ∧
      (∀ m, R.minimum = some m → ∀ (pa : Nat) (pd : List α) (pch : List (Node α))
          (pnx : Option Nat) (position : Nat) (c : Node α) (fr : Nat),
        insert_node N position c (some R) fr (.mk pa false pd pch pnx) =
          some (if pd.length + 1 > order N then
              ((split N fr (.mk pa false (insertAt pd position m)
                  (insertAt (pch.set position c) (position + 1) R) pnx)).1,
                some (split N fr (.mk pa false (insertAt pd position m)
                  (insertAt (pch.set position c) (position + 1) R) pnx)).2, fr + 1)
            else (.mk pa false (insertAt pd position m)
                  (insertAt (pch.set position c) (position + 1) R) pnx, none, fr))) ∧
      (∀ h, 1 ≤ N → WF N (h + 1) (.mk a false d ch nx) → R.minimum = d[N]?) := by
  have e1 : (d.drop (N + 1)).take N = d.drop (N + 1) :=
    List.take_of_length_le (by rw [List.length_drop]; omega)
  have e2 : (ch.drop (N + 1)).take (N + 1) = ch.drop (N + 1) :=
    List.take_of_length_le (by rw [List.length_drop]; omega)
  have hN1 : N < d.length := by omega
  have hN2 : N + 1 < ch.length := by omega
  refine ⟨_, _, split_node_eq .., rfl, rfl, rfl, rfl, rfl, e1, e2, ?_, ?_, ?_, ?_, ?_, ?_, ?_,
    ?_, ?_⟩
  · simp only [node_size, Node.data, List.length_take]
    omega
  · simp only [Node.children, List.length_take]
    omega
  · simp only [node_size, Node.data, List.length_take, List.length_drop]
    omega
  · simp only [Node.children, List.length_take, List.length_drop]
    omega
  · simp only [Node.children, e2]
    rw [List.head?_drop]
  · refine ⟨d[N], List.getElem?_eq_getElem hN1, ?_⟩
    simp only [Node.data, e1]
    rw [← List.drop_eq_getElem_cons hN1, List.take_append_drop]
  · simp only [Node.children, e2, List.take_append_drop]
  · intro m hm pa pd pch pnx position c fr
    simp only [e1, e2] at hm ⊢
    simp only [insert_node, hm, node_size, Node.data, length_insertAt]
    split <;> rfl
  · intro h hN hwf
    obtain ⟨c, hc1, hc2⟩ := WF.headKey_child hwf N d[N] (List.getElem?_eq_getElem hN1)
    obtain ⟨_, _, h3, _⟩ := (WF_node_mk ..).1 hwf
    have hce : ch[N + 1] = c := by
      have := List.getElem?_eq_getElem hN2
      rw [hc1] at this
      exact (Option.some.inj this).symm
    have hcm : c ∈ ch := by
      rw [← hce]
      exact List.getElem_mem hN2
    have hdrop : ch.drop (N + 1) = c :: ch.drop (N + 1 + 1) := by
      rw [List.drop_eq_getElem_cons hN2, hce]
    rw [e1, e2, hdrop, List.getElem?_eq_getElem hN1, ← hc2,
      ← WF.minimum_eq hN h c (h3 c hcm).1]
    simp [minimum]

/-- C15 for `N = 1`: an internal node with the keys 3, 5, 7 over four leaves. -/
theorem C15_internal_split_witness :
    ∃ L R, split 1 9 (.mk 4 false [3, 5, 7] [.mk 0 true [1] [] (some 1),
        .mk 1 true [3] [] (some 2), .mk 2 true [5] [] (some 3), .mk 3 true [7] [] none] none)
        = (L, R) ∧
      L.data = [3] ∧ R.data = [7] ∧ R.minimum = some 5 ∧
      L.children = [.mk 0 true [1] [] (some 1), .mk 1 true [3] [] (some 2)] ∧
      R.children = [.mk 2 true [5] [] (some 3), .mk 3 true [7] [] none] := by
  obtain ⟨L, R, h1, _, _, _, h5, h6, h7, h8, _, _, _, _, _, _, _, _, h17⟩ :=
    C15_internal_split 1 9 4 [3, 5, 7] [.mk 0 true [1] [] (some 1),
        .mk 1 true [3] [] (some 2), .mk 2 true [5] [] (some 3), .mk 3 true [7] [] none] none
      rfl rfl
  refine ⟨L, R, h1, h5, h7, ?_, h6, h8⟩
  rw [h17 0 (le_refl 1) (by
    rw [WF_node_mk]
    refine ⟨rfl, rfl, ?_, by decide⟩
    intro c hc
    simp only [List.mem_cons, List.mem_singleton, List.not_mem_nil, or_false] at hc
    rcases hc with h | h | h | h <;> subst h <;> exact ⟨⟨rfl, rfl⟩, by decide, by decide⟩)]
  rfl

end ADS

namespace ADS

open Node

variable {K : Type} [LinearOrder K]

/-! ## The first split of the root -/

namespace ADS_set

theorem insertAll_append (N : Nat) (L1 L2 : List K) :
    ∀ s : ADS_set K, insertAll N (L1 ++ L2) s = (insertAll N L1 s).bind (insertAll N L2) := by
  induction L1 with
  | nil => intro s; rfl
  | cons x xs ih =>
    intro s
    simp only [List.cons_append, insertAll]
    cases s.insert N x with
    | none => rfl
    | some r => exact ih r.1

/-- What a successful `insert` stores: the root as `Node::insert` left it, or
a new root above it and the returned right node. -/
theorem insert_shape (N : Nat) (s s1 : ADS_set K) (key : K) (it : Iterator)
    (h : s.insert N key = some (s1, it, true)) :
    ∃ root1 ret fresh1, s.root.insert N key s.fresh = some (root1, ret, fresh1) ∧
      (ret = none → s1 = ⟨s.leaves + 1, root1, s.head, fresh1⟩) ∧
      (∀ r, ret = some r → ∃ m, r.minimum = some m ∧
        s1 = ⟨s.leaves + 1, .mk fresh1 false [m] [root1, r] none, s.head, fresh1 + 1⟩) := by
  unfold ADS_set.insert at h
  cases hf : s.find key with
  | none => rw [hf] at h; simp at h
  | some i =>
    rw [hf] at h
    simp only [] at h
    by_cases hi : i ≠ end_
    · rw [if_pos hi] at h
      simp at h
    · rw [if_neg hi] at h
      cases hins : s.root.insert N key s.fresh with
      | none => rw [hins] at h; simp at h
      | some r =>
        obtain ⟨root1, ret, fresh1⟩ := r
        rw [hins] at h
        simp only [] at h
        refine ⟨root1, ret, fresh1, rfl, ?_, ?_⟩
        · intro hret
          subst hret
          simp only [] at h
          cases hf2 : ADS_set.find ⟨s.leaves + 1, root1, s.head, fresh1⟩ key with
          | none => rw [hf2] at h; simp at h
          | some i2 =>
            rw [hf2] at h
            simp only [Option.some.injEq, Prod.mk.injEq] at h
            exact h.1.symm
        · intro r hret
          subst hret
          simp only [] at h
          cases hm : r.minimum with
          | none => rw [hm] at h; simp at h
          | some m =>
            rw [hm] at h
            simp only [] at h
            refine ⟨m, rfl, ?_⟩
            cases hf2 : ADS_set.find
                ⟨s.leaves + 1, .mk fresh1 false [m] [root1, r] none, s.head, fresh1 + 1⟩ key with
            | none => rw [hf2] at h; simp at h
            | some i2 =>
              rw [hf2] at h
              simp only [Option.some.injEq, Prod.mk.injEq] at h
              exact h.1.symm

end ADS_set

/-- `Node::insert` of an absent key into a leaf. -/
theorem insert_leaf_eq (N : Nat) (key : K) (a : Nat) (d : List K) (ch : List (Node K))
    (nx : Option Nat) (fresh : Nat) (hs : d.Sorted (· < ·)) (hk : key ∉ d) :
    Node.insert N key (.mk a true d ch nx) fresh =
      some (if d.length + 1 > order N then
          (.mk a true ((insKey key d).take (N + 1)) ch (some fresh),
            some (.mk fresh true (((insKey key d).drop (N + 1)).take N) [] nx), fresh + 1)
        else (.mk a true (insKey key d) ch nx, none, fresh)) := by
  have hD := insKey_rank key d hs hk
  have hlen : (insKey key d).length = d.length + 1 := length_insKey key d hk
  rw [Node.insert, insert_loop_eq _ _ _ hk]
  simp only [Nat.zero_add, if_true, insert_leaf, hD, node_size, data, hlen, split_leaf_eq]

namespace ADS_set

/-- While the keys fit into one leaf, the root stays that leaf. -/
theorem leaf_phase {N : Nat} (hN : 1 ≤ N) (L : List K) :
    ∀ (s : ADS_set K) (a : Nat) (d : List K) (nx : Option Nat), Inv N s →
      s.root = .mk a true d [] nx → L.Nodup → (∀ k ∈ L, k ∉ d) → d.length + L.length ≤ 2 * N →
      ∃ s1 d1, insertAll N L s = some s1 ∧ Inv N s1 ∧ s1.root = .mk a true d1 [] nx ∧
        (∀ k, k ∈ d1 ↔ k ∈ d ∨ k ∈ L) ∧ d1.length = d.length + L.length ∧
        s1.fresh = s.fresh ∧ s1.head = s.head := by
  induction L with
  | nil =>
    intro s a d nx hinv hroot _ _ _
    exact ⟨s, d, rfl, hinv, hroot, fun k => by simp, rfl, rfl, rfl⟩
  | cons x xs ih =>
    intro s a d nx hinv hroot hnd hnot hlen
    have hkd : keys s.root = d := by rw [hroot, keys_leaf]
    have hsd : d.Sorted (· < ·) := by
      obtain ⟨_, _, _, _, hs, _⟩ := hinv
      rw [hkd] at hs
      exact hs
    have hx : x ∉ d := hnot x (by simp)
    obtain ⟨s1, it, hins, hinv1, _, _, _, hhead⟩ :=
      insert_absent hN s hinv x (by rw [hkd]; exact hx)
    obtain ⟨root1, ret, fresh1, hri, hnone, _⟩ := insert_shape N s s1 x it hins
    simp only [List.length_cons] at hlen
    rw [hroot, insert_leaf_eq N x a d [] nx s.fresh hsd hx,
      if_neg (by unfold order; omega)] at hri
    simp only [Option.some.injEq, Prod.mk.injEq] at hri
    obtain ⟨e1, e2, e3⟩ := hri
    have hs1 := hnone e2.symm
    have hroot1 : s1.root = .mk a true (insKey x d) [] nx := by rw [hs1, ← e1]
    have hfresh1 : s1.fresh = s.fresh := by rw [hs1, ← e3]
    rw [List.nodup_cons] at hnd
    obtain ⟨s2, d2, h1, h2, h3, h4, h5, h6, h7⟩ := ih s1 a (insKey x d) nx hinv1 hroot1 hnd.2
      (by
        intro k hk hmem
        rcases (mem_insKey x d k).1 hmem with h | h
        · subst h
          exact hnd.1 hk
        · exact hnot k (by simp [hk]) h.1)
      (by rw [length_insKey x d hx]; omega)
    refine ⟨s2, d2, ?_, h2, h3, ?_, ?_, by rw [h6, hfresh1], by rw [h7, hhead]⟩
    · simp only [insertAll, hins]
      exact h1
    · intro k
      rw [h4 k, mem_insKey]
      simp only [List.mem_cons]
      constructor
      · rintro ((h | h) | h)
        · exact Or.inr (Or.inl h)
        · exact Or.inl h.1
        · exact Or.inr (Or.inr h)
      · rintro (h | h | h)
        · by_cases hkx : k = x
          · exact Or.inl (Or.inl hkx)
          · exact Or.inl (Or.inr ⟨h, hkx⟩)
        · exact Or.inl (Or.inl h)
        · exact Or.inr h
    · rw [h5, length_insKey x d hx, List.length_cons]
      omega

end ADS_set

/-- C16: for `N ≥ 1`, inserting `2 * N + 1` distinct keys into an empty
container keeps the root a single leaf through the first `2 * N` inserts, and
the last insert splits it: the root is then an internal node with exactly one
key, the minimum of the right leaf, and two leaf children holding the `N + 1`
smallest and the `N` largest keys (`D` is the ascending arrangement of the
keys). For `N = 2`, inserting 1, ..., 9 splits the root at the 5th insert and
the container iterates as 1, ..., 9. -/
theorem C16_root_split (N : Nat) (hN : 1 ≤ N) (L : List K) (hnd : L.Nodup)
    (hlen : L.length = 2 * N + 1) :
    (∀ j, j ≤ 2 * N → ∃ s, ADS_set.ofList N (L.take j) = some s ∧ s.root.leaf = true ∧
      s.root.children = [] ∧ s.root.node_size = j) ∧
    (∃ (s : ADS_set K) (D : List K) (l r : Node K) (m : K), ADS_set.ofList N L = some s ∧ D.Sorted (· < ·) ∧ (∀ k, k ∈ D ↔ k ∈ L) ∧
      s.root.leaf = false ∧ s.root.data = [m] ∧ s.root.children = [l, r] ∧
      l.leaf = true ∧ r.leaf = true ∧ l.data = D.take (N + 1) ∧ r.data = D.drop (N + 1) ∧
      l.node_size = N + 1 ∧ r.node_size = N ∧
      r.minimum = some m ∧ r.data.head? = some m ∧ l.next = some r.addr ∧ r.next = none) ∧
    ((ADS_set.ofList 2 [1, 2, 3, 4]).map (fun s => s.root.leaf) = some true ∧
      (ADS_set.ofList 2 [1, 2, 3, 4, 5]).map (fun s => (s.root.leaf, s.root.data)) =
        some (false, [4]) ∧
      (ADS_set.ofList 2 [1, 2, 3, 4, 5, 6, 7, 8, 9]).bind (fun s => s.toList 9) =
        some [1, 2, 3, 4, 5, 6, 7, 8, 9]) := by
  have hnew : (ADS_set.new : ADS_set K).root = .mk 0 true [] [] none := rfl
  have hphase : ∀ j, j ≤ 2 * N → ∃ s d, ADS_set.ofList N (L.take j) = some s ∧ ADS_set.Inv N s ∧
      s.root = .mk 0 true d [] none ∧ (∀ k, k ∈ d ↔ k ∈ L.take j) ∧ d.length = j ∧
      s.fresh = 1 := by
    intro j hj
    obtain ⟨s, d, h1, h2, h3, h4, h5, h6, _⟩ := ADS_set.leaf_phase hN (L.take j)
      ADS_set.new 0 [] none (ADS_set.inv_new N) hnew
      (hnd.sublist (List.take_sublist j L)) (by simp)
      (by rw [List.length_take]; simp only [List.length_nil]; omega)
    refine ⟨s, d, h1, h2, h3, fun k => by rw [h4 k]; simp, ?_, by rw [h6]; rfl⟩
    rw [h5, List.length_take]
    simp only [List.length_nil]
    omega
  refine ⟨?_, ?_, by decide, by decide, by decide⟩
  · intro j hj
    obtain ⟨s, d, h1, _, h3, _, h5, _⟩ := hphase j hj
    refine ⟨s, h1, by rw [h3]; rfl, by rw [h3]; rfl, ?_⟩
    rw [h3]
    exact h5
  · obtain ⟨s, d, h1, hinv, h3, h4, h5, h6⟩ := hphase (2 * N) (le_refl _)
    have hlt : 2 * N < L.length := by omega
    obtain ⟨x, hL⟩ : ∃ x, L = L.take (2 * N) ++ [x] := by
      refine ⟨L[2 * N], ?_⟩
      conv_lhs => rw [← List.take_append_drop (2 * N) L]
      rw [List.drop_eq_getElem_cons hlt, List.drop_eq_nil_of_le (by omega)]
    have hx : x ∉ d := by
      intro hmem
      have hnd2 := hnd
      rw [hL, List.nodup_append] at hnd2
      exact hnd2.2.2 ((h4 _).1 hmem) (by simp)
    have hkd : keys s.root = d := by rw [h3, keys_leaf]
    have hsd : d.Sorted (· < ·) := by
      obtain ⟨_, _, _, _, hs, _⟩ := hinv
      rw [hkd] at hs
      exact hs
    obtain ⟨s1, it, hins, _, _, _, _, _⟩ :=
      ADS_set.insert_absent hN s hinv x (by rw [hkd]; exact hx)
    obtain ⟨root1, ret, fresh1, hri, _, hsome⟩ := ADS_set.insert_shape N s s1 x it hins
    rw [h3, insert_leaf_eq N x 0 d [] none s.fresh hsd hx,
      if_pos (by unfold order; omega)] at hri
    simp only [Option.some.injEq, Prod.mk.injEq] at hri
    obtain ⟨e1, e2, e3⟩ := hri
    obtain ⟨m, hm, hs1⟩ := hsome _ e2.symm
    have hDlen : (insKey x d).length = 2 * N + 1 := by
      rw [length_insKey _ d hx, h5]
    have e4 : ((insKey x d).drop (N + 1)).take N = (insKey x d).drop (N + 1) :=
      List.take_of_length_le (by rw [List.length_drop]; omega)
    have hof : ADS_set.ofList N L = some s1 := by
      unfold ADS_set.ofList at h1 ⊢
      rw [hL, ADS_set.insertAll_append, h1]
      simp only [Option.some_bind, ADS_set.insertAll, hins]
    refine ⟨s1, insKey x d, .mk 0 true ((insKey x d).take (N + 1)) [] (some s.fresh),
      .mk s.fresh true (((insKey x d).drop (N + 1)).take N) [] none, m, hof, insKey_sorted _ d hsd, ?_,
      by rw [hs1]; rfl, by rw [hs1]; rfl, by rw [hs1, ← e1]; rfl, rfl, rfl, rfl, e4, ?_, ?_, hm,
      ?_, rfl, rfl⟩
    · intro k
      rw [mem_insKey, h4 k]
      constructor
      · rintro (h | h)
        · rw [h, hL]
          simp
        · exact List.mem_of_mem_take h.1
      · intro h
        rw [hL, List.mem_append, List.mem_singleton] at h
        rcases h with h | h
        · by_cases hk : k = x
          · exact Or.inl hk
          · exact Or.inr ⟨h, hk⟩
        · exact Or.inl h
    · simp only [node_size, Node.data, List.length_take]
      omega
    · simp only [node_size, Node.data, List.length_take, List.length_drop]
      omega
    · simpa [minimum] using hm

/-- C16 for `N = 1` and the keys 5, 3, 8. -/
theorem C16_root_split_witness :
    ∃ (s : ADS_set Nat) (D : List Nat) (l r : Node Nat) (m : Nat),
      ADS_set.ofList 1 [5, 3, 8] = some s ∧ D.Sorted (· < ·) ∧
      (∀ k, k ∈ D ↔ k ∈ [5, 3, 8]) ∧
      s.root.leaf = false ∧ s.root.data = [m] ∧ s.root.children = [l, r] ∧
      l.leaf = true ∧ r.leaf = true ∧ l.data = D.take (1 + 1) ∧ r.data = D.drop (1 + 1) ∧
      l.node_size = 1 + 1 ∧ r.node_size = 1 ∧
      r.minimum = some m ∧ r.data.head? = some m ∧ l.next = some r.addr ∧ r.next = none :=
  (C16_root_split 1 (le_refl 1) [5, 3, 8] (by decide) rfl).2.1

end ADS

namespace ADS

open Node

variable {K : Type}

/-! ## What `erase_node` returns, case by case -/

namespace Node

theorem erase_node_none (N r a : Nat) (lf : Bool) (d : List K) (ch : List (Node K))
    (nx : Option Nat) (c1 : Node K) :
    erase_node N r c1 false (.mk a lf d ch nx) = some (.mk a lf d (ch.set r c1) nx, false) := by
  simp [erase_node]

theorem erase_node_full_first (N a : Nat) (lf : Bool) (d : List K) (ch : List (Node K))
    (nx : Option Nat) (c1 : Node K)
    (hkn : (ch.set 0 c1).findIdx (fun x => x.addr == c1.addr) = 0)
    (hfull : N ≤ c1.node_size) :
    erase_node N 0 c1 true (.mk a lf d ch nx) = some (.mk a lf d (ch.set 0 c1) nx, true) := by
  simp only [erase_node, hkn, order_half]
  simp only [if_true, if_false, gt_iff_lt, ge_iff_le, hfull, Bool.true_eq_false,
    Nat.not_lt_zero]

theorem erase_node_full_later (N r a : Nat) (lf : Bool) (d : List K) (ch : List (Node K))
    (nx : Option Nat) (c1 : Node K) (m : K)
    (hkn : (ch.set r c1).findIdx (fun x => x.addr == c1.addr) = r)
    (hr : 0 < r) (hrle : r ≤ d.length) (hfull : N ≤ c1.node_size) (hmin : c1.minimum = some m) :
    erase_node N r c1 true (.mk a lf d ch nx) =
      some (.mk a lf (d.set (r - 1) m) (ch.set r c1) nx, false) := by
  have hngt : ¬ (d.length < r) := by omega
  have hr0 : ¬ (r = 0) := by omega
  simp only [erase_node, hkn, order_half]
  simp only [if_true, if_false, gt_iff_lt, ge_iff_le, hfull, Bool.true_eq_false, hngt,
    if_neg hr0, hmin]

theorem erase_node_merge_last (N a : Nat) (lf : Bool) (d : List K) (Pre : List (Node K))
    (nx : Option Nat) (L0 c c1 M : Node K) (hdl : d.length = Pre.length + 1)
    (hkn : (Pre ++ [L0, c1]).findIdx (fun x => x.addr == c1.addr) = Pre.length + 1)
    (hunder : c1.node_size < N) (hfit : L0.node_size + c1.node_size < order N)
    (hM1 : merge L0 c1 = some M) :
    erase_node N (Pre.length + 1) c1 true (.mk a lf d (Pre ++ [L0, c]) nx) =
      some (.mk a lf d.dropLast (Pre ++ [M]) nx, decide (¬ (Pre.length ≥ N))) := by
  have hmg : (Pre ++ [L0, c]).set (Pre.length + 1) c1 = Pre ++ [L0, c1] := by simp
  have hget : (Pre ++ [L0, c1])[Pre.length]? = some L0 := getElem?_append_length Pre [c1] L0
  simp only [erase_node, hdl, hmg, hkn, order_half]
  simp only [Nat.add_sub_cancel, hget, hfit, hM1, if_true, if_false, gt_iff_lt,
    lt_self_iff_false, ge_iff_le, Nat.not_le.2 hunder, Nat.add_one_ne_zero,
    Bool.true_eq_false]
  simp

theorem erase_node_move_last (N a : Nat) (lf : Bool) (d : List K) (Pre : List (Node K))
    (nx : Option Nat) (L0 c c1 A1 B1 : Node K) (m : K) (hdl : d.length = Pre.length + 1)
    (hkn : (Pre ++ [L0, c1]).findIdx (fun x => x.addr == c1.addr) = Pre.length + 1)
    (hunder : c1.node_size < N) (hfit : ¬ L0.node_size + c1.node_size < order N)
    (hms : merge_and_split N L0 c1 = some (A1, B1)) (hmin : B1.minimum = some m) :
    erase_node N (Pre.length + 1) c1 true (.mk a lf d (Pre ++ [L0, c]) nx) =
      some (.mk a lf (d.set Pre.length m) (Pre ++ [A1, B1]) nx, false) := by
  have hmg : (Pre ++ [L0, c]).set (Pre.length + 1) c1 = Pre ++ [L0, c1] := by simp
  have hget : (Pre ++ [L0, c1])[Pre.length]? = some L0 := getElem?_append_length Pre [c1] L0
  simp only [erase_node, hdl, hmg, hkn, order_half]
  simp only [Nat.add_sub_cancel, hget, hfit, hms, hmin, if_true, if_false, gt_iff_lt,
    lt_self_iff_false, ge_iff_le, Nat.not_le.2 hunder, Nat.add_one_ne_zero,
    Bool.true_eq_false]
  simp

theorem erase_node_merge_first (N a : Nat) (lf : Bool) (d : List K) (Pre Suf : List (Node K))
    (nx : Option Nat) (R0 c c1 M : Node K) (hrd : Pre.length < d.length)
    (hP0 : Pre.length = 0)
    (hkn : (Pre ++ c1 :: R0 :: Suf).findIdx (fun x => x.addr == c1.addr) = Pre.length)
    (hunder : c1.node_size < N) (hfit : R0.node_size + c1.node_size < order N)
    (hM1 : merge c1 R0 = some M) :
    erase_node N Pre.length c1 true (.mk a lf d (Pre ++ c :: R0 :: Suf) nx) =
      some (.mk a lf (d.eraseIdx Pre.length) (Pre ++ M :: Suf) nx, true) := by
  have hmg : (Pre ++ c :: R0 :: Suf).set Pre.length c1 = Pre ++ c1 :: R0 :: Suf := by simp
  have hget : (Pre ++ c1 :: R0 :: Suf)[Pre.length + 1]? = some R0 :=
    getElem?_append_length_succ Pre Suf c1 R0
  have hneq : ¬ (Pre.length = d.length) := by omega
  have hngt : ¬ (d.length < Pre.length) := by omega
  have hnz : ¬ (d.length = 0) := by omega
  have hset2 : ((Pre ++ c1 :: R0 :: Suf).set Pre.length M).eraseIdx (Pre.length + 1) =
      Pre ++ M :: Suf := by
    simp [List.eraseIdx_append_of_length_le]
  simp only [erase_node, hmg, hkn, order_half]
  have hnpos : ¬ (0 < Pre.length) := by omega
  simp only [hget, hfit, hM1, if_true, if_false, gt_iff_lt, ge_iff_le,
    Nat.not_le.2 hunder, Bool.true_eq_false, hset2, hneq, hngt, hnz, hnpos]

theorem erase_node_merge_later (N a : Nat) (lf : Bool) (d : List K) (Pre Suf : List (Node K))
    (nx : Option Nat) (R0 c c1 M : Node K) (m : K) (hrd : Pre.length < d.length)
    (hPpos : 0 < Pre.length)
    (hkn : (Pre ++ c1 :: R0 :: Suf).findIdx (fun x => x.addr == c1.addr) = Pre.length)
    (hunder : c1.node_size < N) (hfit : R0.node_size + c1.node_size < order N)
    (hM1 : merge c1 R0 = some M) (hmin : M.minimum = some m) :
    erase_node N Pre.length c1 true (.mk a lf d (Pre ++ c :: R0 :: Suf) nx) =
      some (.mk a lf ((d.eraseIdx Pre.length).set (Pre.length - 1) m) (Pre ++ M :: Suf) nx,
        decide (d.length - 1 < N)) := by
  have hmg : (Pre ++ c :: R0 :: Suf).set Pre.length c1 = Pre ++ c1 :: R0 :: Suf := by simp
  have hget : (Pre ++ c1 :: R0 :: Suf)[Pre.length + 1]? = some R0 :=
    getElem?_append_length_succ Pre Suf c1 R0
  have hneq : ¬ (Pre.length = d.length) := by omega
  have hngt : ¬ (d.length < Pre.length) := by omega
  have hnz : ¬ (d.length = 0) := by omega
  have hP0 : ¬ (Pre.length = 0) := by omega
  have hset2 : ((Pre ++ c1 :: R0 :: Suf).set Pre.length M).eraseIdx (Pre.length + 1) =
      Pre ++ M :: Suf := by
    simp [List.eraseIdx_append_of_length_le]
  simp only [erase_node, hmg, hkn, order_half]
  simp only [hget, hfit, hM1, hmin, if_true, if_false, gt_iff_lt, ge_iff_le,
    Nat.not_le.2 hunder, Bool.true_eq_false, hset2, hneq, hngt, hnz, hP0, hPpos]

theorem erase_node_move_first (N a : Nat) (lf : Bool) (d : List K) (Pre Suf : List (Node K))
    (nx : Option Nat) (R0 c c1 A1 B1 : Node K) (my : K) (hrd : Pre.length < d.length)
    (hP0 : Pre.length = 0)
    (hkn : (Pre ++ c1 :: R0 :: Suf).findIdx (fun x => x.addr == c1.addr) = Pre.length)
    (hunder : c1.node_size < N) (hfit : ¬ R0.node_size + c1.node_size < order N)
    (hms : merge_and_split N c1 R0 = some (A1, B1)) (hminy : B1.minimum = some my) :
    erase_node N Pre.length c1 true (.mk a lf d (Pre ++ c :: R0 :: Suf) nx) =
      some (.mk a lf (d.set 0 my) (Pre ++ A1 :: B1 :: Suf) nx, true) := by
  have hmg : (Pre ++ c :: R0 :: Suf).set Pre.length c1 = Pre ++ c1 :: R0 :: Suf := by simp
  have hget : (Pre ++ c1 :: R0 :: Suf)[Pre.length + 1]? = some R0 :=
    getElem?_append_length_succ Pre Suf c1 R0
  have hneq : ¬ (Pre.length = d.length) := by omega
  have hngt : ¬ (d.length < Pre.length) := by omega
  have hnz : ¬ (d.length = 0) := by omega
  have hset2 : ((Pre ++ c1 :: R0 :: Suf).set Pre.length A1).set (Pre.length + 1) B1 =
      Pre ++ A1 :: B1 :: Suf := by
    simp
  simp only [erase_node, hmg, hkn, order_half]
  simp only [hget, hfit, hms, hminy, if_true, if_false, gt_iff_lt, ge_iff_le,
    Nat.not_le.2 hunder, Bool.true_eq_false, hset2, hneq, hngt, hnz, if_pos hP0]

theorem erase_node_move_later (N a : Nat) (lf : Bool) (d : List K) (Pre Suf : List (Node K))
    (nx : Option Nat) (R0 c c1 A1 B1 : Node K) (mx my : K) (hrd : Pre.length < d.length)
    (hPpos : 0 < Pre.length)
    (hkn : (Pre ++ c1 :: R0 :: Suf).findIdx (fun x => x.addr == c1.addr) = Pre.length)
    (hunder : c1.node_size < N) (hfit : ¬ R0.node_size + c1.node_size < order N)
    (hms : merge_and_split N c1 R0 = some (A1, B1)) (hminx : A1.minimum = some mx)
    (hminy : B1.minimum = some my) :
    erase_node N Pre.length c1 true (.mk a lf d (Pre ++ c :: R0 :: Suf) nx) =
      some (.mk a lf ((d.set (Pre.length - 1) mx).set Pre.length my)
        (Pre ++ A1 :: B1 :: Suf) nx, false) := by
  have hmg : (Pre ++ c :: R0 :: Suf).set Pre.length c1 = Pre ++ c1 :: R0 :: Suf := by simp
  have hget : (Pre ++ c1 :: R0 :: Suf)[Pre.length + 1]? = some R0 :=
    getElem?_append_length_succ Pre Suf c1 R0
  have hneq : ¬ (Pre.length = d.length) := by omega
  have hngt : ¬ (d.length < Pre.length) := by omega
  have hnz : ¬ (d.length = 0) := by omega
  have hP0 : ¬ (Pre.length = 0) := by omega
  have hset2 : ((Pre ++ c1 :: R0 :: Suf).set Pre.length A1).set (Pre.length + 1) B1 =
      Pre ++ A1 :: B1 :: Suf := by
    simp
  simp only [erase_node, hmg, hkn, order_half]
  simp only [hget, hfit, hms, hminx, hminy, if_true, if_false, gt_iff_lt, ge_iff_le,
    Nat.not_le.2 hunder, Bool.true_eq_false, hset2, hneq, hngt, hnz, if_neg hP0]

end Node

end ADS

namespace ADS

open Node

variable {K : Type} [LinearOrder K]

/-! ## One step of `Node::erase` at an internal node -/

namespace Node

/-- One step of `Node::erase` at an internal node of a well-shaped tree, for a
key stored below it: the child `c` recursed into, what the recursive call left
(`c1`, `sig`), what the node becomes (`t1`, `sig1`), and which branch of
`erase_node` was taken. In the branches for an underfull child, `left` and
`right` are the child and its chosen sibling, in the order of the children. -/
theorem erase_step {N h a : Nat} {d : List K} {ch : List (Node K)} {nx : Option Nat}
    (hN : 1 ≤ N) (key : K)
    (hwf : WF N (h + 1) (.mk a false d ch nx)) (hd1 : 1 ≤ d.length)
    (hs : (keys (.mk a false d ch nx)).Sorted (· < ·))
    (hk : key ∈ keys (.mk a false d ch nx))
    (hnd : (addrs (.mk a false d ch nx)).Nodup) :
    ∃ r c c1 sig t1 sig1, r = erase_loop key false d 0 ∧ r ≤ d.length ∧
      ch[r]? = some c ∧ WF N h c ∧ N ≤ c.node_size ∧ c.node_size ≤ 2 * N ∧
      erase N key c = some (c1, sig) ∧ ErasePost N h key c c1 sig ∧
      erase N key (.mk a false d ch nx) = some (t1, sig1) ∧
      ErasePost N (h + 1) key (.mk a false d ch nx) t1 sig1 ∧
      ((sig = false ∧ t1 = .mk a false d (ch.set r c1) nx ∧ sig1 = false) ∨
       (sig = true ∧ N ≤ c1.node_size ∧ r = 0 ∧
          t1 = .mk a false d (ch.set r c1) nx ∧ sig1 = true) ∨
       (sig = true ∧ N ≤ c1.node_size ∧ 0 < r ∧ ∃ m, c1.minimum = some m ∧
          t1 = .mk a false (d.set (r - 1) m) (ch.set r c1) nx ∧ sig1 = false) ∨
       (sig = true ∧ c1.node_size < N ∧ ∃ left right Pre Suf,
          ch.set r c1 = Pre ++ left :: right :: Suf ∧
          (r = d.length ∧ Pre.length + 1 = r ∧ right = c1 ∧ Suf = [] ∧
              ch = Pre ++ [left, c] ∨
            r < d.length ∧ Pre.length = r ∧ left = c1 ∧ ch = Pre ++ c :: right :: Suf) ∧
          WF N h left ∧ WF N h right ∧
          ((left.node_size + right.node_size < order N ∧ ∃ M, merge left right = some M ∧
              t1.children = Pre ++ M :: Suf ∧ t1.node_size + 1 = d.length ∧
              (sig1 = true ↔ r = 0 ∨ d.length - 1 < N)) ∨
           (¬ left.node_size + right.node_size < order N ∧
              ∃ A1 B1, merge_and_split N left right = some (A1, B1) ∧
              t1.children = Pre ++ A1 :: B1 :: Suf ∧ t1.node_size = d.length ∧
              (sig1 = true ↔ r = 0))))) := by
  obtain ⟨h1, h2, h3, h4⟩ := (WF_node_mk ..).1 hwf
  obtain ⟨c, hc, hcwf, hcsz, hcs, hlo, hhi, _⟩ := descend hwf hs key
  have hkc : key ∈ keys c := (mem_keys_child hwf hs key c hc).1 hk
  have hcmem : c ∈ ch := List.mem_iff_getElem?.2 ⟨_, hc⟩
  have hcnd : (addrs c).Nodup := hnd.sublist (addrs_child_sublist a false d ch nx c hcmem)
  obtain ⟨c1, sig, hec, hpost⟩ :=
    erase_spec hN key h c hcwf (fun _ => le_trans hN hcsz.1) hcs hkc hcnd
  obtain ⟨t1, sig1, hev, hpost1⟩ := erase_node_spec hN key hwf hd1 hnd
    (rankLe key d) c c1 sig hc hlo hhi hpost
  have hr : erase_loop key false d 0 = rankLe key d := by
    rw [erase_loop_node]
    simp
  have hee : erase N key (.mk a false d ch nx) = some (t1, sig1) := by
    rw [erase, erase_loop_node]
    simp only [Nat.zero_add, Bool.false_eq_true, if_false]
    rw [erase_child_eq, hc]
    simp only [hec]
    exact hev
  have hrlt : rankLe key d < ch.length := lt_of_getElem?_some hc
  refine ⟨rankLe key d, c, c1, sig, t1, sig1, hr.symm, by omega, hc, hcwf, hcsz.1, hcsz.2, hec,
    hpost, hee, hpost1, ?_⟩
  clear hee hr hlo hhi hpost1
  generalize rankLe key d = r at hc hev hrlt
  obtain ⟨hp1, hp2, hp3, hp4, hp5, hp6, hp7, hp8⟩ := hpost
  have hchnd : (ch.map addr).Nodup := by
    rw [addrs_mk] at hnd
    exact (List.nodup_cons.1 hnd).2.sublist (map_addr_sublist ch)
  have hkn := key_number_eq ch r c c1 hchnd hc hp1
  cases sig with
  | false =>
    left
    rw [erase_node_none] at hev
    simp only [Option.some.injEq, Prod.mk.injEq] at hev
    exact ⟨rfl, hev.1.symm, hev.2.symm⟩
  | true =>
    right
    by_cases hfull : N ≤ c1.node_size
    · by_cases hr0 : r = 0
      · left
        subst hr0
        rw [erase_node_full_first N a false d ch nx c1 hkn hfull] at hev
        simp only [Option.some.injEq, Prod.mk.injEq] at hev
        exact ⟨rfl, hfull, rfl, hev.1.symm, hev.2.symm⟩
      · right; left
        obtain ⟨m, hm⟩ := headKey_some_of_ne_nil c1 (WF.keys_ne_nil hN h c1 hp2 hfull)
        have hmin : c1.minimum = some m := by rw [WF.minimum_eq hN _ _ hp2, hm]
        rw [erase_node_full_later N r a false d ch nx c1 m hkn (by omega) (by omega) hfull
          hmin] at hev
        simp only [Option.some.injEq, Prod.mk.injEq] at hev
        exact ⟨rfl, hfull, by omega, m, hmin, hev.1.symm, hev.2.symm⟩
    · right; right
      have hunder : c1.node_size < N := by omega
      refine ⟨rfl, hunder, ?_⟩
      by_cases hlast : r = d.length
      · subst hlast
        have hL0lt : d.length - 1 < ch.length := by omega
        obtain ⟨L0, hL0⟩ : ∃ L0, ch[d.length - 1]? = some L0 :=
          ⟨ch[d.length - 1], List.getElem?_eq_getElem hL0lt⟩
        have hsp := split_pair ch (d.length - 1) L0 c hL0 (by
          have : d.length - 1 + 1 = d.length := by omega
          rw [this]; exact hc)
        have hdrop : ch.drop (d.length - 1 + 2) = [] := List.drop_eq_nil_of_le (by omega)
        rw [hdrop] at hsp
        generalize hPre : ch.take (d.length - 1) = Pre at hsp
        have hPl : Pre.length = d.length - 1 := by
          rw [← hPre, List.length_take]; omega
        have hdl : d.length = Pre.length + 1 := by omega
        subst hsp
        have hL0b := h3 L0 (by simp)
        have hmg : (Pre ++ [L0, c]).set (Pre.length + 1) c1 = Pre ++ [L0, c1] := by simp
        simp only [hdl] at hkn hev ⊢
        rw [hmg] at hkn
        refine ⟨L0, c1, Pre, [], hmg, Or.inl ?_, hL0b.1, hp2, ?_⟩
        · exact ⟨trivial, rfl, rfl, rfl, rfl⟩
        · by_cases hfit : L0.node_size + c1.node_size < order N
          · left
            obtain ⟨M, hM1, _⟩ := merge_spec hN h L0 c1 hL0b.1 hp2
            rw [erase_node_merge_last N a false d Pre nx L0 c c1 M hdl hkn hunder hfit hM1]
              at hev
            simp only [Option.some.injEq, Prod.mk.injEq] at hev
            refine ⟨hfit, M, hM1, by rw [← hev.1]; rfl, ?_, ?_⟩
            · rw [← hev.1]
              simp only [node_size, Node.data, List.length_dropLast]
              omega
            · rw [← hev.2]
              simp only [decide_eq_true_eq, Nat.add_sub_cancel]
              omega
          · right
            have hL0big : N + 1 ≤ L0.node_size := by
              unfold order at hfit; omega
            obtain ⟨A1, B1, hm0, _, _, _, hm4, _, hm6, _⟩ :=
              move_into_right_spec hN h L0 c1 hL0b.1 hp2 (by omega)
            have hB1ne : keys B1 ≠ [] := WF.keys_ne_nil hN h B1 hm4 (by omega)
            obtain ⟨m, hm⟩ := headKey_some_of_ne_nil B1 hB1ne
            have hmin : B1.minimum = some m := by rw [WF.minimum_eq hN _ _ hm4, hm]
            have hms : merge_and_split N L0 c1 = some (A1, B1) := by
              rw [merge_and_split, order_half, if_neg (by omega), hm0]
            rw [erase_node_move_last N a false d Pre nx L0 c c1 A1 B1 m hdl hkn hunder hfit
              hms hmin] at hev
            simp only [Option.some.injEq, Prod.mk.injEq] at hev
            refine ⟨hfit, A1, B1, hms, by rw [← hev.1]; rfl, ?_, ?_⟩
            · rw [← hev.1]
              simp only [node_size, Node.data, List.length_set]
              omega
            · rw [← hev.2]
              simp
      · have hrd : r < d.length := by omega
        have hR0lt : r + 1 < ch.length := by omega
        obtain ⟨R0, hR0⟩ : ∃ R0, ch[r + 1]? = some R0 :=
          ⟨ch[r + 1], List.getElem?_eq_getElem hR0lt⟩
        have hsp := split_pair ch r c R0 hc hR0
        generalize hPre : ch.take r = Pre at hsp
        generalize hSuf : ch.drop (r + 2) = Suf at hsp
        have hPl : Pre.length = r := by
          rw [← hPre, List.length_take]; omega
        subst hPl
        subst hsp
        have hR0b := h3 R0 (by simp)
        have hmg : (Pre ++ c :: R0 :: Suf).set Pre.length c1 = Pre ++ c1 :: R0 :: Suf := by
          simp
        rw [hmg] at hkn
        have hfitc : c1.node_size + R0.node_size = R0.node_size + c1.node_size :=
          Nat.add_comm _ _
        refine ⟨c1, R0, Pre, Suf, hmg, Or.inr ⟨hrd, rfl, rfl, rfl⟩, hp2, hR0b.1, ?_⟩
        rw [hfitc]
        by_cases hfit : R0.node_size + c1.node_size < order N
        · left
          obtain ⟨M, hM1, _, hM3, _, hM5, _⟩ := merge_spec hN h c1 R0 hp2 hR0b.1
          have hR0ne : keys R0 ≠ [] := WF.keys_ne_nil hN h R0 hR0b.1 hR0b.2.1
          have hMne : keys M ≠ [] := by rw [hM5]; simp [hR0ne]
          obtain ⟨m, hm⟩ := headKey_some_of_ne_nil M hMne
          have hmin : M.minimum = some m := by rw [WF.minimum_eq hN _ _ hM3, hm]
          by_cases hP0 : Pre.length = 0
          · rw [erase_node_merge_first N a false d Pre Suf nx R0 c c1 M hrd hP0 hkn hunder
              hfit hM1] at hev
            simp only [Option.some.injEq, Prod.mk.injEq] at hev
            refine ⟨hfit, M, hM1, by rw [← hev.1]; rfl, ?_, ?_⟩
            · rw [← hev.1]
              simp only [node_size, Node.data, List.length_eraseIdx, if_pos hrd]
              omega
            · rw [← hev.2]
              simp [hP0]
          · rw [erase_node_merge_later N a false d Pre Suf nx R0 c c1 M m hrd (by omega) hkn
              hunder hfit hM1 hmin] at hev
            simp only [Option.some.injEq, Prod.mk.injEq] at hev
            refine ⟨hfit, M, hM1, by rw [← hev.1]; rfl, ?_, ?_⟩
            · rw [← hev.1]
              simp only [node_size, Node.data, List.length_set, List.length_eraseIdx,
                if_pos hrd]
              omega
            · rw [← hev.2]
              simp [hP0]
        · right
          have hR0big : N + 1 ≤ R0.node_size := by
            unfold order at hfit; omega
          obtain ⟨A1, B1, hm0, _, _, hm3, hm4, hm5, hm6, _⟩ :=
            move_into_left_spec hN h c1 R0 hp2 hR0b.1 (by omega)
          have hA1ne : keys A1 ≠ [] := WF.keys_ne_nil hN h A1 hm3 (by omega)
          have hB1ne : keys B1 ≠ [] := WF.keys_ne_nil hN h B1 hm4 (by omega)
          obtain ⟨mx, hmx⟩ := headKey_some_of_ne_nil A1 hA1ne
          obtain ⟨my, hmy⟩ := headKey_some_of_ne_nil B1 hB1ne
          have hminx : A1.minimum = some mx := by rw [WF.minimum_eq hN _ _ hm3, hmx]
          have hminy : B1.minimum = some my := by rw [WF.minimum_eq hN _ _ hm4, hmy]
          have hms : merge_and_split N c1 R0 = some (A1, B1) := by
            rw [merge_and_split, order_half, if_pos hunder, hm0]
          by_cases hP0 : Pre.length = 0
          · rw [erase_node_move_first N a false d Pre Suf nx R0 c c1 A1 B1 my hrd hP0 hkn
              hunder hfit hms hminy] at hev
            simp only [Option.some.injEq, Prod.mk.injEq] at hev
            refine ⟨hfit, A1, B1, hms, by rw [← hev.1]; rfl, ?_, ?_⟩
            · rw [← hev.1]
              simp only [node_size, Node.data, List.length_set]
            · rw [← hev.2]
              simp [hP0]
          · rw [erase_node_move_later N a false d Pre Suf nx R0 c c1 A1 B1 mx my hrd
              (by omega) hkn hunder hfit hms hminx hminy] at hev
            simp only [Option.some.injEq, Prod.mk.injEq] at hev
            refine ⟨hfit, A1, B1, hms, by rw [← hev.1]; rfl, ?_, ?_⟩
            · rw [← hev.1]
              simp only [node_size, Node.data, List.length_set]
            · rw [← hev.2]
              simp [hP0]

/-- Every node of a tree that satisfies the invariant is itself well-shaped,
holds ascending keys and distinct addresses, and is not an empty internal
node. -/
theorem nodes_good {N : Nat} (hN : 1 ≤ N) :
    ∀ (h : Nat) (t : Node K), WF N h t → (1 ≤ h → 1 ≤ t.node_size) →
      (keys t).Sorted (· < ·) → (addrs t).Nodup →
      ∀ u ∈ nodes t, ∃ h1, WF N h1 u ∧ (1 ≤ h1 → 1 ≤ u.node_size) ∧
        (keys u).Sorted (· < ·) ∧ (addrs u).Nodup := by
  intro h
  induction h with
  | zero =>
    intro t hwf hsz hs hnd u hu
    obtain ⟨a, lf, d, ch, nx⟩ := t
    obtain ⟨_, h4⟩ := (WF_leaf_mk ..).1 hwf
    subst h4
    rw [nodes_mk] at hu
    simp only [List.flatMap_nil, List.mem_singleton] at hu
    subst hu
    exact ⟨0, hwf, hsz, hs, hnd⟩
  | succ h ih =>
    intro t hwf hsz hs hnd u hu
    obtain ⟨a, lf, d, ch, nx⟩ := t
    obtain ⟨h1, _, h3, _⟩ := (WF_node_mk ..).1 hwf
    subst h1
    rw [nodes_mk] at hu
    rcases List.mem_cons.1 hu with hu1 | hu1
    · subst hu1
      exact ⟨h + 1, hwf, hsz, hs, hnd⟩
    · rw [List.mem_flatMap] at hu1
      obtain ⟨c, hc, huc⟩ := hu1
      obtain ⟨i, hi⟩ := List.mem_iff_getElem?.1 hc
      have hcs : (keys c).Sorted (· < ·) := by
        rw [keys_split a d ch nx i c hi] at hs
        exact (List.pairwise_append.1 (List.pairwise_append.1 hs).2.1).1
      have hcnd : (addrs c).Nodup := hnd.sublist (addrs_child_sublist a false d ch nx c hc)
      exact ih c (h3 c hc).1 (fun _ => le_trans hN (h3 c hc).2.1) hcs hcnd u huc

/-- An internal node of a tree that satisfies the invariant. -/
theorem internal_good {N : Nat} (hN : 1 ≤ N) (s : ADS_set K) (hinv : ADS_set.Inv N s)
    (t : Node K) (ht : t ∈ nodes s.root) (hlf : t.leaf = false) :
    ∃ h, WF N (h + 1) t ∧ 1 ≤ t.node_size ∧ (keys t).Sorted (· < ·) ∧ (addrs t).Nodup := by
  obtain ⟨h, hwf, _, hroot, hs, _, _, hnd, _⟩ := hinv
  obtain ⟨h1, q1, q2, q3, q4⟩ := nodes_good hN h s.root hwf hroot hs hnd t ht
  cases h1 with
  | zero =>
    obtain ⟨a, lf, d, ch, nx⟩ := t
    obtain ⟨e, _⟩ := (WF_leaf_mk ..).1 q1
    simp only [Node.leaf] at hlf
    rw [hlf] at e
    cases e
  | succ h1 => exact ⟨h1, q1, q2 (by omega), q3, q4⟩

end Node

end ADS

namespace ADS

open Node

variable {K : Type} [LinearOrder K]

/-! ## The properties of rebalancing after `erase` -/

/-- C17, as first stated, fails on `sample` (`N = 1`, root with the key 8 over
the leaves 3, 5 and 8): `Node::erase(3)` at the root recurses into the first
leaf, which still holds one key (at least `N`) after the call, and the root is
left with one key (not fewer than `N`), yet the root returns `this`. -/
theorem C17_signal_counterexample :
    ADS_set.Reachable 1 ADS_set.sample ∧ ADS_set.sample.root.leaf = false ∧
    ADS_set.sample.root.children[erase_loop 3 false ADS_set.sample.root.data 0]? =
      some (.mk 0 true [3, 5] [] (some 1)) ∧
    erase 1 3 (.mk 0 true [3, 5] [] (some 1)) = some (.mk 0 true [5] [] (some 1), true) ∧
    1 ≤ (Node.mk 0 true [5] [] (some 1)).node_size ∧
    erase 1 3 ADS_set.sample.root =
      some (.mk 2 false [8] [.mk 0 true [5] [] (some 1), .mk 1 true [8] [] none] none, true) ∧
    ¬ (Node.mk 2 false [8] [.mk 0 true [5] [] (some 1), .mk 1 true [8] [] none] none).node_size
        < 1 :=
  ⟨ADS_set.sample_reachable, rfl, rfl, rfl, by decide, rfl, by decide⟩

/-- C17 (amended): at an internal node of a reachable tree (`N ≥ 1`), for a key
stored below it, `Node::erase` returns null whenever the recursive call on the
child returned null. When that child still holds at least `N` keys after the
call, the node keeps its number of keys and, if the call returned the child,
returns `this` with its keys untouched when the child is `children[0]`, and
otherwise sets the separator for the child to the child's new minimum and
returns null. In general it returns `this` exactly when the recursive call
returned the child and either the child is `children[0]` or the node has lost a
key and is left with fewer than `N` keys. -/
theorem C17_erase_signal (N : Nat) (hN : 1 ≤ N) (s : ADS_set K)
    (hr : ADS_set.Reachable N s) (t : Node K) (ht : t ∈ nodes s.root) (hlf : t.leaf = false)
    (key : K) (hk : key ∈ keys t) :
    ∃ r c c1 sig t1 sig1, r = erase_loop key false t.data 0 ∧ t.children[r]? = some c ∧
      erase N key c = some (c1, sig) ∧ erase N key t = some (t1, sig1) ∧
      (sig = false → sig1 = false) ∧
      (N ≤ c1.node_size → t1.node_size = t.node_size ∧ t1.children = t.children.set r c1 ∧
        (sig = true → r = 0 → sig1 = true ∧ t1.data = t.data) ∧
        (sig = true → 0 < r → sig1 = false ∧
          ∃ m, c1.minimum = some m ∧ t1.data = t.data.set (r - 1) m)) ∧
      (sig1 = true ↔
        sig = true ∧ (r = 0 ∨ (t1.node_size < t.node_size ∧ t1.node_size < N))) ∧
      (N ≤ t.node_size → (sig1 = true ↔ sig = true ∧ (r = 0 ∨ t1.node_size < N))) := by
  have hinv := ADS_set.inv_of_reachable hN s hr
  obtain ⟨h, hwf, hsz, hs, hnd⟩ := internal_good hN s hinv t ht hlf
  obtain ⟨a, lf, d, ch, nx⟩ := t
  simp only [Node.leaf] at hlf
  subst hlf
  obtain ⟨r, c, c1, sig, t1, sig1, hr1, hrle, hc, _, _, _, hec, _, hee, hpost, hshape⟩ :=
    erase_step hN key hwf hsz hs hk hnd
  have hle : t1.node_size ≤ d.length := hpost.2.2.1
  have hmain : (N ≤ c1.node_size → t1.node_size = d.length ∧ t1.children = ch.set r c1 ∧
        (sig = true → r = 0 → sig1 = true ∧ t1.data = d) ∧
        (sig = true → 0 < r → sig1 = false ∧
          ∃ m, c1.minimum = some m ∧ t1.data = d.set (r - 1) m)) ∧
      (sig1 = true ↔
        sig = true ∧ (r = 0 ∨ (t1.node_size < d.length ∧ t1.node_size < N))) := by
    rcases hshape with ⟨h1, h2, h3⟩ | ⟨h1, h2, h3, h4, h5⟩ | ⟨h1, h2, h3, m, h4, h5, h6⟩ |
      ⟨h1, h2, left, right, Pre, Suf, _, _, _, _, h3⟩
    · subst h1; subst h2; subst h3
      refine ⟨fun _ => ⟨rfl, rfl, ?_, ?_⟩, ?_⟩
      · intro hc
        cases hc
      · intro hc
        cases hc
      · simp
    · subst h1; subst h3; subst h4; subst h5
      refine ⟨fun _ => ⟨rfl, rfl, fun _ _ => ⟨rfl, rfl⟩, ?_⟩, ?_⟩
      · intro _ hc
        omega
      · simp
    · subst h1; subst h5; subst h6
      refine ⟨fun _ => ⟨by simp [node_size, Node.data], rfl, ?_,
        fun _ _ => ⟨rfl, m, h4, rfl⟩⟩, ?_⟩
      · intro _ hc
        omega
      · simp only [node_size, Node.data, List.length_set, lt_self_iff_false, false_and,
          or_false, Bool.false_eq_true, true_and, false_iff]
        omega
    · subst h1
      refine ⟨?_, ?_⟩
      · intro hc
        omega
      rcases h3 with ⟨_, M, _, _, h4, h5⟩ | ⟨_, A1, B1, _, _, h4, h5⟩
      · rw [h5]
        simp only [true_and]
        constructor
        · rintro (h | h)
          · exact Or.inl h
          · exact Or.inr ⟨by omega, by omega⟩
        · rintro (h | h)
          · exact Or.inl h
          · exact Or.inr (by omega)
      · rw [h5]
        simp only [true_and]
        constructor
        · intro h
          exact Or.inl h
        · rintro (h | h)
          · exact h
          · omega
  refine ⟨r, c, c1, sig, t1, sig1, hr1, hc, hec, hee, ?_, hmain.1, hmain.2, ?_⟩
  · intro hsig
    cases hs1 : sig1 with
    | false => rfl
    | true =>
      have := (hmain.2.1 hs1).1
      rw [hsig] at this
      cases this
  · intro hNt
    have hNt2 : N ≤ d.length := hNt
    rw [hmain.2]
    constructor
    · rintro ⟨h1, h2 | h2⟩
      · exact ⟨h1, Or.inl h2⟩
      · exact ⟨h1, Or.inr h2.2⟩
    · rintro ⟨h1, h2 | h2⟩
      · exact ⟨h1, Or.inl h2⟩
      · exact ⟨h1, Or.inr ⟨by omega, h2⟩⟩

theorem C17_erase_signal_witness :
    ∃ r c c1 sig t1 sig1, r = erase_loop 3 false ADS_set.sample.root.data 0 ∧
      ADS_set.sample.root.children[r]? = some c ∧
      erase 1 3 c = some (c1, sig) ∧ erase 1 3 ADS_set.sample.root = some (t1, sig1) ∧
      (sig = false → sig1 = false) ∧
      (1 ≤ c1.node_size → t1.node_size = ADS_set.sample.root.node_size ∧
        t1.children = ADS_set.sample.root.children.set r c1 ∧
        (sig = true → r = 0 → sig1 = true ∧ t1.data = ADS_set.sample.root.data) ∧
        (sig = true → 0 < r → sig1 = false ∧
          ∃ m, c1.minimum = some m ∧ t1.data = ADS_set.sample.root.data.set (r - 1) m)) ∧
      (sig1 = true ↔ sig = true ∧
        (r = 0 ∨ (t1.node_size < ADS_set.sample.root.node_size ∧ t1.node_size < 1))) ∧
      (1 ≤ ADS_set.sample.root.node_size →
        (sig1 = true ↔ sig = true ∧ (r = 0 ∨ t1.node_size < 1))) :=
  C17_erase_signal 1 (le_refl 1) ADS_set.sample ADS_set.sample_reachable ADS_set.sample.root
    (by rw [ADS_set.sample, nodes_mk]; exact List.mem_cons_self _ _) rfl 3 (by decide)

omit [LinearOrder K] in
/-- What `merge` stores in the left node. -/
theorem merge_data (left right M : Node K) (hM : merge left right = some M) :
    M.addr = left.addr ∧ M.leaf = left.leaf ∧ M.next = right.next ∧
    (M.leaf = true → M.data = left.data ++ right.data) ∧
    (M.leaf = false → ∃ m, right.minimum = some m ∧ M.data = left.data ++ m :: right.data ∧
      M.children = left.children ++ right.children) := by
  obtain ⟨la, llf, ld, lch, lnx⟩ := left
  obtain ⟨ra, rlf, rd, rch, rnx⟩ := right
  cases llf with
  | true =>
    simp only [merge, if_true, Option.some.injEq] at hM
    subst hM
    refine ⟨rfl, rfl, rfl, fun _ => rfl, ?_⟩
    intro hc
    cases hc
  | false =>
    simp only [merge, Bool.false_eq_true, if_false] at hM
    cases hm : (Node.mk ra rlf rd rch rnx).minimum with
    | none => rw [hm] at hM; cases hM
    | some m =>
      rw [hm] at hM
      simp only [Option.some.injEq] at hM
      subst hM
      refine ⟨rfl, rfl, rfl, ?_, fun _ => ⟨m, rfl, rfl, rfl⟩⟩
      intro hc
      cases hc

/-- The keys stored in a node of a well-shaped tree with ascending keys are
ascending. -/
theorem data_sorted {N : Nat} (h : Nat) (t : Node K) (hwf : WF N h t)
    (hs : (keys t).Sorted (· < ·)) : t.data.Sorted (· < ·) := by
  obtain ⟨a, lf, d, ch, nx⟩ := t
  cases h with
  | zero =>
    obtain ⟨h1, h2⟩ := (WF_leaf_mk ..).1 hwf
    subst h1; subst h2
    rw [keys_leaf] at hs
    exact hs
  | succ h =>
    obtain ⟨h1, _⟩ := (WF_node_mk ..).1 hwf
    subst h1
    exact (Node.separators hwf hs).1

/-- The keys below a child of an internal node with ascending keys are
ascending. -/
theorem child_keys_sorted (t c : Node K) (hlf : t.leaf = false) (hc : c ∈ t.children)
    (hs : (keys t).Sorted (· < ·)) : (keys c).Sorted (· < ·) := by
  obtain ⟨a, lf, d, ch, nx⟩ := t
  simp only [Node.leaf] at hlf
  subst hlf
  obtain ⟨i, hi⟩ := List.mem_iff_getElem?.1 hc
  rw [keys_split a d ch nx i c hi] at hs
  exact (List.pairwise_append.1 (List.pairwise_append.1 hs).2.1).1

end ADS

namespace ADS

open Node

variable {K : Type} [LinearOrder K]

/-- C18: in `Node::erase` at an internal node of a reachable tree (`N ≥ 1`),
when the child recursed into is left with fewer than `N` keys, the sibling
chosen is the left neighbour if the child is the rightmost child and the right
neighbour otherwise; if `sibling.node_size + child.node_size < order`, the two
are merged into the left one of the pair (`left`, `right`), which then holds
all keys of both in ascending order (for internal nodes with the right node's
subtree minimum between them as separator, and all children of both in order)
and at most `order` keys, and the parent loses exactly one key and one child
slot: the two slots of the pair become the one slot of the merged node. -/
theorem C18_merge_on_underflow (N : Nat) (hN : 1 ≤ N) (s : ADS_set K)
    (hr : ADS_set.Reachable N s) (t : Node K) (ht : t ∈ nodes s.root) (hlf : t.leaf = false)
    (key : K) (hk : key ∈ keys t) :
    ∃ r c c1 sig t1 sig1, r = erase_loop key false t.data 0 ∧ t.children[r]? = some c ∧
      erase N key c = some (c1, sig) ∧ erase N key t = some (t1, sig1) ∧
      (c1.node_size < N → ∃ sibling left right Pre Suf,
        (r = t.node_size → left = sibling ∧ right = c1 ∧
          t.children = Pre ++ [sibling, c] ∧ Suf = []) ∧
        (r ≠ t.node_size → left = c1 ∧ right = sibling ∧
          t.children = Pre ++ c :: sibling :: Suf ∧ Pre.length = r) ∧
        (sibling.node_size + c1.node_size < order N →
          ∃ M, merge left right = some M ∧ t1.children = Pre ++ M :: Suf ∧
            M.addr = left.addr ∧ M.leaf = left.leaf ∧
            (M.leaf = true → M.data = left.data ++ right.data) ∧
            (M.leaf = false → ∃ m, right.minimum = some m ∧
              M.data = left.data ++ m :: right.data ∧
              M.children = left.children ++ right.children) ∧
            M.data.Sorted (· < ·) ∧ keys M = keys left ++ keys right ∧
            M.node_size ≤ order N ∧
            t1.node_size + 1 = t.node_size ∧
            t1.children.length + 1 = t.children.length)) := by
  have hinv := ADS_set.inv_of_reachable hN s hr
  obtain ⟨h, hwf, hsz, hs, hnd⟩ := internal_good hN s hinv t ht hlf
  obtain ⟨a, lf, d, ch, nx⟩ := t
  simp only [Node.leaf] at hlf
  subst hlf
  obtain ⟨r, c, c1, sig, t1, sig1, hr1, hrle, hc, hcwf, hcN, _, hec, hpostc, hee, hpost,
    hshape⟩ := erase_step hN key hwf hsz hs hk hnd
  refine ⟨r, c, c1, sig, t1, sig1, hr1, hc, hec, hee, ?_⟩
  intro hunder
  have hkeys1 : (keys t1).Sorted (· < ·) := by
    rw [hpost.2.2.2.2.1]
    exact hs.filter _
  have hwf1 : WF N (h + 1) t1 := hpost.2.1
  have ht1lf : t1.leaf = false := by
    rcases WF.shape (h + 1) t1 hwf1 with ⟨h0, _⟩ | ⟨_, h1, _⟩
    · omega
    · exact h1
  rcases hshape with ⟨h1, _⟩ | ⟨_, h2, _⟩ | ⟨_, h2, _⟩ |
    ⟨_, _, left, right, Pre, Suf, hset, hpos, hwl, hwr, h3⟩
  · subst h1
    have := (hpostc.2.2.2.2.2.2.2 rfl).2 hcN
    omega
  · omega
  · omega
  · have hlen : ch.length = (Pre ++ left :: right :: Suf).length := by
      rw [← hset, List.length_set]
    have core : left.node_size + right.node_size < order N →
        ∃ M, merge left right = some M ∧ t1.children = Pre ++ M :: Suf ∧
          M.addr = left.addr ∧ M.leaf = left.leaf ∧
          (M.leaf = true → M.data = left.data ++ right.data) ∧
          (M.leaf = false → ∃ m, right.minimum = some m ∧
            M.data = left.data ++ m :: right.data ∧
            M.children = left.children ++ right.children) ∧
          M.data.Sorted (· < ·) ∧ keys M = keys left ++ keys right ∧
          M.node_size ≤ order N ∧
          t1.node_size + 1 = (Node.mk a false d ch nx).node_size ∧
          t1.children.length + 1 = (Node.mk a false d ch nx).children.length := by
      intro hfit
      rcases h3 with ⟨_, M, hM, hch1, hsz1, _⟩ | ⟨hnf, _⟩
      · obtain ⟨M2, hM2, _, hMwf, hMsz, hMk, _, _⟩ := merge_spec hN h left right hwl hwr
        rw [hM] at hM2
        cases hM2
        obtain ⟨q1, q2, _, q4, q5⟩ := merge_data left right M hM
        have hMmem : M ∈ t1.children := by rw [hch1]; simp
        have hMs := child_keys_sorted t1 M ht1lf hMmem hkeys1
        refine ⟨M, hM, hch1, q1, q2, q4, q5, data_sorted h M hMwf hMs, hMk, ?_, hsz1, ?_⟩
        · rw [hMsz]
          unfold order at hfit ⊢
          split <;> omega
        · show t1.children.length + 1 = ch.length
          rw [hch1, hlen]
          simp only [List.length_append, List.length_cons]
          omega
      · exact absurd hfit hnf
    rcases hpos with ⟨e1, _, e3, e4, e5⟩ | ⟨e1, e2, e3, e4⟩
    · refine ⟨left, left, right, Pre, Suf, fun _ => ⟨rfl, e3, e5, e4⟩,
        fun hne => absurd e1 hne, ?_⟩
      intro hfit
      apply core
      rw [e3]
      exact hfit
    · refine ⟨right, left, right, Pre, Suf, ?_, fun _ => ⟨e3, rfl, e4, e2⟩, ?_⟩
      · intro heq
        have heq2 : r = d.length := heq
        omega
      intro hfit
      apply core
      rw [e3]
      omega

theorem C18_merge_on_underflow_witness :
    ∃ r c c1 sig t1 sig1, r = erase_loop 5 false ADS_set.sample2.root.data 0 ∧
      ADS_set.sample2.root.children[r]? = some c ∧
      erase 1 5 c = some (c1, sig) ∧ erase 1 5 ADS_set.sample2.root = some (t1, sig1) ∧
      (c1.node_size < 1 → ∃ sibling left right Pre Suf,
        (r = ADS_set.sample2.root.node_size → left = sibling ∧ right = c1 ∧
          ADS_set.sample2.root.children = Pre ++ [sibling, c] ∧ Suf = []) ∧
        (r ≠ ADS_set.sample2.root.node_size → left = c1 ∧ right = sibling ∧
          ADS_set.sample2.root.children = Pre ++ c :: sibling :: Suf ∧ Pre.length = r) ∧
        (sibling.node_size + c1.node_size < order 1 →
          ∃ M, merge left right = some M ∧ t1.children = Pre ++ M :: Suf ∧
            M.addr = left.addr ∧ M.leaf = left.leaf ∧
            (M.leaf = true → M.data = left.data ++ right.data) ∧
            (M.leaf = false → ∃ m, right.minimum = some m ∧
              M.data = left.data ++ m :: right.data ∧
              M.children = left.children ++ right.children) ∧
            M.data.Sorted (· < ·) ∧ keys M = keys left ++ keys right ∧
            M.node_size ≤ order 1 ∧
            t1.node_size + 1 = ADS_set.sample2.root.node_size ∧
            t1.children.length + 1 = ADS_set.sample2.root.children.length)) :=
  C18_merge_on_underflow 1 (le_refl 1) ADS_set.sample2 ADS_set.sample2_reachable
    ADS_set.sample2.root (by rw [ADS_set.sample2, nodes_mk]; exact List.mem_cons_self _ _)
    rfl 5 (by decide)

end ADS

namespace ADS

open Node

variable {K : Type} [LinearOrder K]

/-- C20: in a reachable container (`N ≥ 1`), if `erase(k)` of a stored key
leaves the internal root (`root1`, as `Node::erase` returned it) with zero
keys, then its single remaining child becomes the new root, as it is, with its
keys, children and leaf links; otherwise the root stays. Consequently the root
of a reachable container is never an internal node with zero keys: an internal
root always has at least one key and two children. -/
theorem C20_root_collapse (N : Nat) (hN : 1 ≤ N) (s : ADS_set K)
    (hr : ADS_set.Reachable N s) :
    (s.root.leaf = false → 1 ≤ s.root.node_size ∧ 2 ≤ s.root.children.length) ∧
    (∀ k, k ∈ keys s.root → ∃ root1 sig s1, erase N k s.root = some (root1, sig) ∧
      s.erase N k = some (s1, 1) ∧ ADS_set.Reachable N s1 ∧ s1.head = s.head ∧
      (root1.leaf = false → root1.node_size = 0 →
        root1.children = [s1.root] ∧ keys s1.root = keys root1 ∧
        leafList s1.root = leafList root1) ∧
      (¬ (root1.leaf = false ∧ root1.node_size = 0) → s1.root = root1) ∧
      (s1.root.leaf = false → 1 ≤ s1.root.node_size ∧ 2 ≤ s1.root.children.length)) := by
  have hroot : ∀ s2 : ADS_set K, ADS_set.Inv N s2 → s2.root.leaf = false →
      1 ≤ s2.root.node_size ∧ 2 ≤ s2.root.children.length := by
    intro s2 hinv2 hlf
    obtain ⟨h, hwf, _, hsz, _⟩ := hinv2
    rcases WF.shape h s2.root hwf with ⟨_, q, _⟩ | ⟨q0, _, q⟩
    · rw [hlf] at q
      cases q
    · have := hsz q0
      omega
  have hinv := ADS_set.inv_of_reachable hN s hr
  refine ⟨hroot s hinv, ?_⟩
  intro k hk
  obtain ⟨s1, he, hinv1, _, _, hhead, _⟩ := ADS_set.erase_present hN s hinv k hk
  obtain ⟨h, hwf, _, hsz, hs, _, _, hnd, _⟩ := hinv
  obtain ⟨root1, sig, her, hpost⟩ := erase_spec hN k h s.root hwf hsz hs hk hnd
  have hreach : ADS_set.Reachable N s1 := ADS_set.Reachable.erase s s1 k 1 hr he
  refine ⟨root1, sig, s1, her, he, hreach, hhead, ?_, ?_, hroot s1 hinv1⟩
  · intro hlf h0
    have hwf1 : WF N h root1 := hpost.2.1
    have hlen : root1.children.length = 1 := by
      rcases WF.shape h root1 hwf1 with ⟨_, q, _⟩ | ⟨_, _, q⟩
      · rw [hlf] at q
        cases q
      · omega
    unfold ADS_set.erase at he
    cases hf : s.find k with
    | none => rw [hf] at he; cases he
    | some i =>
      rw [hf] at he
      simp only [] at he
      by_cases hi : i = ADS_set.end_
      · rw [if_pos hi] at he
        simp at he
      · rw [if_neg hi, her] at he
        simp only [] at he
        rw [if_pos ⟨h0, hlf⟩] at he
        obtain ⟨a1, lf1, d1, ch1, nx1⟩ := root1
        simp only [Node.leaf] at hlf
        subst hlf
        simp only [Node.children] at hlen he
        cases ch1 with
        | nil => simp at hlen
        | cons c cs =>
          have hcs : cs = [] := by
            simp only [List.length_cons] at hlen
            exact List.eq_nil_of_length_eq_zero (by omega)
          subst hcs
          simp only [Option.some.injEq, Prod.mk.injEq, and_true] at he
          subst he
          refine ⟨rfl, ?_, ?_⟩
          · rw [keys_node]
            simp
          · rw [leafList_node]
            simp
  · intro hn
    unfold ADS_set.erase at he
    cases hf : s.find k with
    | none => rw [hf] at he; cases he
    | some i =>
      rw [hf] at he
      simp only [] at he
      by_cases hi : i = ADS_set.end_
      · rw [if_pos hi] at he
        simp at he
      · rw [if_neg hi, her] at he
        simp only [] at he
        rw [if_neg (fun hc => hn ⟨hc.2, hc.1⟩)] at he
        simp only [Option.some.injEq, Prod.mk.injEq, and_true] at he
        subst he
        rfl

theorem C20_root_collapse_witness :
    (ADS_set.sample2.root.leaf = false →
      1 ≤ ADS_set.sample2.root.node_size ∧ 2 ≤ ADS_set.sample2.root.children.length) ∧
    (∃ root1 sig s1, erase 1 5 ADS_set.sample2.root = some (root1, sig) ∧
      ADS_set.sample2.erase 1 5 = some (s1, 1) ∧ ADS_set.Reachable 1 s1 ∧
      s1.head = ADS_set.sample2.head ∧
      (root1.leaf = false → root1.node_size = 0 →
        root1.children = [s1.root] ∧ keys s1.root = keys root1 ∧
        leafList s1.root = leafList root1) ∧
      (¬ (root1.leaf = false ∧ root1.node_size = 0) → s1.root = root1) ∧
      (s1.root.leaf = false → 1 ≤ s1.root.node_size ∧ 2 ≤ s1.root.children.length)) :=
  ⟨(C20_root_collapse 1 (le_refl 1) ADS_set.sample2 ADS_set.sample2_reachable).1,
    (C20_root_collapse 1 (le_refl 1) ADS_set.sample2 ADS_set.sample2_reachable).2 5
      (by decide)⟩

end ADS

namespace ADS

open Node

variable {K : Type}

/-! ## The depths of the leaves -/

namespace Node

theorem depths_list_eq (d : Nat) (ch : List (Node K)) :
    depths_list d ch = ch.flatMap (depths d) := by
  induction ch with
  | nil => simp [depths_list]
  | cons c cs ih => simp [depths_list, ih]

theorem depths_mk (d a : Nat) (lf : Bool) (dt : List K) (ch : List (Node K))
    (nx : Option Nat) :
    depths d (.mk a lf dt ch nx) = (d, .mk a lf dt ch nx) :: ch.flatMap (depths (d + 1)) := by
  rw [depths, depths_list_eq]

theorem flatMap_congr_mem {α β : Type} (l : List α) (f g : α → List β)
    (h : ∀ x ∈ l, f x = g x) : l.flatMap f = l.flatMap g := by
  induction l with
  | nil => rfl
  | cons x xs ih =>
    rw [List.flatMap_cons, List.flatMap_cons, h x (by simp),
      ih (fun y hy => h y (by simp [hy]))]

/-- In a well-shaped tree of height `h` the nodes listed with their depths are
the nodes of the tree, and every leaf among them lies `h` levels below the
top. -/
theorem WF.depths_spec {N : Nat} :
    ∀ (h : Nat) (t : Node K) (d : Nat), WF N h t →
      (depths d t).map Prod.snd = nodes t ∧
      ∀ p ∈ depths d t, p.2.leaf = true → p.1 = d + h := by
  intro h
  induction h with
  | zero =>
    intro t d hwf
    obtain ⟨a, lf, dt, ch, nx⟩ := t
    obtain ⟨h1, h2⟩ := (WF_leaf_mk ..).1 hwf
    subst h1; subst h2
    rw [depths_mk, nodes_mk]
    refine ⟨by simp, ?_⟩
    intro p hp _
    simp only [List.flatMap_nil, List.mem_singleton] at hp
    rw [hp]
    rfl
  | succ h ih =>
    intro t d hwf
    obtain ⟨a, lf, dt, ch, nx⟩ := t
    obtain ⟨h1, _, h3, _⟩ := (WF_node_mk ..).1 hwf
    subst h1
    rw [depths_mk, nodes_mk]
    refine ⟨?_, ?_⟩
    · rw [List.map_cons, List.map_flatMap]
      congr 1
      exact flatMap_congr_mem ch _ _ (fun c hc => (ih c (d + 1) (h3 c hc).1).1)
    · intro p hp hlf
      rcases List.mem_cons.1 hp with hp1 | hp1
      · rw [hp1] at hlf
        cases hlf
      · rw [List.mem_flatMap] at hp1
        obtain ⟨c, hc, hpc⟩ := hp1
        have := (ih c (d + 1) (h3 c hc).1).2 p hpc hlf
        omega

theorem foldr_max_const (l : List Nat) (h : Nat) (hall : ∀ x ∈ l, x = h) (hne : l ≠ []) :
    l.foldr max 0 = h := by
  induction l with
  | nil => exact absurd rfl hne
  | cons x xs ih =>
    have hx : x = h := hall x (by simp)
    subst hx
    rw [List.foldr_cons]
    cases xs with
    | nil => simp
    | cons y ys =>
      rw [ih (fun z hz => hall z (by simp [hz])) (by simp)]
      simp

/-- In a well-shaped tree of height `h` all leaves are at depth `h`, there is
one depth for each leaf of the tree, and the height is `h`. -/
theorem WF.balanced {N : Nat} (h : Nat) (t : Node K) (hwf : WF N h t) :
    (∀ x ∈ leafDepths t, x = h) ∧ (leafDepths t).length = (leafList t).length ∧
      height t = h := by
  obtain ⟨h1, h2⟩ := WF.depths_spec h t 0 hwf
  have hall : ∀ x ∈ leafDepths t, x = h := by
    intro x hx
    simp only [leafDepths, List.mem_map, List.mem_filter] at hx
    obtain ⟨p, ⟨hp, hlf⟩, hpx⟩ := hx
    have := h2 p hp hlf
    omega
  have hlen : (leafDepths t).length = (leafList t).length := by
    rw [leafDepths, leafList, ← h1, List.filter_map, List.length_map, List.length_map]
    rfl
  refine ⟨hall, hlen, ?_⟩
  apply foldr_max_const _ h hall
  intro hnil
  rw [hnil] at hlen
  have := WF.leafList_ne_nil h t hwf
  exact this (List.eq_nil_of_length_eq_zero hlen.symm)

end Node

variable [LinearOrder K]

namespace ADS_set

/-- What a successful `erase` stores: the root as `Node::erase` left it, or
its first child when it is an internal node without keys. -/
theorem erase_shape (N : Nat) (s s1 : ADS_set K) (key : K)
    (he : s.erase N key = some (s1, 1)) :
    ∃ root1 sig, Node.erase N key s.root = some (root1, sig) ∧
      ((root1.node_size = 0 ∧ root1.leaf = false ∧
          ∃ c cs, root1.children = c :: cs ∧ s1.root = c) ∨
       (¬ (root1.node_size = 0 ∧ root1.leaf = false) ∧ s1.root = root1)) := by
  unfold ADS_set.erase at he
  cases hf : s.find key with
  | none => rw [hf] at he; cases he
  | some i =>
    rw [hf] at he
    simp only [] at he
    by_cases hi : i = end_
    · rw [if_pos hi] at he
      simp at he
    · rw [if_neg hi] at he
      cases her : Node.erase N key s.root with
      | none => rw [her] at he; cases he
      | some r =>
        obtain ⟨root1, sig⟩ := r
        rw [her] at he
        simp only [] at he
        refine ⟨root1, sig, rfl, ?_⟩
        by_cases hc : root1.node_size = 0 ∧ root1.leaf = false
        · rw [if_pos hc] at he
          left
          refine ⟨hc.1, hc.2, ?_⟩
          cases hch : root1.children with
          | nil => rw [hch] at he; cases he
          | cons c cs =>
            rw [hch] at he
            simp only [Option.some.injEq, Prod.mk.injEq, and_true] at he
            subst he
            exact ⟨c, cs, rfl, rfl⟩
        · rw [if_neg hc] at he
          right
          simp only [Option.some.injEq, Prod.mk.injEq, and_true] at he
          subst he
          exact ⟨hc, rfl⟩

end ADS_set

end ADS

namespace ADS

open Node

variable {K : Type} [LinearOrder K]

/-! ## Balance -/

/-- C21: in every container reachable from the empty one by `insert` and
`erase` (`N ≥ 1`) all leaves of the tree are at the same depth, the height.
Every `insert` and every `erase` succeeds and leads to such a container again;
an `insert` leaves the height as it is or increases it by one, the latter only
when it stored a key and `Node::insert` on the root returned a new right node
(the root split), and then always; an `erase` leaves the height as it is or
decreases it by one, the latter only when it removed a key and `Node::erase`
left the root an internal node without keys (root collapse), and then
always. -/
theorem C21_balance (N : Nat) (hN : 1 ≤ N) (s : ADS_set K) (hr : ADS_set.Reachable N s) :
    (∀ x ∈ leafDepths s.root, x = height s.root) ∧
    (leafDepths s.root).length = (leafList s.root).length ∧
    (∀ k, ∃ s1 it b, s.insert N k = some (s1, it, b) ∧ ADS_set.Reachable N s1 ∧
      (∀ x ∈ leafDepths s1.root, x = height s1.root) ∧
      (height s1.root = height s.root ∨ height s1.root = height s.root + 1) ∧
      (height s1.root = height s.root + 1 → b = true ∧ ∃ root1 right fresh1,
        Node.insert N k s.root s.fresh = some (root1, some right, fresh1) ∧
        s1.root.children = [root1, right]) ∧
      (b = true → ∀ root1 right fresh1,
        Node.insert N k s.root s.fresh = some (root1, some right, fresh1) →
        height s1.root = height s.root + 1)) ∧
    (∀ k, ∃ s1 r, s.erase N k = some (s1, r) ∧ ADS_set.Reachable N s1 ∧
      (∀ x ∈ leafDepths s1.root, x = height s1.root) ∧
      (height s1.root = height s.root ∨ height s1.root + 1 = height s.root) ∧
      (height s1.root + 1 = height s.root → r = 1 ∧ ∃ root1 sig,
        Node.erase N k s.root = some (root1, sig) ∧ root1.leaf = false ∧
        root1.node_size = 0 ∧ root1.children = [s1.root]) ∧
      (r = 1 → ∀ root1 sig, Node.erase N k s.root = some (root1, sig) →
        root1.leaf = false → root1.node_size = 0 → height s1.root + 1 = height s.root)) := by
  have hbal : ∀ s2 : ADS_set K, ADS_set.Inv N s2 →
      ∀ x ∈ leafDepths s2.root, x = height s2.root := by
    intro s2 hinv2
    obtain ⟨h2, hwf2, _⟩ := hinv2
    obtain ⟨q1, _, q3⟩ := WF.balanced h2 s2.root hwf2
    intro x hx
    rw [q3]
    exact q1 x hx
  have hinv := ADS_set.inv_of_reachable hN s hr
  obtain ⟨h, hwf, hsz, hroot, hs, _, _, hnd, _⟩ := hinv
  obtain ⟨_, hlen, hh⟩ := WF.balanced h s.root hwf
  refine ⟨hbal s (ADS_set.inv_of_reachable hN s hr), hlen, ?_, ?_⟩
  · intro k
    by_cases hk : k ∈ keys s.root
    · obtain ⟨it, hins, _⟩ :=
        ADS_set.insert_present s (ADS_set.inv_of_reachable hN s hr) k hk
      refine ⟨s, it, false, hins, hr, hbal s (ADS_set.inv_of_reachable hN s hr), Or.inl rfl,
        ?_, ?_⟩
      · intro hc
        omega
      · intro hc
        cases hc
    · obtain ⟨s1, it, hins, hinv1, _⟩ :=
        ADS_set.insert_absent hN s (ADS_set.inv_of_reachable hN s hr) k hk
      obtain ⟨root1, ret, fresh1, hri, hnone, hsome⟩ := ADS_set.insert_shape N s s1 k it hins
      obtain ⟨t1, ret2, fresh2, hri2, hpost⟩ := insert_spec hN k h s.root s.fresh hwf hsz hs hk
      rw [hri] at hri2
      simp only [Option.some.injEq, Prod.mk.injEq] at hri2
      obtain ⟨e1, e2, e3⟩ := hri2
      subst e1; subst e2; subst e3
      have hwf1 : WF N h root1 := hpost.2.1
      have hreach : ADS_set.Reachable N s1 := ADS_set.Reachable.insert s s1 k (it, true) hr hins
      refine ⟨s1, it, true, hins, hreach, hbal s1 hinv1, ?_⟩
      cases ret with
      | none =>
        have hs1 := hnone rfl
        have hroot1 : s1.root = root1 := by rw [hs1]
        have hh1 : height s1.root = height s.root := by
          rw [hroot1, (WF.balanced h root1 hwf1).2.2, hh]
        refine ⟨Or.inl hh1, ?_, ?_⟩
        · intro hc
          omega
        · intro _ root2 right fresh3 hc
          rw [hri] at hc
          simp at hc
      | some r =>
        obtain ⟨m, _, hs1⟩ := hsome r rfl
        have hroot1 : s1.root = .mk fresh1 false [m] [root1, r] none := by rw [hs1]
        obtain ⟨h1, hwfs1, _⟩ := hinv1
        rw [hroot1] at hwfs1
        have hh1 : height s1.root = height s.root + 1 := by
          cases h1 with
          | zero =>
            obtain ⟨e, _⟩ := (WF_leaf_mk ..).1 hwfs1
            cases e
          | succ h1 =>
            obtain ⟨_, _, g3, _⟩ := (WF_node_mk ..).1 hwfs1
            have g := (g3 root1 (by simp)).1
            have e1 : height root1 = h1 := (WF.balanced h1 root1 g).2.2
            have e2 : height root1 = h := (WF.balanced h root1 hwf1).2.2
            rw [hroot1, (WF.balanced (h1 + 1) _ hwfs1).2.2, hh]
            omega
        refine ⟨Or.inr hh1, ?_, ?_⟩
        · intro _
          exact ⟨rfl, root1, r, fresh1, hri, by rw [hroot1]; rfl⟩
        · intro _ _ _ _ _
          exact hh1
  · intro k
    by_cases hk : k ∈ keys s.root
    · obtain ⟨s1, he, hinv1, _⟩ :=
        ADS_set.erase_present hN s (ADS_set.inv_of_reachable hN s hr) k hk
      obtain ⟨root1, sig, her, hcase⟩ := ADS_set.erase_shape N s s1 k he
      obtain ⟨t1, sig2, her2, hpost⟩ := erase_spec hN k h s.root hwf hroot hs hk hnd
      rw [her] at her2
      simp only [Option.some.injEq, Prod.mk.injEq] at her2
      obtain ⟨e1, e2⟩ := her2
      subst e1; subst e2
      have hwf1 : WF N h root1 := hpost.2.1
      have hreach : ADS_set.Reachable N s1 := ADS_set.Reachable.erase s s1 k 1 hr he
      refine ⟨s1, 1, he, hreach, hbal s1 hinv1, ?_⟩
      rcases hcase with ⟨c0, c1, c, cs, hch, hroot1⟩ | ⟨hnc, hroot1⟩
      · have hcs : cs = [] := by
          rcases WF.shape h root1 hwf1 with ⟨_, q, _⟩ | ⟨_, _, q⟩
          · rw [c1] at q
            cases q
          · rw [hch, c0] at q
            simp only [List.length_cons] at q
            exact List.eq_nil_of_length_eq_zero (by omega)
        subst hcs
        have hh1 : height s1.root + 1 = height s.root := by
          obtain ⟨a1, lf1, d1, ch1, nx1⟩ := root1
          simp only [Node.children] at hch
          subst hch
          cases h with
          | zero =>
            obtain ⟨e, _⟩ := (WF_leaf_mk ..).1 hwf1
            simp only [Node.leaf] at c1
            rw [c1] at e
            cases e
          | succ h0 =>
            obtain ⟨_, _, g3, _⟩ := (WF_node_mk ..).1 hwf1
            have g := (g3 c (by simp)).1
            rw [hroot1, (WF.balanced h0 c g).2.2, hh]
        refine ⟨Or.inr hh1, ?_, ?_⟩
        · intro _
          exact ⟨rfl, root1, sig, her, c1, c0, by rw [hch, hroot1]⟩
        · intro _ _ _ _ _ _
          exact hh1
      · have hh1 : height s1.root = height s.root := by
          rw [hroot1, (WF.balanced h root1 hwf1).2.2, hh]
        refine ⟨Or.inl hh1, ?_, ?_⟩
        · intro hc
          omega
        · intro _ root2 sig3 hc hlf h0
          rw [her] at hc
          simp only [Option.some.injEq, Prod.mk.injEq] at hc
          rw [← hc.1] at hlf h0
          exact absurd ⟨h0, hlf⟩ hnc
    · have he := ADS_set.erase_absent s (ADS_set.inv_of_reachable hN s hr) k hk
      refine ⟨s, 0, he, hr, hbal s (ADS_set.inv_of_reachable hN s hr), Or.inl rfl, ?_, ?_⟩
      · intro hc
        omega
      · intro hc
        cases hc

theorem C21_balance_witness :
    (∀ x ∈ leafDepths ADS_set.sample.root, x = height ADS_set.sample.root) ∧
    (∃ s1 r, ADS_set.sample2.erase 1 5 = some (s1, r) ∧ ADS_set.Reachable 1 s1 ∧
      (∀ x ∈ leafDepths s1.root, x = height s1.root) ∧
      (height s1.root = height ADS_set.sample2.root ∨
        height s1.root + 1 = height ADS_set.sample2.root) ∧
      (height s1.root + 1 = height ADS_set.sample2.root → r = 1 ∧ ∃ root1 sig,
        Node.erase 1 5 ADS_set.sample2.root = some (root1, sig) ∧ root1.leaf = false ∧
        root1.node_size = 0 ∧ root1.children = [s1.root]) ∧
      (r = 1 → ∀ root1 sig, Node.erase 1 5 ADS_set.sample2.root = some (root1, sig) →
        root1.leaf = false → root1.node_size = 0 →
        height s1.root + 1 = height ADS_set.sample2.root)) :=
  ⟨(C21_balance 1 (le_refl 1) ADS_set.sample ADS_set.sample_reachable).1,
    (C21_balance 1 (le_refl 1) ADS_set.sample2 ADS_set.sample2_reachable).2.2.2 5⟩

end ADS
